import Mathlib

/-!
# IDA Pro SigMaker: signature synthesis, uniqueness test and rendering

A shallow embedding of `IDA Pro SigMaker/Main.cpp`.

* `std::string` is a `List Char`; `ostringstream <<` is list append.
* `uint8_t` byte values are `Fin 256`; offsets, lengths and addresses are `Nat`
  with the wrap-around of their C++ type written out (`% 2^8`, `% 2^32`, `% 2^64`).
* The IDA SDK (image bytes, decoder, code flags, pattern search, yes/no prompt) is a
  record of functions, `Host`.  `imageHost` is a concrete host over a byte list, in
  which a pattern occurs at an address when it lies wholly inside the searched range
  and agrees with the image bytes up to ASCII case.
* `IS_ARM`, the process-wide flag set in `plugin_ctx_t::run`, is an explicit argument.
* What a function prints with `msg` or hands to `SetClipboard` is a list of `Event`s;
  `GenerateSignatureForEALog` is `GenerateSignatureForEA` together with that list.
* `std::ranges::sort` is a library routine: `FindXRefs` takes it as the argument
  `ranges_sort` and calls it with the comparator of the source, `FindXRefsComparator`.
  `RangesSortContract` is what the C++ standard promises of it, and
  `libstdcxx_ranges_sort` is the routine of libstdc++ (`bits/stl_algo.h`, `bits/stl_heap.h`),
  function by function; `libstdcxx_ranges_sort_contract` proves that it keeps the promise.
* The `while( true )` loop of `GenerateSignatureForEA` takes a fuel argument; the
  outer `Option` of its result is `none` only when the fuel ran out.
-/

namespace SigMaker

/-! ## Data model -/

/-- Modelled from the spec: `SignatureByte` is declared in `Main.h`; the spec gives it as
`{ value: u8, isWildcard: bool }`. -/
structure SignatureByte where
  value : Fin 256
  isWildcard : Bool
deriving DecidableEq, Repr

/-- Modelled from the spec: `Signature` is declared in `Main.h`; an ordered sequence of
`SignatureByte` (a `std::vector`, `push_back` appends at the end). -/
abbrev Signature := List SignatureByte

/-- Operand kinds of the disassembler (`optype_t`): the kinds the source names, and one
constructor for the register kind and one for every other kind. -/
inductive optype_t where
  | o_void
  | o_reg
  | o_mem
  | o_phrase
  | o_displ
  | o_imm
  | o_far
  | o_near
  | o_other
deriving DecidableEq, Repr

/-- Operand descriptor (`op_t`), the two fields the source reads.  `offb` is a `char`;
it is kept as a natural number and read modulo 256 wherever it is used. -/
structure op_t where
  type : optype_t
  offb : Nat
deriving DecidableEq, Repr

/-- Decoded instruction (`insn_t`): its size in bytes and its operand array `ops`
(the list holds the `UA_MAXOP` slots of the array, in index order). -/
structure insn_t where
  size : Nat
  ops : List op_t
deriving DecidableEq, Repr

/-- Searchable pattern (`compiled_binpat_vec_t`): one entry per byte, `none` for a
byte that matches anything. -/
abbrev compiled_binpat_vec_t := List (Option (Fin 256))

/-- Width of `ea_t` and `size_t`: 64 bits. -/
def EA_MOD : Nat := 18446744073709551616

/-- The `BADADDR` sentinel, all bits set. -/
def BADADDR : Nat := 18446744073709551615

/-- Address plus offset in `ea_t` arithmetic. -/
def ea_add (address n : Nat) : Nat := (address + n) % EA_MOD

/-- Conversion of a signed value to `size_t`. -/
def to_size_t (x : Int) : Nat := (x % (EA_MOD : Int)).toNat

/-- The services of the disassembler the plugin calls.
`decode_insn` gives the decoded instruction; the length it returns is the `size`
of that instruction, and `size = 0` is a failed decode.
`is_code a` stands for `is_code( get_flags( a ) )`.
`ask_yn n` is the answer to the prompt shown at signature size `n`
(`1` yes, `0` no, anything else cancel).
`bin_search2 start stop pat` is the forward search, `BADADDR` when nothing is found. -/
structure Host where
  min_ea : Nat
  max_ea : Nat
  get_byte : Nat → Fin 256
  is_code : Nat → Bool
  decode_insn : Nat → insn_t
  ask_yn : Nat → Int
  parse_binpat_str : List Char → compiled_binpat_vec_t
  bin_search2 : Nat → Nat → compiled_binpat_vec_t → Nat

/-! ## ByteCollector -/

/-- Source function `AddByteToSignature`: append one record holding the image byte at `address`. -/
def AddByteToSignature (h : Host) (signature : Signature) (address : Nat) (wildcard : Bool) :
    Signature :=
  signature ++ [SignatureByte.mk (h.get_byte address) wildcard]

/-- Source function `AddBytesToSignature`: the `for` loop over `i < count`. -/
def AddBytesToSignature (h : Host) (signature : Signature) (address count : Nat)
    (wildcard : Bool) : Signature :=
  (List.range count).foldl (fun sig i => AddByteToSignature h sig (ea_add address i) wildcard)
    signature

/-! ## OperandLocator -/

/-- The `for` loop of `GetOperandOffsetARM` over the operand slots.  The two
out-parameters are passed in and returned: `(found, operandOffset, operandLength)`. -/
def GetOperandOffsetARMLoop (instruction : insn_t) (operandOffset operandLength : Nat) :
    List op_t → Bool × Nat × Nat
  | [] => (false, operandOffset, operandLength)
  | op :: rest =>
    match op.type with
    | optype_t.o_mem | optype_t.o_far | optype_t.o_near
    | optype_t.o_phrase | optype_t.o_displ | optype_t.o_imm =>
      let operandLength4 := if instruction.size = 4 then 3 else operandLength
      let operandLength8 := if instruction.size = 8 then 7 else operandLength4
      (true, op.offb % 256, operandLength8)
    | _ => GetOperandOffsetARMLoop instruction operandOffset operandLength rest

/-- Source function `GetOperandOffsetARM`: its loop over the operand array. -/
def GetOperandOffsetARM (instruction : insn_t) (operandOffset operandLength : Nat) :
    Bool × Nat × Nat :=
  GetOperandOffsetARMLoop instruction operandOffset operandLength instruction.ops

/-- The `for` loop of the generic (metapc) part of `GetOperand` over the operand slots;
`instruction.size - op.offb` is stored into a `uint8_t`. -/
def GetOperandGenericLoop (instruction : insn_t) (operandOffset operandLength : Nat) :
    List op_t → Bool × Nat × Nat
  | [] => (false, operandOffset, operandLength)
  | op :: rest =>
    if op.type = optype_t.o_void then
      GetOperandGenericLoop instruction operandOffset operandLength rest
    else if op.offb % 256 = 0 then
      GetOperandGenericLoop instruction operandOffset operandLength rest
    else
      (true, op.offb % 256,
        (((instruction.size : Int) - (op.offb % 256 : Nat)) % 256).toNat)

/-- The generic (metapc) part of `GetOperand`. -/
def GetOperandGeneric (instruction : insn_t) (operandOffset operandLength : Nat) :
    Bool × Nat × Nat :=
  GetOperandGenericLoop instruction operandOffset operandLength instruction.ops

/-- Source function `GetOperand`: dispatch on the process-wide `IS_ARM` flag. -/
def GetOperand (IS_ARM : Bool) (instruction : insn_t) (operandOffset operandLength : Nat) :
    Bool × Nat × Nat :=
  if IS_ARM then GetOperandOffsetARM instruction operandOffset operandLength
  else GetOperandGeneric instruction operandOffset operandLength

/-! ## SignatureFormatter -/

/-- One uppercase hexadecimal digit. -/
def hexDigitUpper (n : Nat) : Char :=
  ['0', '1', '2', '3', '4', '5', '6', '7', '8', '9', 'A', 'B', 'C', 'D', 'E', 'F'].getD n '0'

/-- Two uppercase hexadecimal digits, high nibble first: `std::format` with the
specification `02X` on a `uint8_t`. -/
def format02X (v : Fin 256) : List Char :=
  [hexDigitUpper (v.val / 16), hexDigitUpper (v.val % 16)]

/-- Library call `std::string::pop_back` on a string known to be non-empty. -/
def pop_back (str : List Char) : List Char := str.dropLast

/-- Source function `GenerateSignatureString`: every entry followed by a space, then the last
character dropped when the string is not empty. -/
def GenerateSignatureString (signature : Signature) (doubleQM : Bool) : List Char :=
  let str := signature.foldl
    (fun result byte =>
      (if byte.isWildcard then result ++ (if doubleQM then ['?', '?'] else ['?'])
       else result ++ format02X byte.value) ++ [' ']) []
  if str.isEmpty then str else pop_back str

/-- Source function `GenerateCodeSignatureString`: the pattern and the mask are built
side by side, then joined by one space. -/
def GenerateCodeSignatureString (signature : Signature) : List Char :=
  let pm := signature.foldl
    (fun (pm : List Char × List Char) byte =>
      (pm.1 ++ [Char.ofNat 92, 'x'] ++ format02X (if byte.isWildcard then 0 else byte.value),
       pm.2 ++ (if byte.isWildcard then ['?'] else ['x']))) ([], [])
  pm.1 ++ [' '] ++ pm.2

/-- Source function `GenerateByteArrayWithBitMaskSignatureString`: the mask is reversed,
the last separator (two characters) is removed from a non-empty pattern. -/
def GenerateByteArrayWithBitMaskSignatureString (signature : Signature) : List Char :=
  let pm := signature.foldl
    (fun (pm : List Char × List Char) byte =>
      (pm.1 ++ ['0', 'x'] ++ format02X (if byte.isWildcard then 0 else byte.value) ++ [',', ' '],
       pm.2 ++ (if byte.isWildcard then ['0'] else ['1']))) ([], [])
  let maskStr := pm.2.reverse
  let patternStr := if pm.1.isEmpty then pm.1 else pop_back (pop_back pm.1)
  patternStr ++ [' '] ++ [' ', '0', 'b'] ++ maskStr

/-- Modelled from the spec: `SignatureType` is declared in `Main.h`; the four output
encodings, with the enumerator names the `switch` of `FormatSignature` uses. -/
inductive SignatureType where
  | IDA
  | x64Dbg
  | Signature_Mask
  | SignatureByteArray_Bitmask
deriving DecidableEq, Repr

/-- Source function `FormatSignature`: the `switch` over the encoding. -/
def FormatSignature (signature : Signature) (type : SignatureType) : List Char :=
  match type with
  | SignatureType.IDA => GenerateSignatureString signature false
  | SignatureType.x64Dbg => GenerateSignatureString signature true
  | SignatureType.Signature_Mask => GenerateCodeSignatureString signature
  | SignatureType.SignatureByteArray_Bitmask =>
    GenerateByteArrayWithBitMaskSignatureString signature

/-! ## UniquenessOracle -/

/-- Source function `IsSignatureUnique`: two forward searches over `[min_ea, max_ea)`. -/
def IsSignatureUnique (h : Host) (signature : List Char) : Bool :=
  let binaryPattern := h.parse_binpat_str signature
  let lastOccurence := h.min_ea
  let occurence := h.bin_search2 lastOccurence h.max_ea binaryPattern
  if occurence = BADADDR then false
  else
    let lastOccurence2 := ea_add occurence 1
    let occurence2 := h.bin_search2 lastOccurence2 h.max_ea binaryPattern
    decide (occurence2 = BADADDR)

/-! ## SignatureSynthesizer -/

/-- Source function `TrimSignature`: `find_if` over the reversed vector for the first entry that is
not a wildcard, then `erase` from its base to the end. -/
def TrimSignature (signature : Signature) : Signature :=
  (signature.reverse.dropWhile (fun sb => sb.isWildcard)).reverse

/-- The part of the loop body of `GenerateSignatureForEA` that appends one decoded
instruction (from the declaration of `operandOffset` to the end of the `else`). -/
def appendInstruction (h : Host) (IS_ARM wildcardOperands : Bool) (signature : Signature)
    (currentAddress : Nat) (instruction : insn_t) : Signature :=
  let currentInstructionLength : Int := instruction.size
  let r := GetOperand IS_ARM instruction 0 0
  let operandOffset := r.2.1
  let operandLength := r.2.2
  if wildcardOperands && r.1 && decide (operandLength > 0) then
    let sig1 := AddBytesToSignature h signature currentAddress operandOffset false
    let sig2 := AddBytesToSignature h sig1 (ea_add currentAddress operandOffset) operandLength true
    if operandOffset = 0 then
      AddBytesToSignature h sig2 (ea_add currentAddress operandLength)
        (to_size_t (currentInstructionLength - operandLength)) false
    else sig2
  else
    AddBytesToSignature h signature currentAddress (to_size_t currentInstructionLength) false

/-- The length check at the top of the loop body: `some n` is the value of
`sigPartLength` with which the iteration goes on, `none` leaves the loop without a
result (`break` or `return std::nullopt`). -/
def lengthGuard (h : Host) (maxSignatureLength : Nat) (askLongerSignature : Bool)
    (signature : Signature) (sigPartLength : Nat) : Option Nat :=
  if sigPartLength > maxSignatureLength then
    if askLongerSignature then
      let result := h.ask_yn signature.length
      if result = 1 then some 0
      else none
    else none
  else some sigPartLength

/-- The `while( true )` loop of `GenerateSignatureForEA`.  `none`: the fuel ran out;
`some r`: the function returned `r`. -/
def GenerateSignatureLoop (h : Host) (IS_ARM wildcardOperands : Bool) (maxSignatureLength : Nat)
    (askLongerSignature : Bool) :
    Nat → Signature → Nat → Nat → Option (Option Signature)
  | 0, _, _, _ => none
  | fuel + 1, signature, sigPartLength, currentAddress =>
    let instruction := h.decode_insn currentAddress
    let currentInstructionLength : Int := instruction.size
    if currentInstructionLength ≤ 0 then some none
    else
      match lengthGuard h maxSignatureLength askLongerSignature signature sigPartLength with
      | none => some none
      | some checkedLength =>
        let sigPartLength2 := (checkedLength + instruction.size) % 4294967296
        let signature2 :=
          appendInstruction h IS_ARM wildcardOperands signature currentAddress instruction
        let currentSig := GenerateSignatureString signature2 false
        if IsSignatureUnique h currentSig then some (some (TrimSignature signature2))
        else
          GenerateSignatureLoop h IS_ARM wildcardOperands maxSignatureLength askLongerSignature
            fuel signature2 sigPartLength2 (ea_add currentAddress instruction.size)

/-- Source function `GenerateSignatureForEA`: the two checks of the anchor, then the
loop from the empty signature. -/
def GenerateSignatureForEA (h : Host) (IS_ARM : Bool) (fuel : Nat) (ea : Nat)
    (wildcardOperands : Bool) (maxSignatureLength : Nat) (askLongerSignature : Bool) :
    Option (Option Signature) :=
  if ea = BADADDR then some none
  else if !h.is_code ea then some none
  else
    GenerateSignatureLoop h IS_ARM wildcardOperands maxSignatureLength askLongerSignature
      fuel [] 0 ea

/-! ## A concrete host over a byte list -/

/-- Value of one hexadecimal digit, either case. -/
def hexValue (c : Char) : Option Nat :=
  if 48 ≤ c.toNat ∧ c.toNat ≤ 57 then some (c.toNat - 48)
  else if 65 ≤ c.toNat ∧ c.toNat ≤ 70 then some (c.toNat - 55)
  else if 97 ≤ c.toNat ∧ c.toNat ≤ 102 then some (c.toNat - 87)
  else none

/-- Split a string at every space. -/
def splitSpaces : List Char → List (List Char)
  | [] => [[]]
  | c :: cs =>
    if c = ' ' then [] :: splitSpaces cs
    else
      match splitSpaces cs with
      | [] => [[c]]
      | t :: ts => (c :: t) :: ts

/-- One token of a pattern string: `?` is a byte that matches anything, one or two
hexadecimal digits are a byte value. -/
def parseToken : List Char → Option (Option (Fin 256))
  | [c] =>
    if c = '?' then some none
    else (hexValue c).map (fun v => some (Fin.ofNat v))
  | [c, d] =>
    match hexValue c, hexValue d with
    | some a, some b => some (some (Fin.ofNat (16 * a + b)))
    | _, _ => none
  | _ => none

/-- All tokens parsed, or `none` when one of them is not a token. -/
def parseTokens : List (List Char) → Option compiled_binpat_vec_t
  | [] => some []
  | t :: ts =>
    match parseToken t, parseTokens ts with
    | some b, some bs => some (b :: bs)
    | _, _ => none

/-- Modelled from the spec: the SDK function `parse_binpat_str` with radix 16, on the
pattern strings the plugin hands to it (space-separated hex byte pairs, `?` for a
wildcard byte).  A string that does not parse leaves the pattern empty; the source
ignores the return value. -/
def parse_binpat_str_model (signature : List Char) : compiled_binpat_vec_t :=
  match parseTokens (splitSpaces signature) with
  | some pat => pat
  | none => []

/-- ASCII case folding of a byte (`BIN_SEARCH_NOCASE`). -/
def foldCase (b : Fin 256) : Fin 256 :=
  if 65 ≤ b.val ∧ b.val ≤ 90 then b + 32 else b

/-- The pattern agrees with the image bytes from `ea` on. -/
def patMatches (get_byte : Nat → Fin 256) : compiled_binpat_vec_t → Nat → Bool
  | [], _ => true
  | none :: rest, ea => patMatches get_byte rest (ea + 1)
  | some v :: rest, ea =>
    (foldCase v == foldCase (get_byte ea)) && patMatches get_byte rest (ea + 1)

/-- An occurrence of the pattern at `ea` inside a range ending at `stop`: the pattern is
not empty, lies wholly below `stop`, and agrees with the image. -/
def occursAt (get_byte : Nat → Fin 256) (pat : compiled_binpat_vec_t) (stop ea : Nat) : Bool :=
  !pat.isEmpty && decide (ea + pat.length ≤ stop) && patMatches get_byte pat ea

/-- Modelled from the spec: the SDK search `bin_search2` with the flags
`BIN_SEARCH_NOCASE | BIN_SEARCH_FORWARD`, the spec's
`searchForward(pattern, fromAddress, toAddress) -> Option<Address>` (case-insensitive,
wildcard-aware): the lowest address in `[start, stop)` at which the pattern occurs
inside the range, `BADADDR` when there is none. -/
def bin_search2_model (get_byte : Nat → Fin 256) (start stop : Nat)
    (pat : compiled_binpat_vec_t) : Nat :=
  match (List.range' start (stop - start)).find? (occursAt get_byte pat stop) with
  | some ea => ea
  | none => BADADDR

/-- The host over an image of `image.length` bytes loaded at `base`; a byte outside the
image reads as `0xFF`. -/
def imageHost (base : Nat) (image : List (Fin 256)) (code : Nat → Bool)
    (decode : Nat → insn_t) (ask : Nat → Int) : Host :=
  let get_byte := fun a => if base ≤ a then image.getD (a - base) 255 else 255
  Host.mk base (base + image.length) get_byte code decode ask
    parse_binpat_str_model (bin_search2_model get_byte)

/-- The pattern a signature stands for: `none` at a wildcard, the value elsewhere. -/
def toPattern (signature : Signature) : compiled_binpat_vec_t :=
  signature.map (fun sb => if sb.isWildcard then none else some sb.value)

/-! ## Specification-side definitions and example hosts -/

/-- Token of one entry in the hex-string styles: the value as two uppercase hex digits,
or the wildcard placeholder. -/
def entryToken (doubleQM : Bool) (sb : SignatureByte) : List Char :=
  if sb.isWildcard then (if doubleQM then ['?', '?'] else ['?'])
  else [hexDigitUpper (sb.value.val / 16), hexDigitUpper (sb.value.val % 16)]

/-- The escape of one entry in the pattern part of the Pattern+Mask encoding. -/
def codeEscape (sb : SignatureByte) : List Char :=
  if sb.isWildcard then [Char.ofNat 92, 'x', '0', '0']
  else [Char.ofNat 92, 'x', hexDigitUpper (sb.value.val / 16), hexDigitUpper (sb.value.val % 16)]

/-- The mask character of one entry in the Pattern+Mask encoding. -/
def maskChar (sb : SignatureByte) : Char :=
  if sb.isWildcard then '?' else 'x'

/-- The literal of one entry in the byte list of the ByteArray+Bitmask encoding. -/
def byteLiteral (sb : SignatureByte) : List Char :=
  if sb.isWildcard then ['0', 'x', '0', '0']
  else ['0', 'x', hexDigitUpper (sb.value.val / 16), hexDigitUpper (sb.value.val % 16)]

/-- The mask digit of one entry in the ByteArray+Bitmask encoding. -/
def maskBit (sb : SignatureByte) : Char :=
  if sb.isWildcard then '0' else '1'

/-- A string of binary digits read as a number, most significant digit first. -/
def binaryValue (digits : List Char) : Nat :=
  digits.foldl (fun acc c => 2 * acc + (if c = '1' then 1 else 0)) 0

/-- Sum of `2^i` over the indices `i` of the fixed entries. -/
def fixedWeight (s : Signature) : Nat :=
  ((List.range s.length).map
    (fun i => if (s.getD i (SignatureByte.mk 0 true)).isWildcard then 0 else 2 ^ i)).sum

/-- Number of wildcard entries at the end of a signature, counted from the back. -/
def trailingWildcards : Signature → Nat
  | [] => 0
  | sb :: rest =>
    if rest.all (fun x => x.isWildcard) then
      (if sb.isWildcard then rest.length + 1 else rest.length)
    else trailingWildcards rest

/-- The entries one instruction contributes when its bytes from offset `k` on are
wildcards: entry `i` holds the image byte at `address + i` and is a wildcard iff `k ≤ i`. -/
def maskedBytes (h : Host) (address count k : Nat) : Signature :=
  (List.range count).map (fun i => SignatureByte.mk (h.get_byte (ea_add address i)) (decide (k ≤ i)))

/-- The image bytes at `address, address + 1, ...` as entries with one wildcard flag. -/
def imageBytes (h : Host) (address count : Nat) (wildcard : Bool) : Signature :=
  (List.range count).map (fun i => SignatureByte.mk (h.get_byte (ea_add address i)) wildcard)

/-- The contract of a forward search primitive for one pattern over the range ending at
`stop`, relative to a notion `M` of "the pattern matches at this address": from every
start it returns the lowest matching address in `[start, stop)`, or `BADADDR` when
there is none. -/
def LowestMatchSearch (search : Nat → Nat) (stop : Nat) (M : Nat → Prop) : Prop :=
  ∀ start : Nat,
    (search start = BADADDR ∧ ∀ a, start ≤ a → a < stop → ¬ M a)
    ∨ (start ≤ search start ∧ search start < stop ∧ M (search start)
        ∧ ∀ b, start ≤ b → b < search start → ¬ M b)

/-- Address of the instruction that follows the first `n` instructions from `ea`. -/
def cursorAfter (h : Host) (ea : Nat) : Nat → Nat
  | 0 => ea
  | n + 1 => ea_add (cursorAfter h ea n) (h.decode_insn (cursorAfter h ea n)).size

/-- The pattern built from the first `n` instructions from `ea`. -/
def patternAfter (h : Host) (IS_ARM wildcardOperands : Bool) (ea : Nat) : Nat → Signature
  | 0 => []
  | n + 1 =>
    appendInstruction h IS_ARM wildcardOperands (patternAfter h IS_ARM wildcardOperands ea n)
      (cursorAfter h ea n) (h.decode_insn (cursorAfter h ea n))

/-- Decoder of the example image: `push`, a two-byte register move, a five-byte call
whose operand starts at offset 1; nothing decodes elsewhere. -/
def exampleDecode (a : Nat) : insn_t :=
  if a = 0 then insn_t.mk 1 []
  else if a = 1 then insn_t.mk 2 [op_t.mk optype_t.o_reg 0, op_t.mk optype_t.o_reg 0]
  else if a = 3 then insn_t.mk 5 [op_t.mk optype_t.o_near 1]
  else insn_t.mk 0 []

/-- An 18-byte image in which the first three instructions are unique together and no
shorter run of them is. -/
def exampleHost : Host :=
  imageHost 0
    [0x55, 0x8B, 0xEC, 0xE8, 0x10, 0x20, 0x30, 0x40, 0x55, 0x8B, 0xEC, 0x90, 0x55,
     0xE8, 0, 0, 0, 0]
    (fun a => decide (a < 18)) exampleDecode (fun _ => 0)

/-- A six-byte image: a five-byte call at the anchor, and the call opcode once more as
the last byte of the image. -/
def edgeHost : Host :=
  imageHost 0 [0xE8, 0, 0, 0, 0, 0xE8] (fun a => decide (a = 0))
    (fun a => if a = 0 then insn_t.mk 5 [op_t.mk optype_t.o_near 1] else insn_t.mk 0 [])
    (fun _ => 0)

/-- A 13-byte ARM image: a four-byte instruction with an immediate operand reported at
byte offset 2, a four-byte instruction without operands, and the first two bytes of the
anchor once more further on. -/
def armHost : Host :=
  imageHost 0
    [0x10, 0x11, 0x12, 0x13, 0x14, 0x15, 0x16, 0x17, 0x10, 0x11, 0x12, 0x13, 0x14]
    (fun a => decide (a < 8))
    (fun a => if a = 0 then insn_t.mk 4 [op_t.mk optype_t.o_imm 2]
      else if a = 4 then insn_t.mk 4 []
      else insn_t.mk 0 [])
    (fun _ => 0)

/-- Total length of the first `n` instructions from `ea`. -/
def consumedLength (h : Host) (ea : Nat) : Nat → Nat
  | 0 => 0
  | n + 1 => consumedLength h ea n + (h.decode_insn (cursorAfter h ea n)).size

/-- The image bytes at `address, address + 1, ...`, `count` of them. -/
def imageValues (h : Host) (address count : Nat) : List (Fin 256) :=
  (List.range count).map (fun i => h.get_byte (ea_add address i))

/-- The operand offsets the two operand policies are written for: in generic mode an
offset inside an instruction of at most 255 bytes, in ARM mode an offset of 0 or 1. -/
def operandOffsetsFit (IS_ARM : Bool) (ins : insn_t) : Prop :=
  ins.size < 65536
  ∧ (IS_ARM = false → ins.size ≤ 255 ∧ ∀ o ∈ ins.ops, o.offb % 256 ≤ ins.size)
  ∧ (IS_ARM = true → ∀ o ∈ ins.ops, o.offb % 256 ≤ 1)

/-- The operand kinds the ARM policy wildcards: memory, far, near, phrase, displacement
and immediate. -/
def armQualifies (t : optype_t) : Bool :=
  match t with
  | optype_t.o_mem | optype_t.o_far | optype_t.o_near
  | optype_t.o_phrase | optype_t.o_displ | optype_t.o_imm => true
  | _ => false

/-- An ARM image: a four-byte instruction whose first qualifying operand is an immediate
at offset 1 (after a register operand), an eight-byte one with a memory operand at
offset 0, a two-byte one with an immediate operand, a four-byte one with register
operands only. -/
def armExampleHost : Host :=
  imageHost 0
    [0x01, 0x02, 0x03, 0x04, 0x11, 0x12, 0x13, 0x14, 0x15, 0x16, 0x17, 0x18, 0x21, 0x22,
     0x31, 0x32, 0x33, 0x34]
    (fun a => decide (a < 18))
    (fun a =>
      if a = 0 then insn_t.mk 4 [op_t.mk optype_t.o_reg 0, op_t.mk optype_t.o_imm 1]
      else if a = 4 then insn_t.mk 8 [op_t.mk optype_t.o_mem 0]
      else if a = 12 then insn_t.mk 2 [op_t.mk optype_t.o_imm 1]
      else if a = 14 then insn_t.mk 4 [op_t.mk optype_t.o_reg 0, op_t.mk optype_t.o_reg 0]
      else insn_t.mk 0 [])
    (fun _ => 0)

/-- One observable action of the plugin: a line written with `msg` (one constructor per
format string of the source, carrying the arguments that are printed), the `ask_yn`
prompt, or a call of `SetClipboard` with the text to copy. -/
inductive Event where
  | msgInvalidAddress
  | msgNotCode
  | msgCantDecode (currentAddress : Nat)
  | msgReachedEnd (currentAddress : Nat)
  | msgNotUnique (ea : Nat) (signatureString : List Char)
  | askContinue (signatureSize : Nat)
  | msgSignatureFor (ea : Nat) (signatureStr : List Char)
  | msgNoXrefs
  | msgTopSignatures (topLength total ea : Nat)
  | msgXrefSignature (number originAddress : Nat) (signatureStr : List Char)
  | msgSelectionTooSmall (start endEA : Nat)
  | msgCodeFor (start endEA : Nat) (signatureStr : List Char)
  | SetClipboard (text : List Char)
deriving DecidableEq, Repr

/-- Source function `PrintSelectedCode`, as the list of its observable actions.
`end - start` is `ea_t` arithmetic; the parameter `end` of the source is `endEA`. -/
def PrintSelectedCode (h : Host) (start endEA : Nat) (sigType : SignatureType) : List Event :=
  let selectionSize := to_size_t ((endEA : Int) - (start : Int))
  if selectionSize = 0 then [Event.msgSelectionTooSmall start endEA]
  else
    let signature := AddBytesToSignature h [] start selectionSize false
    let signatureStr := FormatSignature signature sigType
    [Event.msgCodeFor start endEA signatureStr, Event.SetClipboard signatureStr]

/-- Byte `i` of the example image for the end-to-end scenario: `90 90 C3` at offset
0x1000, zero elsewhere, except that with `pairElsewhere` the first two bytes are `90 90`. -/
def nopByte (pairElsewhere : Bool) (i : Nat) : Fin 256 :=
  if i = 4096 ∨ i = 4097 then 144
  else if i = 4098 then 195
  else if pairElsewhere && decide (i < 2) then 144
  else 0

/-- The 0x2000-byte example image for the end-to-end scenario. -/
def nopImage (pairElsewhere : Bool) : List (Fin 256) :=
  (List.range 8192).map (nopByte pairElsewhere)

/-- The host over `nopImage` loaded at address 0: the three bytes at 0x1000 are code and
decode as one-byte instructions without operands. -/
def nopHost (pairElsewhere : Bool) : Host :=
  imageHost 0 (nopImage pairElsewhere) (fun a => decide (4096 ≤ a ∧ a < 4099))
    (fun a => if 4096 ≤ a ∧ a < 4099 then insn_t.mk 1 [] else insn_t.mk 0 [])
    (fun _ => 0)

/-- An entry of the xref result vector, `std::tuple<ea_t, Signature>`: the origin
address and its signature. -/
abbrev XrefEntry := Nat × Signature

/-- The `for` loop of `FindXRefs` over the origins `xref.from` in the order the
reference iterator yields them; every call of `GenerateSignatureForEA` gets `fuel`, and
`none` means one of them ran out of it. -/
def FindXRefsLoop (h : Host) (IS_ARM : Bool) (fuel : Nat) (wildcardOperands : Bool)
    (maxSignatureLength : Nat) : List Nat → List XrefEntry → Option (List XrefEntry)
  | [], xrefSignatures => some xrefSignatures
  | origin :: rest, xrefSignatures =>
    if !h.is_code origin then
      FindXRefsLoop h IS_ARM fuel wildcardOperands maxSignatureLength rest xrefSignatures
    else
      match GenerateSignatureForEA h IS_ARM fuel origin wildcardOperands maxSignatureLength
          false with
      | none => none
      | some none =>
        FindXRefsLoop h IS_ARM fuel wildcardOperands maxSignatureLength rest xrefSignatures
      | some (some signature) =>
        FindXRefsLoop h IS_ARM fuel wildcardOperands maxSignatureLength rest
          (xrefSignatures ++ [(origin, signature)])

/-- The comparator that `FindXRefs` passes to `std::ranges::sort`, the lambda
`std::get<1>( a ).size() < std::get<1>( b ).size()`. -/
def FindXRefsComparator (a b : XrefEntry) : Bool :=
  decide (a.2.length < b.2.length)

/-- Source function `FindXRefs`.  `xrefs_to ea` is the sequence of origins of the far
references to `ea` (`first_to` / `next_to`); `ranges_sort` is the library routine
`std::ranges::sort`, called on the vector with the comparator of the source. -/
def FindXRefs (h : Host) (IS_ARM : Bool)
    (ranges_sort : (XrefEntry → XrefEntry → Bool) → List XrefEntry → List XrefEntry)
    (xrefs_to : Nat → List Nat) (fuel : Nat) (ea : Nat) (wildcardOperands : Bool)
    (xrefSignatures : List XrefEntry) (maxSignatureLength : Nat) : Option (List XrefEntry) :=
  (FindXRefsLoop h IS_ARM fuel wildcardOperands maxSignatureLength (xrefs_to ea)
    xrefSignatures).map (ranges_sort FindXRefsComparator)

/-- Source function `PrintXRefSignaturesForEA`, as the list of its observable actions.
The `int` loop counter is a natural number (the vector has fewer than `2^31` entries). -/
def PrintXRefSignaturesForEA (ea : Nat) (xrefSignatures : List XrefEntry)
    (sigType : SignatureType) (topCount : Nat) : List Event :=
  if xrefSignatures.isEmpty then [Event.msgNoXrefs]
  else
    let topLength := min topCount xrefSignatures.length
    Event.msgTopSignatures topLength xrefSignatures.length ea ::
      ((List.range topLength).map (fun i =>
        let entry := xrefSignatures.getD i (0, [])
        let signatureStr := FormatSignature entry.2 sigType
        Event.msgXrefSignature (i + 1) entry.1 signatureStr ::
          (if i = 0 then [Event.SetClipboard signatureStr] else []))).flatten

/-- The requirement of `std::ranges::sort` on its comparator (C++ standard,
[alg.sorting]): `comp` induces a strict weak ordering.  No element is before itself,
"before" is transitive, and so is equivalence, where two elements are equivalent when
neither is before the other. -/
def StrictWeakOrdering (comp : XrefEntry → XrefEntry → Bool) : Prop :=
  (∀ a, comp a a = false)
  ∧ (∀ a b c, comp a b = true → comp b c = true → comp a c = true)
  ∧ (∀ a b c, (comp a b = false ∧ comp b a = false) → (comp b c = false ∧ comp c b = false) →
      (comp a c = false ∧ comp c a = false))

/-- The contract of the library routine `std::ranges::sort` in the C++ standard
([alg.sort]): called with a comparator that induces a strict weak ordering, it
rearranges the elements of the vector so that the vector is sorted with respect to the
comparator, that is, no element is before an element that stands earlier.  The standard
promises nothing about the order in which equivalent elements are left; that promise
belongs to `std::ranges::stable_sort`. -/
def RangesSortContract
    (ranges_sort : (XrefEntry → XrefEntry → Bool) → List XrefEntry → List XrefEntry) : Prop :=
  ∀ comp, StrictWeakOrdering comp → ∀ v,
    List.Perm (ranges_sort comp v) v
    ∧ List.Pairwise (fun a b => comp b a = false) (ranges_sort comp v)

/-- Read of `*(first + i)` in the vector being sorted. -/
def vecGet (v : List XrefEntry) (i : Nat) : XrefEntry := v.getD i (0, [])

/-- Library call `std::iter_swap` on two positions of the vector. -/
def iter_swap (v : List XrefEntry) (i j : Nat) : List XrefEntry :=
  (v.set i (vecGet v j)).set j (vecGet v i)

/-- Library function `std::__lg`: the position of the highest set bit. -/
def std_lg : Nat → Nat → Nat
  | 0, _ => 0
  | fuel + 1, n => if 2 ≤ n then std_lg fuel (n / 2) + 1 else 0

/-- Library function `std::__move_median_to_first` (libstdc++ `bits/stl_algo.h`). -/
def move_median_to_first (comp : XrefEntry → XrefEntry → Bool) (v : List XrefEntry)
    (result a b c : Nat) : List XrefEntry :=
  if comp (vecGet v a) (vecGet v b) then
    if comp (vecGet v b) (vecGet v c) then iter_swap v result b
    else if comp (vecGet v a) (vecGet v c) then iter_swap v result c
    else iter_swap v result a
  else if comp (vecGet v a) (vecGet v c) then iter_swap v result a
  else if comp (vecGet v b) (vecGet v c) then iter_swap v result c
  else iter_swap v result b

/-- The loop `while (comp(first, pivot)) ++first` of `std::__unguarded_partition`. -/
def partition_advance (comp : XrefEntry → XrefEntry → Bool) (v : List XrefEntry)
    (pivot : Nat) : Nat → Nat → Nat
  | 0, first => first
  | fuel + 1, first =>
    if comp (vecGet v first) (vecGet v pivot) then
      partition_advance comp v pivot fuel (first + 1)
    else first

/-- The loop `while (comp(pivot, last)) --last` of `std::__unguarded_partition`. -/
def partition_retreat (comp : XrefEntry → XrefEntry → Bool) (v : List XrefEntry)
    (pivot : Nat) : Nat → Nat → Nat
  | 0, last => last
  | fuel + 1, last =>
    if comp (vecGet v pivot) (vecGet v last) then
      partition_retreat comp v pivot fuel (last - 1)
    else last

/-- Library function `std::__unguarded_partition`: the vector after the swaps and the
returned cut position.  The fuel bounds the outer `while (true)`. -/
def unguarded_partition (comp : XrefEntry → XrefEntry → Bool) (pivot : Nat) :
    Nat → List XrefEntry → Nat → Nat → List XrefEntry × Nat
  | 0, v, first, _ => (v, first)
  | fuel + 1, v, first, last =>
    let first1 := partition_advance comp v pivot v.length first
    let last1 := partition_retreat comp v pivot v.length (last - 1)
    if first1 < last1 then
      unguarded_partition comp pivot fuel (iter_swap v first1 last1) (first1 + 1) last1
    else (v, first1)

/-- Library function `std::__unguarded_partition_pivot`. -/
def unguarded_partition_pivot (comp : XrefEntry → XrefEntry → Bool) (v : List XrefEntry)
    (first last : Nat) : List XrefEntry × Nat :=
  let mid := first + (last - first) / 2
  let v1 := move_median_to_first comp v first (first + 1) mid (last - 1)
  unguarded_partition comp first v1.length v1 (first + 1) last

/-- Library function `std::__push_heap` on the heap that starts at `first`. -/
def push_heap (comp : XrefEntry → XrefEntry → Bool) (first topIndex : Nat)
    (value : XrefEntry) : Nat → List XrefEntry → Nat → List XrefEntry
  | 0, v, holeIndex => v.set (first + holeIndex) value
  | fuel + 1, v, holeIndex =>
    let parent := (holeIndex - 1) / 2
    if topIndex < holeIndex && comp (vecGet v (first + parent)) value then
      push_heap comp first topIndex value fuel
        (v.set (first + holeIndex) (vecGet v (first + parent))) parent
    else v.set (first + holeIndex) value

/-- The `while (secondChild < (len - 1) / 2)` loop of `std::__adjust_heap`: the vector,
the hole and the second child when the loop ends. -/
def adjust_heap_down (comp : XrefEntry → XrefEntry → Bool) (first len : Nat) :
    Nat → List XrefEntry → Nat → Nat → List XrefEntry × Nat × Nat
  | 0, v, holeIndex, secondChild => (v, holeIndex, secondChild)
  | fuel + 1, v, holeIndex, secondChild =>
    if secondChild < (len - 1) / 2 then
      let child := 2 * (secondChild + 1)
      let child2 :=
        if comp (vecGet v (first + child)) (vecGet v (first + (child - 1))) then child - 1
        else child
      adjust_heap_down comp first len fuel
        (v.set (first + holeIndex) (vecGet v (first + child2))) child2 child2
    else (v, holeIndex, secondChild)

/-- Library function `std::__adjust_heap`. -/
def adjust_heap (comp : XrefEntry → XrefEntry → Bool) (v : List XrefEntry)
    (first holeIndex len : Nat) (value : XrefEntry) : List XrefEntry :=
  let topIndex := holeIndex
  let r := adjust_heap_down comp first len v.length v holeIndex holeIndex
  let v1 := r.1
  let hole1 := r.2.1
  let secondChild := r.2.2
  if len % 2 = 0 ∧ secondChild = (len - 2) / 2 then
    let child := 2 * (secondChild + 1)
    let v2 := v1.set (first + hole1) (vecGet v1 (first + (child - 1)))
    push_heap comp first topIndex value v.length v2 (child - 1)
  else push_heap comp first topIndex value v.length v1 hole1

/-- Library function `std::__pop_heap`. -/
def pop_heap (comp : XrefEntry → XrefEntry → Bool) (v : List XrefEntry)
    (first last result : Nat) : List XrefEntry :=
  let value := vecGet v result
  let v1 := v.set result (vecGet v first)
  adjust_heap comp v1 first 0 (last - first) value

/-- The `while (true)` loop of `std::__make_heap`, from `parent` down to 0. -/
def make_heap_loop (comp : XrefEntry → XrefEntry → Bool) (first len : Nat) :
    Nat → List XrefEntry → List XrefEntry
  | 0, v => adjust_heap comp v first 0 len (vecGet v first)
  | parent + 1, v =>
    make_heap_loop comp first len parent
      (adjust_heap comp v first (parent + 1) len (vecGet v (first + (parent + 1))))

/-- Library function `std::__make_heap`. -/
def make_heap (comp : XrefEntry → XrefEntry → Bool) (v : List XrefEntry)
    (first last : Nat) : List XrefEntry :=
  if last - first < 2 then v
  else make_heap_loop comp first (last - first) ((last - first - 2) / 2) v

/-- Library function `std::__sort_heap`: `count` is `last - first`. -/
def sort_heap (comp : XrefEntry → XrefEntry → Bool) (first : Nat) :
    Nat → List XrefEntry → List XrefEntry
  | 0, v => v
  | count + 1, v =>
    if 1 < count + 1 then
      sort_heap comp first count (pop_heap comp v first (first + count) (first + count))
    else v

/-- Library function `std::__partial_sort` as `std::__introsort_loop` calls it, with
`middle = last`: `std::__heap_select` is then `std::__make_heap` alone. -/
def partial_sort (comp : XrefEntry → XrefEntry → Bool) (v : List XrefEntry)
    (first last : Nat) : List XrefEntry :=
  sort_heap comp first (last - first) (make_heap comp v first last)

/-- Library function `std::__introsort_loop`.  The fuel bounds the nesting of the
recursive call and of the `while` loop. -/
def introsort_loop (comp : XrefEntry → XrefEntry → Bool) :
    Nat → List XrefEntry → Nat → Nat → Nat → List XrefEntry
  | 0, v, _, _, _ => v
  | fuel + 1, v, first, last, depth_limit =>
    if 16 < last - first then
      if depth_limit = 0 then partial_sort comp v first last
      else
        let r := unguarded_partition_pivot comp v first last
        let v2 := introsort_loop comp fuel r.1 r.2 last (depth_limit - 1)
        introsort_loop comp fuel v2 first r.2 (depth_limit - 1)
    else v

/-- The loop of `std::__unguarded_linear_insert`: `val` moves down from `last` while it
compares before the element at `next`. -/
def unguarded_linear_insert_loop (comp : XrefEntry → XrefEntry → Bool) (val : XrefEntry) :
    Nat → List XrefEntry → Nat → Nat → List XrefEntry
  | 0, v, last, _ => v.set last val
  | fuel + 1, v, last, next =>
    if comp val (vecGet v next) then
      unguarded_linear_insert_loop comp val fuel (v.set last (vecGet v next)) next (next - 1)
    else v.set last val

/-- Library function `std::__unguarded_linear_insert`. -/
def unguarded_linear_insert (comp : XrefEntry → XrefEntry → Bool) (v : List XrefEntry)
    (last : Nat) : List XrefEntry :=
  unguarded_linear_insert_loop comp (vecGet v last) v.length v last (last - 1)

/-- The body of the `for` loop of `std::__insertion_sort` at position `i`. -/
def insertion_sort_step (comp : XrefEntry → XrefEntry → Bool) (first : Nat)
    (v : List XrefEntry) (i : Nat) : List XrefEntry :=
  if comp (vecGet v i) (vecGet v first) then
    v.take first ++ vecGet v i :: ((v.drop first).take (i - first) ++ v.drop (i + 1))
  else unguarded_linear_insert comp v i

/-- Library function `std::__insertion_sort` on `[first, last)`. -/
def insertion_sort (comp : XrefEntry → XrefEntry → Bool) (v : List XrefEntry)
    (first last : Nat) : List XrefEntry :=
  if first = last then v
  else (List.range' (first + 1) (last - (first + 1))).foldl (insertion_sort_step comp first) v

/-- Library function `std::__unguarded_insertion_sort` on `[first, last)`. -/
def unguarded_insertion_sort (comp : XrefEntry → XrefEntry → Bool) (v : List XrefEntry)
    (first last : Nat) : List XrefEntry :=
  (List.range' first (last - first)).foldl (unguarded_linear_insert comp) v

/-- Library function `std::__final_insertion_sort`. -/
def final_insertion_sort (comp : XrefEntry → XrefEntry → Bool) (v : List XrefEntry)
    (first last : Nat) : List XrefEntry :=
  if 16 < last - first then
    unguarded_insertion_sort comp (insertion_sort comp v first (first + 16)) (first + 16) last
  else insertion_sort comp v first last

/-- The routine `std::ranges::sort` of libstdc++ on a whole vector: it forwards to
`std::sort`, whose body is `std::__sort` (introsort followed by a final insertion sort). -/
def libstdcxx_ranges_sort (comp : XrefEntry → XrefEntry → Bool) (v : List XrefEntry) :
    List XrefEntry :=
  if v.length = 0 then v
  else
    final_insertion_sort comp
      (introsort_loop comp (v.length + 1) v 0 v.length (std_lg v.length v.length * 2))
      0 v.length

/-- Insertion of `x` into `S` from the back, as `std::__unguarded_linear_insert` does it:
`x` comes to stand behind the last element that it is not before. -/
def insertBack (comp : XrefEntry → XrefEntry → Bool) (x : XrefEntry) (S : List XrefEntry) :
    List XrefEntry :=
  S.rdropWhile (comp x) ++ x :: S.rtakeWhile (comp x)

/-- Vector `v2` is vector `v1` with the elements at the positions `a ≤ k < b` rearranged
among themselves. -/
def Rearranged (v1 v2 : List XrefEntry) (a b : Nat) : Prop :=
  v2.length = v1.length ∧ (∀ k, (k < a ∨ b ≤ k) → vecGet v2 k = vecGet v1 k)
    ∧ List.Perm v2 v1

/-- Heap index `h` lies in the subtree below heap index `t`, the parent of index `c > 0`
being `(c - 1) / 2`. -/
inductive InSubtree (t : Nat) : Nat → Prop
  | root : InSubtree t t
  | child (h c : Nat) : InSubtree t h → (c - 1) / 2 = h → 0 < c → InSubtree t c

/-- The heap order of `std::make_heap` on the `len` elements from position `first`, for
the parents from index `lo` on: no parent is before its child. -/
def HeapFrom (comp : XrefEntry → XrefEntry → Bool) (v : List XrefEntry)
    (first len lo : Nat) : Prop :=
  ∀ i, 0 < i → i < len → lo ≤ (i - 1) / 2 →
    comp (vecGet v (first + (i - 1) / 2)) (vecGet v (first + i)) = false

/-- The state of `std::__adjust_heap` and `std::__push_heap` while the hole is at index
`h` below the top index `t`: the heap order holds wherever the hole is not involved, and
no child of the hole is above the parent of the hole. -/
def HoleInv (comp : XrefEntry → XrefEntry → Bool) (v : List XrefEntry)
    (first len t h : Nat) : Prop :=
  h < len ∧ InSubtree t h
  ∧ (∀ i, 0 < i → i < len → t ≤ (i - 1) / 2 → i ≠ h → (i - 1) / 2 ≠ h →
      comp (vecGet v (first + (i - 1) / 2)) (vecGet v (first + i)) = false)
  ∧ (h ≠ t → ∀ c, c < len → (c - 1) / 2 = h → 0 < c →
      comp (vecGet v (first + (h - 1) / 2)) (vecGet v (first + c)) = false)

/-- What one origin contributes to the result of `FindXRefs`: its entry when it is code
and the non-prompting synthesis succeeds, nothing otherwise. -/
def collectEntry (h : Host) (IS_ARM : Bool) (fuel : Nat) (wildcardOperands : Bool)
    (maxSignatureLength : Nat) (origin : Nat) : Option XrefEntry :=
  if h.is_code origin then
    match GenerateSignatureForEA h IS_ARM fuel origin wildcardOperands maxSignatureLength
        false with
    | some (some signature) => some (origin, signature)
    | _ => none
  else none

/-- The actions of `PrintXRefSignaturesForEA` for the entry at index `i`. -/
def emitEntry (sigType : SignatureType) (i : Nat) (e : XrefEntry) : List Event :=
  Event.msgXrefSignature (i + 1) e.1 (FormatSignature e.2 sigType) ::
    (if i = 0 then [Event.SetClipboard (FormatSignature e.2 sigType)] else [])

/-- An 18-byte image of distinct bytes with instructions of 5, 3, 7 and 3 bytes at
addresses 0, 5, 8 and 15; addresses below 18 are code except address 16. -/
def xrefHost : Host :=
  imageHost 0
    [0x01, 0x02, 0x03, 0x04, 0x05, 0x06, 0x07, 0x08, 0x09, 0x0A, 0x0B, 0x0C, 0x0D, 0x0E,
     0x0F, 0x10, 0x11, 0x12]
    (fun a => decide (a < 18 ∧ a ≠ 16))
    (fun a => if a = 0 then insn_t.mk 5 []
      else if a = 5 then insn_t.mk 3 []
      else if a = 8 then insn_t.mk 7 []
      else if a = 15 then insn_t.mk 3 []
      else insn_t.mk 0 [])
    (fun _ => 0)

theorem foldl_append_tokens {α : Type} (f : α → List Char) (l : List α) (init : List Char) :
    l.foldl (fun r b => r ++ f b) init = init ++ (l.map f).flatten := by
  induction l generalizing init with
  | nil => simp
  | cons a t ih => simp [ih, List.append_assoc]

theorem flatten_sep {α : Type} (f : α → List Char) (sep : List Char) (l : List α)
    (hl : l ≠ []) :
    (l.map (fun b => f b ++ sep)).flatten = List.intercalate sep (l.map f) ++ sep := by
  induction l with
  | nil => exact absurd rfl hl
  | cons a t ih =>
    cases t with
    | nil => simp [List.intercalate, List.intersperse]
    | cons b t2 =>
      have h2 := ih (by simp)
      rw [List.map_cons, List.flatten_cons, h2]
      simp [List.intercalate, List.intersperse, List.append_assoc]

theorem GenerateSignatureString_eq (s : Signature) (doubleQM : Bool) :
    GenerateSignatureString s doubleQM = List.intercalate [' '] (s.map (entryToken doubleQM)) := by
  unfold GenerateSignatureString
  have hf : (fun (result : List Char) (byte : SignatureByte) =>
      (if byte.isWildcard then result ++ (if doubleQM then ['?', '?'] else ['?'])
       else result ++ format02X byte.value) ++ [' '])
      = fun result byte => result ++ (entryToken doubleQM byte ++ [' ']) := by
    funext result byte
    unfold entryToken format02X
    split <;> simp
  simp only [hf, foldl_append_tokens, List.nil_append]
  cases s with
  | nil => simp [List.intercalate, List.intersperse]
  | cons a t =>
    have hfl := flatten_sep (entryToken doubleQM) [' '] (a :: t) (by simp)
    simp only [pop_back]
    rw [if_neg (by simp), hfl, List.dropLast_concat]

theorem intercalate_cons_cons (c : Char) (a b : List Char) (t : List (List Char)) :
    List.intercalate [c] (a :: b :: t) = a ++ c :: List.intercalate [c] (b :: t) := by
  simp [List.intercalate, List.intersperse]

theorem intercalate_single (c : Char) (a : List Char) :
    List.intercalate [c] [a] = a := by
  simp [List.intercalate, List.intersperse]

theorem intercalate_head (c : Char) (l : List (List Char))
    (hl : ∀ t ∈ l, t ≠ [] ∧ c ∉ t) :
    (List.intercalate [c] l).head? ≠ some c := by
  cases l with
  | nil => simp [List.intercalate, List.intersperse]
  | cons a t =>
    have ha := hl a (by simp)
    have key : (List.intercalate [c] (a :: t)).head? = a.head? := by
      cases t with
      | nil => rw [intercalate_single]
      | cons b t2 =>
        rw [intercalate_cons_cons]
        cases a with
        | nil => exact absurd rfl ha.1
        | cons x xs => rfl
    rw [key]
    intro hc
    exact ha.2 (List.mem_of_mem_head? hc)

theorem intercalate_getLast (c : Char) (l : List (List Char))
    (hl : ∀ t ∈ l, t ≠ [] ∧ c ∉ t) :
    (List.intercalate [c] l).getLast? ≠ some c := by
  induction l with
  | nil => simp [List.intercalate, List.intersperse]
  | cons a t ih =>
    cases t with
    | nil =>
      rw [intercalate_single]
      intro hc
      exact (hl a (by simp)).2 (List.mem_of_getLast?_eq_some hc)
    | cons b t2 =>
      rw [intercalate_cons_cons]
      have hb := ih (fun t ht => hl t (List.mem_cons_of_mem _ ht))
      have hne : List.intercalate [c] (b :: t2) ≠ [] := by
        have hb1 := (hl b (by simp)).1
        cases t2 with
        | nil => rw [intercalate_single]; exact hb1
        | cons d t3 =>
          rw [intercalate_cons_cons]
          simp
      have : (a ++ c :: List.intercalate [c] (b :: t2)).getLast?
          = (List.intercalate [c] (b :: t2)).getLast? := by
        rw [show a ++ c :: List.intercalate [c] (b :: t2)
              = (a ++ [c]) ++ List.intercalate [c] (b :: t2) by simp]
        rw [List.getLast?_append]
        cases hx : (List.intercalate [c] (b :: t2)).getLast? with
        | none => simp at hx; exact absurd hx hne
        | some y => simp
      rw [this]
      exact hb

theorem intercalate_length (c : Char) (l : List (List Char)) (k : Nat)
    (hl : ∀ t ∈ l, t.length = k) (hne : l ≠ []) :
    (List.intercalate [c] l).length + 1 = (k + 1) * l.length := by
  induction l with
  | nil => exact absurd rfl hne
  | cons a t ih =>
    have ha := hl a (by simp)
    cases t with
    | nil => rw [intercalate_single]; simp [ha]
    | cons b t2 =>
      rw [intercalate_cons_cons]
      have hb := ih (fun t ht => hl t (List.mem_cons_of_mem _ ht)) (by simp)
      simp only [List.length_append, List.length_cons] at hb ⊢
      rw [ha]
      have e : (k + 1) * (t2.length + 1 + 1) = (k + 1) * (t2.length + 1) + (k + 1) := by ring
      omega

theorem hexDigitUpper_spec (n : Nat) (hn : n < 16) :
    hexDigitUpper n ∈ ['0', '1', '2', '3', '4', '5', '6', '7', '8', '9',
      'A', 'B', 'C', 'D', 'E', 'F'] ∧ hexValue (hexDigitUpper n) = some n := by
  interval_cases n <;> decide

theorem entryToken_ne_nil (doubleQM : Bool) (sb : SignatureByte) :
    entryToken doubleQM sb ≠ [] := by
  unfold entryToken
  split
  · split <;> simp
  · simp

theorem hexDigitUpper_ne_space (n : Nat) : hexDigitUpper n ≠ ' ' := by
  by_cases hn : n < 16
  · interval_cases n <;> decide
  · have : hexDigitUpper n = '0' := by
      unfold hexDigitUpper
      rw [List.getD_eq_default]
      simp only [List.length_cons, List.length_nil]
      omega
    rw [this]; decide

theorem entryToken_no_space (doubleQM : Bool) (sb : SignatureByte) :
    ' ' ∉ entryToken doubleQM sb := by
  unfold entryToken
  split
  · split <;> decide
  · intro hmem
    simp only [List.mem_cons, List.mem_singleton, List.not_mem_nil, or_false] at hmem
    rcases hmem with h1 | h1
    · exact hexDigitUpper_ne_space _ h1.symm
    · exact hexDigitUpper_ne_space _ h1.symm

/-- C7: `GenerateSignatureString` is the per-entry tokens joined by single spaces:
it equals the tokens intercalated with one space, every token is non-empty and free of
spaces, a wildcard's token is `?` in IDA style and `??` in debugger style, a fixed
entry's token is its value as two uppercase hex digits (high nibble first), the empty
signature gives the empty string, the output neither starts nor ends with a space, and
the debugger-style output of `n` entries has `3n - 1` characters. -/
theorem GenerateSignatureString_tokens_joined (s : Signature) (doubleQM : Bool) :
    FormatSignature s SignatureType.IDA = GenerateSignatureString s false
    ∧ FormatSignature s SignatureType.x64Dbg = GenerateSignatureString s true
    ∧ GenerateSignatureString s doubleQM
        = List.intercalate [' '] (s.map (entryToken doubleQM))
    ∧ (∀ sb : SignatureByte, entryToken doubleQM sb ≠ [] ∧ ' ' ∉ entryToken doubleQM sb)
    ∧ (∀ v : Fin 256, entryToken false (SignatureByte.mk v true) = ['?']
        ∧ entryToken true (SignatureByte.mk v true) = ['?', '?'])
    ∧ (∀ v : Fin 256, ∃ a b : Char,
        entryToken doubleQM (SignatureByte.mk v false) = [a, b]
        ∧ a ∈ ['0', '1', '2', '3', '4', '5', '6', '7', '8', '9', 'A', 'B', 'C', 'D', 'E', 'F']
        ∧ b ∈ ['0', '1', '2', '3', '4', '5', '6', '7', '8', '9', 'A', 'B', 'C', 'D', 'E', 'F']
        ∧ hexValue a = some (v.val / 16) ∧ hexValue b = some (v.val % 16))
    ∧ GenerateSignatureString [] doubleQM = []
    ∧ (GenerateSignatureString s doubleQM).head? ≠ some ' '
    ∧ (GenerateSignatureString s doubleQM).getLast? ≠ some ' '
    ∧ (GenerateSignatureString s true).length = 3 * s.length - 1 := by
  have htok : ∀ t ∈ s.map (entryToken doubleQM), t ≠ [] ∧ ' ' ∉ t := by
    intro t ht
    obtain ⟨sb, _, rfl⟩ := List.mem_map.mp ht
    exact ⟨entryToken_ne_nil _ _, entryToken_no_space _ _⟩
  refine ⟨rfl, rfl, GenerateSignatureString_eq s doubleQM,
    fun sb => ⟨entryToken_ne_nil _ _, entryToken_no_space _ _⟩,
    fun v => ⟨rfl, rfl⟩, ?_, rfl, ?_, ?_, ?_⟩
  · intro v
    have h1 := hexDigitUpper_spec (v.val / 16) (by omega)
    have h2 := hexDigitUpper_spec (v.val % 16) (by omega)
    exact ⟨_, _, rfl, h1.1, h2.1, h1.2, h2.2⟩
  · rw [GenerateSignatureString_eq]
    exact intercalate_head ' ' _ htok
  · rw [GenerateSignatureString_eq]
    exact intercalate_getLast ' ' _ htok
  · rw [GenerateSignatureString_eq]
    cases s with
    | nil => rfl
    | cons a t =>
      have hlen : ∀ x ∈ (a :: t).map (entryToken true), x.length = 2 := by
        intro x hx
        obtain ⟨sb, _, rfl⟩ := List.mem_map.mp hx
        unfold entryToken
        split <;> rfl
      have := intercalate_length ' ' _ 2 hlen (by simp)
      simp only [List.length_map, List.length_cons] at this ⊢
      omega

theorem foldl_pair_tokens {α : Type} (f g : α → List Char) (l : List α)
    (p m : List Char) :
    l.foldl (fun (pm : List Char × List Char) b => (pm.1 ++ f b, pm.2 ++ g b)) (p, m)
      = (p ++ (l.map f).flatten, m ++ (l.map g).flatten) := by
  induction l generalizing p m with
  | nil => simp
  | cons a t ih => simp [ih, List.append_assoc]

theorem flatten_map_singleton {α : Type} (g : α → Char) (l : List α) :
    (l.map (fun b => [g b])).flatten = l.map g := by
  induction l with
  | nil => rfl
  | cons a t ih => simp [ih]

theorem length_flatten_const {α : Type} (f : α → List Char) (k : Nat) (l : List α)
    (hf : ∀ b, (f b).length = k) : ((l.map f).flatten).length = k * l.length := by
  induction l with
  | nil => simp
  | cons a t ih =>
    simp only [List.map_cons, List.flatten_cons, List.length_append, List.length_cons, ih, hf]
    ring

theorem format02X_zero : format02X 0 = ['0', '0'] := by decide

theorem GenerateCodeSignatureString_eq (s : Signature) :
    GenerateCodeSignatureString s = (s.map codeEscape).flatten ++ [' '] ++ s.map maskChar := by
  unfold GenerateCodeSignatureString
  have hf : (fun (pm : List Char × List Char) (byte : SignatureByte) =>
      (pm.1 ++ [Char.ofNat 92, 'x'] ++ format02X (if byte.isWildcard then 0 else byte.value),
       pm.2 ++ (if byte.isWildcard then ['?'] else ['x'])))
      = fun pm byte => (pm.1 ++ codeEscape byte, pm.2 ++ [maskChar byte]) := by
    funext pm byte
    unfold codeEscape maskChar
    cases hw : byte.isWildcard
    · simp [format02X]
    · simp [format02X_zero]
  simp only [hf, foldl_pair_tokens, List.nil_append, flatten_map_singleton]

theorem GenerateByteArrayWithBitMaskSignatureString_eq (s : Signature) :
    GenerateByteArrayWithBitMaskSignatureString s
      = List.intercalate [',', ' '] (s.map byteLiteral) ++ [' ', ' ', '0', 'b']
          ++ (s.map maskBit).reverse := by
  unfold GenerateByteArrayWithBitMaskSignatureString
  have hf : (fun (pm : List Char × List Char) (byte : SignatureByte) =>
      (pm.1 ++ ['0', 'x'] ++ format02X (if byte.isWildcard then 0 else byte.value) ++ [',', ' '],
       pm.2 ++ (if byte.isWildcard then ['0'] else ['1'])))
      = fun pm byte => (pm.1 ++ (byteLiteral byte ++ [',', ' ']), pm.2 ++ [maskBit byte]) := by
    funext pm byte
    unfold byteLiteral maskBit
    cases hw : byte.isWildcard
    · simp [format02X]
    · simp [format02X_zero]
  simp only [hf, foldl_pair_tokens, List.nil_append, flatten_map_singleton]
  cases s with
  | nil => simp [List.intercalate, List.intersperse]
  | cons a t =>
    have hfl := flatten_sep byteLiteral [',', ' '] (a :: t) (by simp)
    rw [hfl, if_neg (by simp)]
    have : pop_back (pop_back (List.intercalate [',', ' '] (List.map byteLiteral (a :: t))
        ++ [',', ' '])) = List.intercalate [',', ' '] (List.map byteLiteral (a :: t)) := by
      unfold pop_back
      rw [show List.intercalate [',', ' '] (List.map byteLiteral (a :: t)) ++ [',', ' ']
            = (List.intercalate [',', ' '] (List.map byteLiteral (a :: t)) ++ [',']) ++ [' ']
          by simp]
      rw [List.dropLast_concat, List.dropLast_concat]
    rw [this]
    simp

theorem binaryValue_concat (digits : List Char) (c : Char) :
    binaryValue (digits ++ [c]) = 2 * binaryValue digits + (if c = '1' then 1 else 0) := by
  simp [binaryValue, List.foldl_append]

theorem fixedWeight_cons (sb : SignatureByte) (t : Signature) :
    fixedWeight (sb :: t) = (if sb.isWildcard then 0 else 1) + 2 * fixedWeight t := by
  unfold fixedWeight
  rw [List.length_cons, List.range_succ_eq_map, List.map_cons, List.sum_cons, List.map_map]
  have h0 : (if ((sb :: t).getD 0 (SignatureByte.mk 0 true)).isWildcard then 0 else 2 ^ 0)
      = (if sb.isWildcard then 0 else 1) := by simp
  rw [h0, ← List.sum_map_mul_left]
  congr 2
  apply List.map_congr_left
  intro i _
  simp only [Function.comp, List.getD_cons_succ]
  split <;> simp [pow_succ, Nat.mul_comm]

theorem binaryValue_mask (s : Signature) :
    binaryValue ((s.map maskBit).reverse) = fixedWeight s := by
  induction s with
  | nil => rfl
  | cons a t ih =>
    rw [List.map_cons, List.reverse_cons, binaryValue_concat, ih, fixedWeight_cons]
    unfold maskBit
    cases a.isWildcard <;> simp
    omega

theorem dropWhile_all_append (w q : Signature) (hw : ∀ sb ∈ w, sb.isWildcard = true) :
    (w ++ q).dropWhile (fun sb => sb.isWildcard) = q.dropWhile (fun sb => sb.isWildcard) := by
  induction w with
  | nil => rfl
  | cons a t ih =>
    have ha := hw a (by simp)
    rw [List.cons_append, List.dropWhile_cons, if_pos ha]
    exact ih (fun sb hsb => hw sb (List.mem_cons_of_mem _ hsb))

theorem TrimSignature_append (p w : Signature) (hw : ∀ sb ∈ w, sb.isWildcard = true)
    (hp : ∀ sb, p.getLast? = some sb → sb.isWildcard = false) :
    TrimSignature (p ++ w) = p := by
  unfold TrimSignature
  rw [List.reverse_append, dropWhile_all_append _ _ (by simpa using hw)]
  have : p.reverse.dropWhile (fun sb => sb.isWildcard) = p.reverse := by
    cases hr : p.reverse with
    | nil => rfl
    | cons a t =>
      have hlast : p.getLast? = some a := by
        rw [← List.head?_reverse, hr]; rfl
      rw [List.dropWhile_cons, if_neg (by simp [hp a hlast])]
  rw [this, List.reverse_reverse]

theorem TrimSignature_getLast (s : Signature) (sb : SignatureByte)
    (h : (TrimSignature s).getLast? = some sb) : sb.isWildcard = false := by
  unfold TrimSignature at h
  rw [List.getLast?_reverse] at h
  have := List.head?_dropWhile_not (fun sb : SignatureByte => sb.isWildcard) s.reverse
  rw [h] at this
  simpa using this

theorem TrimSignature_decomp (s : Signature) :
    s = TrimSignature s ++ (s.reverse.takeWhile (fun sb => sb.isWildcard)).reverse := by
  unfold TrimSignature
  rw [← List.reverse_append, List.takeWhile_append_dropWhile, List.reverse_reverse]

theorem trailingWildcards_append (p w : Signature) (hw : ∀ sb ∈ w, sb.isWildcard = true)
    (hp : ∀ sb, p.getLast? = some sb → sb.isWildcard = false) :
    trailingWildcards (p ++ w) = w.length := by
  induction p with
  | nil =>
    rw [List.nil_append]
    induction w with
    | nil => rfl
    | cons a t _ =>
      have hall : t.all (fun x => x.isWildcard) = true := by
        rw [List.all_eq_true]; intro x hx; exact hw x (List.mem_cons_of_mem _ hx)
      simp [trailingWildcards, hall, hw a (by simp)]
  | cons a t ih =>
    rw [List.cons_append, trailingWildcards]
    cases t with
    | nil =>
      have ha : a.isWildcard = false := hp a rfl
      have hall : ([] ++ w).all (fun x => x.isWildcard) = true := by
        rw [List.all_eq_true]; intro x hx; exact hw x (by simpa using hx)
      rw [if_pos hall]
      simp [ha]
    | cons b t2 =>
      have hp2 : ∀ sb, (b :: t2).getLast? = some sb → sb.isWildcard = false := by
        intro sb hsb
        apply hp sb
        rw [List.getLast?_cons_cons]; exact hsb
      have hnall : ¬ ((b :: t2 ++ w).all (fun x => x.isWildcard) = true) := by
        intro hall
        rw [List.all_eq_true] at hall
        obtain ⟨ys, hys⟩ : ∃ ys, (b :: t2) = ys ++ [(b :: t2).getLast (by simp)] :=
          ⟨_, (List.dropLast_append_getLast (by simp)).symm⟩
        have hl : (b :: t2).getLast? = some ((b :: t2).getLast (by simp)) :=
          List.getLast?_eq_getLast _ _
        have h1 := hp2 _ hl
        have h2 := hall ((b :: t2).getLast (by simp))
          (List.mem_append_left _ (List.getLast_mem _))
        rw [h1] at h2
        exact Bool.false_ne_true h2
      rw [if_neg hnall]
      exact ih hp2

/-- C6: `TrimSignature` removes exactly the maximal trailing run of wildcards.  Every
signature splits as `p ++ w` with `w` all wildcards and `p` empty or ending in a fixed
entry; `w` has `trailingWildcards s` entries, the result is `p`, which is the first
`|s| - k` entries of `s`; the split is the only one of that shape; the last entry of the
result, if any, is not a wildcard; and with no trailing wildcard the signature is
returned unchanged. -/
theorem TrimSignature_removes_trailing_run (s : Signature) :
    (∃ p w : Signature, s = p ++ w
      ∧ (∀ sb ∈ w, sb.isWildcard = true)
      ∧ (∀ sb, p.getLast? = some sb → sb.isWildcard = false)
      ∧ w.length = trailingWildcards s
      ∧ TrimSignature s = p)
    ∧ (∀ p w : Signature, s = p ++ w → (∀ sb ∈ w, sb.isWildcard = true)
        → (∀ sb, p.getLast? = some sb → sb.isWildcard = false)
        → TrimSignature s = p ∧ w.length = trailingWildcards s)
    ∧ TrimSignature s = s.take (s.length - trailingWildcards s)
    ∧ (TrimSignature s).length = s.length - trailingWildcards s
    ∧ (∀ sb, (TrimSignature s).getLast? = some sb → sb.isWildcard = false)
    ∧ (trailingWildcards s = 0 → TrimSignature s = s) := by
  have hw : ∀ sb ∈ (s.reverse.takeWhile (fun sb => sb.isWildcard)).reverse,
      sb.isWildcard = true := by
    intro sb hsb
    rw [List.mem_reverse] at hsb
    exact List.mem_takeWhile_imp hsb
  have hdec := TrimSignature_decomp s
  have hk := trailingWildcards_append (TrimSignature s) _ hw (TrimSignature_getLast s)
  rw [← hdec] at hk
  have htake : TrimSignature s = s.take (s.length - trailingWildcards s) := by
    have hlen : s.length = (TrimSignature s).length
        + ((s.reverse.takeWhile (fun sb => sb.isWildcard)).reverse).length := by
      conv_lhs => rw [hdec]
      rw [List.length_append]
    have h3 : List.take (TrimSignature s).length
        (TrimSignature s ++ (s.reverse.takeWhile (fun sb => sb.isWildcard)).reverse)
        = TrimSignature s := List.take_left' rfl
    rw [← hdec] at h3
    rw [hk, hlen, Nat.add_sub_cancel, h3]
  refine ⟨⟨TrimSignature s, _, hdec, hw, TrimSignature_getLast s, hk.symm, rfl⟩, ?_, htake,
    ?_, TrimSignature_getLast s, ?_⟩
  · intro p w hs hw2 hp2
    subst hs
    exact ⟨TrimSignature_append p w hw2 hp2, (trailingWildcards_append p w hw2 hp2).symm⟩
  · rw [htake, List.length_take]; omega
  · intro h0
    rw [htake, h0]
    simp

theorem codeEscape_no_space (sb : SignatureByte) : ' ' ∉ codeEscape sb := by
  unfold codeEscape
  split
  · decide
  · intro hmem
    simp only [List.mem_cons, List.mem_singleton, List.not_mem_nil, or_false] at hmem
    rcases hmem with h1 | h1 | h1 | h1
    · exact absurd h1 (by decide)
    · exact absurd h1 (by decide)
    · exact hexDigitUpper_ne_space _ h1.symm
    · exact hexDigitUpper_ne_space _ h1.symm

/-- C9: `GenerateCodeSignatureString` is the pattern, one space, the mask.  The pattern is
the concatenation of the `n` escapes (backslash, `x`, two hex digits; `00` for every
wildcard whatever value it stores), so it has `4n` characters; the mask has `n`
characters, the `i`-th being `x` iff entry `i` is fixed and `?` otherwise; neither part
contains a space. -/
theorem GenerateCodeSignatureString_pattern_mask (s : Signature) :
    FormatSignature s SignatureType.Signature_Mask = GenerateCodeSignatureString s
    ∧ GenerateCodeSignatureString s
        = (s.map codeEscape).flatten ++ [' '] ++ s.map maskChar
    ∧ ((s.map codeEscape).flatten).length = 4 * s.length
    ∧ (s.map maskChar).length = s.length
    ∧ ' ' ∉ (s.map codeEscape).flatten
    ∧ ' ' ∉ s.map maskChar
    ∧ (∀ v : Fin 256, codeEscape (SignatureByte.mk v true) = [Char.ofNat 92, 'x', '0', '0'])
    ∧ (∀ v : Fin 256, codeEscape (SignatureByte.mk v false)
        = [Char.ofNat 92, 'x', hexDigitUpper (v.val / 16), hexDigitUpper (v.val % 16)])
    ∧ (∀ i : Nat, (s.map maskChar)[i]? = (s[i]?).map maskChar)
    ∧ (∀ sb : SignatureByte, (maskChar sb = 'x' ↔ sb.isWildcard = false)
        ∧ (maskChar sb = '?' ↔ sb.isWildcard = true)) := by
  refine ⟨rfl, GenerateCodeSignatureString_eq s, ?_, List.length_map _ _, ?_, ?_,
    fun v => rfl, fun v => rfl, fun i => List.getElem?_map _ _ _, ?_⟩
  · apply length_flatten_const
    intro b
    unfold codeEscape
    split <;> rfl
  · intro hmem
    rw [List.mem_flatten] at hmem
    obtain ⟨t, ht, hin⟩ := hmem
    obtain ⟨sb, _, rfl⟩ := List.mem_map.mp ht
    exact codeEscape_no_space sb hin
  · intro hmem
    obtain ⟨sb, _, hsb⟩ := List.mem_map.mp hmem
    unfold maskChar at hsb
    cases hw : sb.isWildcard <;> rw [hw] at hsb <;> exact absurd hsb (by decide)
  · intro sb
    unfold maskChar
    cases sb.isWildcard <;> decide

/-- C8: `GenerateByteArrayWithBitMaskSignatureString` is the byte list, the separator
and the mask literal: the entries as `0xHH` (`0x00` for every wildcard whatever value it
stores) joined by comma-space with no trailing separator, then two spaces and `0b`, then
exactly `n` binary digits in reversed entry order.  The digit at position `n - 1 - i` is
the mask digit of entry `i` (`1` iff fixed), and the digits read as a binary number are
the sum of `2^i` over the fixed entries `i`. -/
theorem GenerateByteArrayWithBitMaskSignatureString_pattern_mask (s : Signature) :
    FormatSignature s SignatureType.SignatureByteArray_Bitmask
        = GenerateByteArrayWithBitMaskSignatureString s
    ∧ GenerateByteArrayWithBitMaskSignatureString s
        = List.intercalate [',', ' '] (s.map byteLiteral) ++ [' ', ' ', '0', 'b']
            ++ (s.map maskBit).reverse
    ∧ (∀ v : Fin 256, byteLiteral (SignatureByte.mk v true) = ['0', 'x', '0', '0'])
    ∧ (∀ v : Fin 256, byteLiteral (SignatureByte.mk v false)
        = ['0', 'x', hexDigitUpper (v.val / 16), hexDigitUpper (v.val % 16)])
    ∧ ((s.map maskBit).reverse).length = s.length
    ∧ (∀ i : Nat, i < s.length →
        ((s.map maskBit).reverse)[s.length - 1 - i]? = (s[i]?).map maskBit)
    ∧ (∀ sb : SignatureByte, (maskBit sb = '1' ↔ sb.isWildcard = false)
        ∧ (maskBit sb = '0' ↔ sb.isWildcard = true))
    ∧ binaryValue ((s.map maskBit).reverse) = fixedWeight s := by
  refine ⟨rfl, GenerateByteArrayWithBitMaskSignatureString_eq s, fun v => rfl, fun v => rfl,
    by simp, ?_, ?_, binaryValue_mask s⟩
  · intro i hi
    rw [List.getElem?_reverse (by simp; omega)]
    simp only [List.length_map, List.getElem?_map]
    congr 2
    omega
  · intro sb
    unfold maskBit
    cases sb.isWildcard <;> decide

theorem ea_add_ea_add (a k i : Nat) : ea_add (ea_add a k) i = ea_add a (k + i) := by
  unfold ea_add EA_MOD
  omega

theorem foldl_push {α β : Type} (g : β → α) (l : List β) (init : List α) :
    l.foldl (fun sig i => sig ++ [g i]) init = init ++ l.map g := by
  induction l generalizing init with
  | nil => simp
  | cons a t ih => simp [ih]

theorem AddBytesToSignature_eq (h : Host) (signature : Signature) (address count : Nat)
    (wildcard : Bool) :
    AddBytesToSignature h signature address count wildcard
      = signature ++ imageBytes h address count wildcard := by
  unfold AddBytesToSignature AddByteToSignature imageBytes
  exact foldl_push _ _ _

theorem imageBytes_split (h : Host) (address count k : Nat) (hk : k ≤ count) :
    imageBytes h address k false ++ imageBytes h (ea_add address k) (count - k) true
      = maskedBytes h address count k := by
  unfold imageBytes maskedBytes
  obtain ⟨d, rfl⟩ : ∃ d, count = k + d := ⟨count - k, by omega⟩
  rw [Nat.add_sub_cancel_left, List.range_add, List.map_append, List.map_map]
  congr 1
  · apply List.map_congr_left
    intro i hi
    have : i < k := List.mem_range.mp hi
    simp [Nat.not_le.mpr this]
  · apply List.map_congr_left
    intro i _
    simp [ea_add_ea_add]

theorem imageBytes_fixed (h : Host) (address count : Nat) :
    imageBytes h address count false = maskedBytes h address count count := by
  unfold imageBytes maskedBytes
  apply List.map_congr_left
  intro i hi
  have : i < count := List.mem_range.mp hi
  simp [Nat.not_le.mpr this]

theorem GetOperandGeneric_go_skip (size a b : Nat) (pre rest : List op_t)
    (hpre : ∀ o ∈ pre, o.type = optype_t.o_void ∨ o.offb % 256 = 0) :
    GetOperandGenericLoop (insn_t.mk size (pre ++ rest)) a b (pre ++ rest)
      = GetOperandGenericLoop (insn_t.mk size (pre ++ rest)) a b rest := by
  generalize insn_t.mk size (pre ++ rest) = ins
  induction pre with
  | nil => rfl
  | cons o t ih =>
    have ho := hpre o (by simp)
    have ht := ih (fun x hx => hpre x (List.mem_cons_of_mem _ hx))
    rw [List.cons_append, GetOperandGenericLoop]
    rcases ho with h1 | h1
    · rw [if_pos h1]; exact ht
    · by_cases hv : o.type = optype_t.o_void
      · rw [if_pos hv]; exact ht
      · rw [if_neg hv, if_pos h1]; exact ht

theorem to_size_t_natCast (n : Nat) (hn : n < EA_MOD) : to_size_t (n : Int) = n := by
  unfold to_size_t
  rw [← Int.natCast_mod, Int.toNat_natCast]
  exact Nat.mod_eq_of_lt hn

theorem GetOperandGeneric_none (size a b : Nat) (ops : List op_t)
    (hops : ∀ o ∈ ops, o.type = optype_t.o_void ∨ o.offb % 256 = 0) :
    GetOperandGeneric (insn_t.mk size ops) a b = (false, a, b) := by
  unfold GetOperandGeneric
  have := GetOperandGeneric_go_skip size a b ops [] (by simpa using hops)
  simp only [List.append_nil] at this
  rw [this]
  rfl

theorem GetOperandGeneric_first (size a b k : Nat) (pre post : List op_t) (op : op_t)
    (hpre : ∀ o ∈ pre, o.type = optype_t.o_void ∨ o.offb % 256 = 0)
    (hop : op.type ≠ optype_t.o_void) (hk : op.offb = k) (h0 : 0 < k) (hkL : k < size)
    (hL : size ≤ 255) :
    GetOperandGeneric (insn_t.mk size (pre ++ op :: post)) a b = (true, k, size - k) := by
  unfold GetOperandGeneric
  rw [show (insn_t.mk size (pre ++ op :: post)).ops = pre ++ op :: post from rfl,
    GetOperandGeneric_go_skip size a b pre (op :: post) hpre, GetOperandGenericLoop,
    if_neg hop, hk]
  have hmod : k % 256 = k := Nat.mod_eq_of_lt (by omega)
  rw [hmod, if_neg (by omega)]
  have : ((((insn_t.mk size (pre ++ op :: post)).size : Int) - (k : Int)) % 256).toNat
      = size - k := by
    show (((size : Int) - (k : Int)) % 256).toNat = size - k
    omega
  rw [this]

/-- C10: generic mode, `wildcardOperands` set.  For an instruction of length `L` whose
first operand with a type other than void and a non-zero byte offset sits at offset `k`
(`0 < k < L ≤ 255`), whatever operands follow it, the instruction appends exactly `L`
entries holding the image bytes at `address + i`, fixed for `i < k` and wildcards for
`k ≤ i < L`; an instruction of that length whose operands are all void or at offset zero
appends `L` fixed entries. -/
theorem appendInstruction_generic_operand (h : Host) (signature : Signature)
    (address L k : Nat) (pre post : List op_t) (op : op_t)
    (hpre : ∀ o ∈ pre, o.type = optype_t.o_void ∨ o.offb % 256 = 0)
    (hop : op.type ≠ optype_t.o_void) (hk : op.offb = k) (h0 : 0 < k) (hkL : k < L)
    (hL : L ≤ 255) :
    appendInstruction h false true signature address (insn_t.mk L (pre ++ op :: post))
        = signature ++ maskedBytes h address L k
    ∧ (maskedBytes h address L k).length = L
    ∧ (∀ i : Nat, i < L → (maskedBytes h address L k)[i]?
        = some (SignatureByte.mk (h.get_byte (ea_add address i)) (decide (k ≤ i))))
    ∧ appendInstruction h false true signature address (insn_t.mk L pre)
        = signature ++ maskedBytes h address L L
    ∧ (∀ i : Nat, i < L → (maskedBytes h address L L)[i]?
        = some (SignatureByte.mk (h.get_byte (ea_add address i)) false)) := by
  refine ⟨?_, by simp [maskedBytes], ?_, ?_, ?_⟩
  · unfold appendInstruction GetOperand
    simp only [Bool.false_eq_true, if_false,
      GetOperandGeneric_first L 0 0 k pre post op hpre hop hk h0 hkL hL]
    have hpos : decide (L - k > 0) = true := by simp; omega
    rw [hpos]
    simp only [Bool.and_self, if_true, if_neg (Nat.pos_iff_ne_zero.mp h0)]
    rw [AddBytesToSignature_eq, AddBytesToSignature_eq, List.append_assoc,
      imageBytes_split h address L k (by omega)]
  · intro i hi
    simp [maskedBytes, List.getElem?_range hi]
  · unfold appendInstruction GetOperand
    simp only [Bool.false_eq_true, if_false, GetOperandGeneric_none L 0 0 pre hpre]
    simp only [Bool.and_false, Bool.false_and, Bool.false_eq_true, if_false]
    rw [AddBytesToSignature_eq]
    show signature ++ imageBytes h address (to_size_t ((L : Nat) : Int)) false = _
    rw [to_size_t_natCast L (by unfold EA_MOD; omega), imageBytes_fixed]
  · intro i hi
    simp [maskedBytes, List.getElem?_range hi, Nat.not_le.mpr hi]

theorem bin_search2_model_lowest (get_byte : Nat → Fin 256) (stop : Nat)
    (pat : compiled_binpat_vec_t) :
    LowestMatchSearch (fun start => bin_search2_model get_byte start stop pat) stop
      (fun a => occursAt get_byte pat stop a = true) := by
  intro start
  cases hf : (List.range' start (stop - start)).find? (occursAt get_byte pat stop) with
  | none =>
    have e : bin_search2_model get_byte start stop pat = BADADDR := by
      unfold bin_search2_model; rw [hf]
    left
    refine ⟨e, ?_⟩
    intro a ha1 ha2
    rw [List.find?_eq_none] at hf
    exact hf a (List.mem_range'_1.mpr ⟨ha1, by omega⟩)
  | some a =>
    have e : bin_search2_model get_byte start stop pat = a := by
      unfold bin_search2_model; rw [hf]
    right
    show start ≤ bin_search2_model get_byte start stop pat
      ∧ bin_search2_model get_byte start stop pat < stop
      ∧ occursAt get_byte pat stop (bin_search2_model get_byte start stop pat) = true
      ∧ ∀ b, start ≤ b → b < bin_search2_model get_byte start stop pat
          → ¬ (occursAt get_byte pat stop b = true)
    rw [e]
    rw [List.find?_range'_eq_some] at hf
    obtain ⟨hm, hmem, hlow⟩ := hf
    have hr := List.mem_range'_1.mp hmem
    refine ⟨hr.1, by omega, hm, ?_⟩
    intro b hb1 hb2
    have := hlow b hb1 hb2
    simpa using this

theorem IsSignatureUnique_true_iff_of_lowest (h : Host) (signature : List Char)
    (M : Nat → Prop) (hmax : h.max_ea ≤ BADADDR)
    (hsearch : LowestMatchSearch
      (fun start => h.bin_search2 start h.max_ea (h.parse_binpat_str signature)) h.max_ea M) :
    IsSignatureUnique h signature = true ↔ ∃! a, h.min_ea ≤ a ∧ a < h.max_ea ∧ M a := by
  unfold IsSignatureUnique
  simp only
  rcases hsearch h.min_ea with ⟨hbad, hnone⟩ | ⟨h1, h2, h3, h4⟩
  · simp only at hbad
    rw [if_pos hbad]
    constructor
    · intro hf; exact absurd hf (by simp)
    · rintro ⟨a, ⟨ha1, ha2, ha3⟩, _⟩
      exact absurd ha3 (hnone a ha1 ha2)
  · simp only at h1 h2 h3 h4
    generalize hocc : h.bin_search2 h.min_ea h.max_ea (h.parse_binpat_str signature) = occ
      at h1 h2 h3 h4
    have hne : occ ≠ BADADDR := by omega
    rw [if_neg hne]
    have hadd : ea_add occ 1 = occ + 1 := by
      unfold ea_add EA_MOD
      unfold BADADDR at hmax
      omega
    rw [hadd]
    rcases hsearch (occ + 1) with ⟨hbad2, hnone2⟩ | ⟨k1, k2, k3, _⟩
    · simp only at hbad2
      rw [hbad2]
      simp only [decide_True, true_iff]
      refine ⟨occ, ⟨h1, h2, h3⟩, ?_⟩
      rintro y ⟨hy1, hy2, hy3⟩
      by_contra hyo
      rcases Nat.lt_or_gt_of_ne hyo with hlt | hgt
      · exact h4 y hy1 hlt hy3
      · exact hnone2 y hgt hy2 hy3
    · simp only at k1 k2 k3
      generalize h.bin_search2 (occ + 1) h.max_ea (h.parse_binpat_str signature) = occ2
        at k1 k2 k3
      have hne2 : occ2 ≠ BADADDR := by omega
      simp only [hne2, decide_False, Bool.false_eq_true, false_iff]
      rintro ⟨a, _, huniq⟩
      have e1 := huniq occ ⟨h1, h2, h3⟩
      have e2 := huniq occ2 ⟨by omega, k2, k3⟩
      omega

/-- C5: with a forward search primitive that returns the lowest matching address at or
after its start, or `BADADDR` when there is none, `IsSignatureUnique` is true iff the
pattern matches at exactly one address of `[min_ea, max_ea)`; with no match and with
two distinct matches it is false. -/
theorem IsSignatureUnique_iff_exactly_one (h : Host) (signature : List Char) (M : Nat → Prop)
    (hmax : h.max_ea ≤ BADADDR)
    (hsearch : LowestMatchSearch
      (fun start => h.bin_search2 start h.max_ea (h.parse_binpat_str signature)) h.max_ea M) :
    (IsSignatureUnique h signature = true ↔ ∃! a, h.min_ea ≤ a ∧ a < h.max_ea ∧ M a)
    ∧ ((∀ a, h.min_ea ≤ a → a < h.max_ea → ¬ M a) → IsSignatureUnique h signature = false)
    ∧ (∀ a b, a ≠ b → h.min_ea ≤ a → a < h.max_ea → M a → h.min_ea ≤ b → b < h.max_ea → M b
        → IsSignatureUnique h signature = false) := by
  have key := IsSignatureUnique_true_iff_of_lowest h signature M hmax hsearch
  refine ⟨key, ?_, ?_⟩
  · intro hnone
    rw [← Bool.not_eq_true]
    intro ht
    obtain ⟨a, ⟨ha1, ha2, ha3⟩, _⟩ := key.mp ht
    exact hnone a ha1 ha2 ha3
  · intro a b hab ha1 ha2 ha3 hb1 hb2 hb3
    rw [← Bool.not_eq_true]
    intro ht
    obtain ⟨c, _, huniq⟩ := key.mp ht
    have e1 := huniq a ⟨ha1, ha2, ha3⟩
    have e2 := huniq b ⟨hb1, hb2, hb3⟩
    exact hab (e1.trans e2.symm)

theorem GenerateSignatureLoop_success (h : Host) (IS_ARM wildcardOperands : Bool)
    (maxSignatureLength : Nat) (askLongerSignature : Bool) (ea : Nat) :
    ∀ (fuel k sigPartLength : Nat) (result : Signature),
      GenerateSignatureLoop h IS_ARM wildcardOperands maxSignatureLength askLongerSignature
          fuel (patternAfter h IS_ARM wildcardOperands ea k) sigPartLength (cursorAfter h ea k)
        = some (some result) →
      ∃ n, k < n ∧ n ≤ k + fuel
        ∧ result = TrimSignature (patternAfter h IS_ARM wildcardOperands ea n)
        ∧ IsSignatureUnique h
            (GenerateSignatureString (patternAfter h IS_ARM wildcardOperands ea n) false) = true
        ∧ (∀ m, k < m → m < n → IsSignatureUnique h
            (GenerateSignatureString (patternAfter h IS_ARM wildcardOperands ea m) false) = false)
        ∧ (∀ m, k ≤ m → m < n → 0 < (h.decode_insn (cursorAfter h ea m)).size) := by
  intro fuel
  induction fuel with
  | zero =>
    intro k spl result hres
    simp [GenerateSignatureLoop] at hres
  | succ fuel ih =>
    intro k spl result hres
    rw [GenerateSignatureLoop] at hres
    simp only at hres
    by_cases hsz : ((h.decode_insn (cursorAfter h ea k)).size : Int) ≤ 0
    · rw [if_pos hsz] at hres
      exact absurd hres (by simp)
    · rw [if_neg hsz] at hres
      have hpos : 0 < (h.decode_insn (cursorAfter h ea k)).size := by omega
      cases hg : lengthGuard h maxSignatureLength askLongerSignature
          (patternAfter h IS_ARM wildcardOperands ea k) spl with
      | none =>
        rw [hg] at hres
        exact absurd hres (by simp)
      | some c =>
        rw [hg] at hres
        simp only at hres
        by_cases hu : IsSignatureUnique h
            (GenerateSignatureString (patternAfter h IS_ARM wildcardOperands ea (k + 1)) false)
            = true
        · have hu2 := hu
          rw [patternAfter] at hu2
          rw [if_pos hu2] at hres
          refine ⟨k + 1, by omega, by omega, ?_, hu, ?_, ?_⟩
          · simp only [Option.some.injEq] at hres
            rw [patternAfter]
            exact hres.symm
          · intro m hm1 hm2; omega
          · intro m hm1 hm2
            have : m = k := by omega
            rw [this]; exact hpos
        · have hu2 := hu
          rw [patternAfter] at hu2
          rw [if_neg hu2] at hres
          obtain ⟨n, hn1, hn2, hn3, hn4, hn5, hn6⟩ := ih (k + 1) _ result hres
          refine ⟨n, by omega, by omega, hn3, hn4, ?_, ?_⟩
          · intro m hm1 hm2
            by_cases hmk : m = k + 1
            · rw [hmk]; simpa using hu
            · exact hn5 m (by omega) hm2
          · intro m hm1 hm2
            by_cases hmk : m = k
            · rw [hmk]; exact hpos
            · exact hn6 m (by omega) hm2

theorem GenerateSignatureLoop_fuel_mono (h : Host) (IS_ARM wildcardOperands : Bool)
    (maxSignatureLength : Nat) (askLongerSignature : Bool) :
    ∀ (fuel extra : Nat) (signature : Signature) (sigPartLength currentAddress : Nat)
      (r : Option Signature),
      GenerateSignatureLoop h IS_ARM wildcardOperands maxSignatureLength askLongerSignature
          fuel signature sigPartLength currentAddress = some r →
      GenerateSignatureLoop h IS_ARM wildcardOperands maxSignatureLength askLongerSignature
          (fuel + extra) signature sigPartLength currentAddress = some r := by
  intro fuel
  induction fuel with
  | zero =>
    intro extra signature spl cur r hres
    simp [GenerateSignatureLoop] at hres
  | succ fuel ih =>
    intro extra signature spl cur r hres
    rw [show fuel + 1 + extra = (fuel + extra) + 1 by omega]
    rw [GenerateSignatureLoop] at hres ⊢
    simp only at hres ⊢
    split
    · rename_i hsz
      rw [if_pos hsz] at hres; exact hres
    · rename_i hsz
      rw [if_neg hsz] at hres
      split
      · rename_i hg
        rw [hg] at hres; exact hres
      · rename_i c hg
        rw [hg] at hres
        simp only at hres
        split
        · rename_i hu
          rw [if_pos hu] at hres; exact hres
        · rename_i hu
          rw [if_neg hu] at hres
          exact ih extra _ _ _ r hres

/-- C1: when `GenerateSignatureForEA` succeeds, its result is `TrimSignature` of the
pattern built from the first `n` instructions from the anchor, where `n ≥ 1` is the
least count whose rendered pattern passes `IsSignatureUnique`: the patterns of the first
`1 .. n-1` instructions were each not unique, all `n` instructions decoded with a
positive length, and more fuel gives the same result. -/
theorem GenerateSignatureForEA_least_unique_count (h : Host) (IS_ARM : Bool) (fuel ea : Nat)
    (wildcardOperands : Bool) (maxSignatureLength : Nat) (askLongerSignature : Bool)
    (result : Signature)
    (hres : GenerateSignatureForEA h IS_ARM fuel ea wildcardOperands maxSignatureLength
      askLongerSignature = some (some result)) :
    ∃ n, 1 ≤ n ∧ n ≤ fuel
      ∧ result = TrimSignature (patternAfter h IS_ARM wildcardOperands ea n)
      ∧ IsSignatureUnique h
          (GenerateSignatureString (patternAfter h IS_ARM wildcardOperands ea n) false) = true
      ∧ (∀ m, 1 ≤ m → m < n → IsSignatureUnique h
          (GenerateSignatureString (patternAfter h IS_ARM wildcardOperands ea m) false) = false)
      ∧ (∀ m, m < n → 0 < (h.decode_insn (cursorAfter h ea m)).size)
      ∧ (∀ extra, GenerateSignatureForEA h IS_ARM (fuel + extra) ea wildcardOperands
          maxSignatureLength askLongerSignature = some (some result)) := by
  unfold GenerateSignatureForEA at hres
  by_cases hbad : ea = BADADDR
  · rw [if_pos hbad] at hres; exact absurd hres (by simp)
  · rw [if_neg hbad] at hres
    by_cases hcode : (!h.is_code ea) = true
    · rw [if_pos hcode] at hres; exact absurd hres (by simp)
    · rw [if_neg hcode] at hres
      obtain ⟨n, hn1, hn2, hn3, hn4, hn5, hn6⟩ :=
        GenerateSignatureLoop_success h IS_ARM wildcardOperands maxSignatureLength
          askLongerSignature ea fuel 0 0 result hres
      refine ⟨n, hn1, by omega, hn3, hn4, fun m hm1 hm2 => hn5 m (by omega) hm2,
        fun m hm => hn6 m (by omega) hm, ?_⟩
      intro extra
      unfold GenerateSignatureForEA
      rw [if_neg hbad, if_neg hcode]
      exact GenerateSignatureLoop_fuel_mono h IS_ARM wildcardOperands maxSignatureLength
        askLongerSignature fuel extra [] 0 ea (some result) hres

theorem GetOperandGeneric_go_offset (ins : insn_t) (a b : Nat) (ops : List op_t)
    (hfound : (GetOperandGenericLoop ins a b ops).1 = true) :
    (GetOperandGenericLoop ins a b ops).2.1 ≠ 0 := by
  induction ops with
  | nil => simp [GetOperandGenericLoop] at hfound
  | cons o t ih =>
    rw [GetOperandGenericLoop] at hfound ⊢
    by_cases hv : o.type = optype_t.o_void
    · rw [if_pos hv] at hfound ⊢; exact ih hfound
    · rw [if_neg hv] at hfound ⊢
      by_cases hz : o.offb % 256 = 0
      · rw [if_pos hz] at hfound ⊢; exact ih hfound
      · rw [if_neg hz]; exact hz

theorem GetOperandOffsetARM_go_length (ins : insn_t) (a : Nat) (ops : List op_t)
    (hfound : (GetOperandOffsetARMLoop ins a 0 ops).1 = true) :
    (GetOperandOffsetARMLoop ins a 0 ops).2.2 = 0
    ∨ (ins.size = 4 ∧ (GetOperandOffsetARMLoop ins a 0 ops).2.2 = 3)
    ∨ (ins.size = 8 ∧ (GetOperandOffsetARMLoop ins a 0 ops).2.2 = 7) := by
  induction ops with
  | nil => simp [GetOperandOffsetARMLoop] at hfound
  | cons o t ih =>
    have hq : ∀ (_ : True),
        (if ins.size = 8 then 7 else if ins.size = 4 then 3 else 0) = 0
        ∨ (ins.size = 4 ∧ (if ins.size = 8 then 7 else if ins.size = 4 then 3 else 0) = 3)
        ∨ (ins.size = 8 ∧ (if ins.size = 8 then 7 else if ins.size = 4 then 3 else 0) = 7) := by
      intro _
      by_cases h8 : ins.size = 8
      · right; right; simp [h8]
      · by_cases h4 : ins.size = 4
        · right; left; simp [h4]
        · left; simp [h8, h4]
    rw [GetOperandOffsetARMLoop] at hfound ⊢
    cases ht : o.type <;> simp only [ht] at hfound ⊢ <;>
      first
        | exact ih hfound
        | exact hq trivial

theorem imageBytes_fixed_mem (h : Host) (address count : Nat) (hc : 0 < count) :
    ∃ sb ∈ imageBytes h address count false, sb.isWildcard = false := by
  refine ⟨SignatureByte.mk (h.get_byte (ea_add address 0)) false, ?_, rfl⟩
  unfold imageBytes
  exact List.mem_map.mpr ⟨0, List.mem_range.mpr hc, rfl⟩

theorem appendInstruction_has_fixed (h : Host) (IS_ARM wildcardOperands : Bool)
    (signature : Signature) (address : Nat) (ins : insn_t)
    (hpos : 0 < ins.size) (hlt : ins.size < 65536) :
    ∃ added, appendInstruction h IS_ARM wildcardOperands signature address ins
        = signature ++ added
      ∧ ∃ sb ∈ added, sb.isWildcard = false := by
  unfold appendInstruction
  simp only
  by_cases hc : (wildcardOperands && (GetOperand IS_ARM ins 0 0).1
      && decide ((GetOperand IS_ARM ins 0 0).2.2 > 0)) = true
  · rw [if_pos hc]
    simp only [Bool.and_eq_true, decide_eq_true_eq] at hc
    obtain ⟨⟨_, hfound⟩, hlen⟩ := hc
    by_cases hoff : (GetOperand IS_ARM ins 0 0).2.1 = 0
    · rw [if_pos hoff]
      have harm : IS_ARM = true := by
        cases IS_ARM with
        | true => rfl
        | false =>
          exfalso
          unfold GetOperand at hfound hoff
          simp only [Bool.false_eq_true, if_false] at hfound hoff
          exact GetOperandGeneric_go_offset ins 0 0 ins.ops hfound hoff
      subst harm
      have hshape : (GetOperand true ins 0 0).2.2 = 0
          ∨ (ins.size = 4 ∧ (GetOperand true ins 0 0).2.2 = 3)
          ∨ (ins.size = 8 ∧ (GetOperand true ins 0 0).2.2 = 7) := by
        unfold GetOperand at hfound ⊢
        simp only [if_true] at hfound ⊢
        exact GetOperandOffsetARM_go_length ins 0 ins.ops hfound
      have hone : to_size_t ((ins.size : Int) - ((GetOperand true ins 0 0).2.2 : Nat)) = 1 := by
        rcases hshape with h0 | ⟨h4, h3⟩ | ⟨h8, h7⟩
        · omega
        · rw [h4, h3]; decide
        · rw [h8, h7]; decide
      rw [hone, AddBytesToSignature_eq, AddBytesToSignature_eq, AddBytesToSignature_eq,
        List.append_assoc, List.append_assoc]
      refine ⟨_, rfl, ?_⟩
      obtain ⟨sb, hsb, hw⟩ := imageBytes_fixed_mem h
        (ea_add address (GetOperand true ins 0 0).2.2) 1 (by omega)
      exact ⟨sb, List.mem_append_right _ (List.mem_append_right _ hsb), hw⟩
    · rw [if_neg hoff, AddBytesToSignature_eq, AddBytesToSignature_eq, List.append_assoc]
      refine ⟨_, rfl, ?_⟩
      obtain ⟨sb, hsb, hw⟩ := imageBytes_fixed_mem h address (GetOperand IS_ARM ins 0 0).2.1
        (by omega)
      exact ⟨sb, List.mem_append_left _ hsb, hw⟩
  · rw [if_neg hc, AddBytesToSignature_eq,
      to_size_t_natCast ins.size (by unfold EA_MOD; omega)]
    exact ⟨_, rfl, imageBytes_fixed_mem h address ins.size hpos⟩

theorem TrimSignature_ne_nil (s : Signature) (hfix : ∃ sb ∈ s, sb.isWildcard = false) :
    TrimSignature s ≠ [] := by
  intro hnil
  obtain ⟨sb, hsb, hw⟩ := hfix
  have hdec := TrimSignature_decomp s
  rw [hnil, List.nil_append] at hdec
  rw [hdec, List.mem_reverse] at hsb
  have := List.mem_takeWhile_imp hsb
  rw [hw] at this
  exact Bool.false_ne_true this

/-- C3: every signature returned as a success is non-empty and its last entry is not a
wildcard, in both architecture modes and for both settings of `wildcardOperands`, given
that decoded sizes fit the 16-bit `size` field; and every instruction of length at least
one appends at least one fixed entry. -/
theorem GenerateSignatureForEA_success_nonempty_fixed_last (h : Host) (IS_ARM : Bool)
    (fuel ea : Nat) (wildcardOperands : Bool) (maxSignatureLength : Nat)
    (askLongerSignature : Bool) (result : Signature)
    (hsize : ∀ a, (h.decode_insn a).size < 65536)
    (hres : GenerateSignatureForEA h IS_ARM fuel ea wildcardOperands maxSignatureLength
      askLongerSignature = some (some result)) :
    result ≠ []
    ∧ (∃ sb, result.getLast? = some sb ∧ sb.isWildcard = false)
    ∧ (∀ (signature : Signature) (address : Nat) (ins : insn_t),
        0 < ins.size → ins.size < 65536 →
        ∃ added, appendInstruction h IS_ARM wildcardOperands signature address ins
            = signature ++ added
          ∧ ∃ sb ∈ added, sb.isWildcard = false) := by
  have hne : result ≠ [] := by
    unfold GenerateSignatureForEA at hres
    by_cases hbad : ea = BADADDR
    · rw [if_pos hbad] at hres; exact absurd hres (by simp)
    · rw [if_neg hbad] at hres
      by_cases hcode : (!h.is_code ea) = true
      · rw [if_pos hcode] at hres; exact absurd hres (by simp)
      · rw [if_neg hcode] at hres
        obtain ⟨n, hn1, _, hn3, _, _, hn6⟩ :=
          GenerateSignatureLoop_success h IS_ARM wildcardOperands maxSignatureLength
            askLongerSignature ea fuel 0 0 result hres
        obtain ⟨k, rfl⟩ : ∃ k, n = k + 1 := ⟨n - 1, by omega⟩
        rw [hn3, patternAfter]
        apply TrimSignature_ne_nil
        obtain ⟨added, hadd, sb, hsb, hw⟩ := appendInstruction_has_fixed h IS_ARM
          wildcardOperands (patternAfter h IS_ARM wildcardOperands ea k) (cursorAfter h ea k)
          (h.decode_insn (cursorAfter h ea k)) (hn6 k (by omega) (by omega)) (hsize _)
        rw [hadd]
        exact ⟨sb, List.mem_append_right _ hsb, hw⟩
  have hlast : ∃ sb, result.getLast? = some sb ∧ sb.isWildcard = false := by
    have htrim : ∃ s, result = TrimSignature s := by
      unfold GenerateSignatureForEA at hres
      by_cases hbad : ea = BADADDR
      · rw [if_pos hbad] at hres; exact absurd hres (by simp)
      · rw [if_neg hbad] at hres
        by_cases hcode : (!h.is_code ea) = true
        · rw [if_pos hcode] at hres; exact absurd hres (by simp)
        · rw [if_neg hcode] at hres
          obtain ⟨n, _, _, hn3, _⟩ :=
            GenerateSignatureLoop_success h IS_ARM wildcardOperands maxSignatureLength
              askLongerSignature ea fuel 0 0 result hres
          exact ⟨_, hn3⟩
    obtain ⟨s, hs⟩ := htrim
    cases hl : result.getLast? with
    | none =>
      rw [List.getLast?_eq_none_iff] at hl
      exact absurd hl hne
    | some sb =>
      refine ⟨sb, rfl, ?_⟩
      rw [hs] at hl
      exact TrimSignature_getLast s sb hl
  exact ⟨hne, hlast, fun signature address ins hp hl =>
    appendInstruction_has_fixed h IS_ARM wildcardOperands signature address ins hp hl⟩

set_option maxRecDepth 100000 in
/-- C2: on `edgeHost` the synthesis succeeds with the one-entry signature `E8`: the
pattern that was tested, `E8 ? ? ? ?`, occurs once in the image, but the returned
signature, after the trailing wildcards are trimmed, occurs twice (at the anchor and at
the last byte), so `IsSignatureUnique` of its rendering is false. -/
theorem GenerateSignatureForEA_trimmed_result_not_unique :
    GenerateSignatureForEA edgeHost false 5 0 true 1000 true
      = some (some [SignatureByte.mk 0xE8 false])
    ∧ GenerateSignatureString (patternAfter edgeHost false true 0 1) false
      = ['E', '8', ' ', '?', ' ', '?', ' ', '?', ' ', '?']
    ∧ IsSignatureUnique edgeHost
        (GenerateSignatureString (patternAfter edgeHost false true 0 1) false) = true
    ∧ GenerateSignatureString [SignatureByte.mk 0xE8 false] false = ['E', '8']
    ∧ IsSignatureUnique edgeHost
        (GenerateSignatureString [SignatureByte.mk 0xE8 false] false) = false
    ∧ occursAt edgeHost.get_byte [some 0xE8] edgeHost.max_ea 0 = true
    ∧ occursAt edgeHost.get_byte [some 0xE8] edgeHost.max_ea 5 = true := by
  decide

set_option maxRecDepth 100000 in
/-- C4: on `armHost`, in ARM mode with `wildcardOperands` set, the first instruction has
length 4 but appends 5 entries (2 fixed, 3 wildcards); after the second four-byte
instruction the signature has 9 entries for 8 consumed bytes and entry 5 holds the image
byte at `anchor + 4`, which differs from the byte at `anchor + 5`.  The pattern then
matches nowhere and the synthesis ends without a result, although it succeeds on the
same image with `wildcardOperands` off. -/
theorem GenerateSignatureForEA_arm_offset_misaligned :
    (armHost.decode_insn 0).size = 4
    ∧ cursorAfter armHost 0 1 = 4
    ∧ (patternAfter armHost true true 0 1).length = 5
    ∧ cursorAfter armHost 0 2 = 8
    ∧ (patternAfter armHost true true 0 2).length = 9
    ∧ (patternAfter armHost true true 0 2)[5]?
        = some (SignatureByte.mk (armHost.get_byte 4) false)
    ∧ armHost.get_byte 4 ≠ armHost.get_byte 5
    ∧ GenerateSignatureForEA armHost true 5 0 true 1000 true = some none
    ∧ GenerateSignatureForEA armHost true 5 0 false 1000 true
        = some (some ((List.range 8).map
            (fun i => SignatureByte.mk (armHost.get_byte i) false))) := by
  decide

theorem exampleDecode_size_lt (a : Nat) : (exampleDecode a).size < 65536 := by
  unfold exampleDecode
  split
  · decide
  · split
    · decide
    · split <;> decide

set_option maxRecDepth 100000 in
theorem GenerateSignatureForEA_least_unique_count_witness :
    GenerateSignatureForEA exampleHost false 5 0 true 1000 true
      = some (some [SignatureByte.mk 0x55 false, SignatureByte.mk 0x8B false,
          SignatureByte.mk 0xEC false, SignatureByte.mk 0xE8 false])
    ∧ IsSignatureUnique exampleHost
        (GenerateSignatureString (patternAfter exampleHost false true 0 1) false) = false
    ∧ IsSignatureUnique exampleHost
        (GenerateSignatureString (patternAfter exampleHost false true 0 2) false) = false
    ∧ IsSignatureUnique exampleHost
        (GenerateSignatureString (patternAfter exampleHost false true 0 3) false) = true
    ∧ (patternAfter exampleHost false true 0 3).length = 8
    ∧ ∃ n, 1 ≤ n ∧ n ≤ 5
      ∧ [SignatureByte.mk 0x55 false, SignatureByte.mk 0x8B false,
          SignatureByte.mk 0xEC false, SignatureByte.mk 0xE8 false]
        = TrimSignature (patternAfter exampleHost false true 0 n)
      ∧ IsSignatureUnique exampleHost
          (GenerateSignatureString (patternAfter exampleHost false true 0 n) false) = true
      ∧ (∀ m, 1 ≤ m → m < n → IsSignatureUnique exampleHost
          (GenerateSignatureString (patternAfter exampleHost false true 0 m) false) = false)
      ∧ (∀ m, m < n → 0 < (exampleHost.decode_insn (cursorAfter exampleHost 0 m)).size)
      ∧ (∀ extra, GenerateSignatureForEA exampleHost false (5 + extra) 0 true 1000 true
          = some (some [SignatureByte.mk 0x55 false, SignatureByte.mk 0x8B false,
              SignatureByte.mk 0xEC false, SignatureByte.mk 0xE8 false])) :=
  ⟨by decide, by decide, by decide, by decide, by decide,
    GenerateSignatureForEA_least_unique_count exampleHost false 5 0 true 1000 true _
      (by decide)⟩

set_option maxRecDepth 100000 in
theorem GenerateSignatureForEA_success_nonempty_fixed_last_witness :
    (∀ a, (exampleHost.decode_insn a).size < 65536)
    ∧ GenerateSignatureForEA exampleHost false 5 0 true 1000 true
      = some (some [SignatureByte.mk 0x55 false, SignatureByte.mk 0x8B false,
          SignatureByte.mk 0xEC false, SignatureByte.mk 0xE8 false])
    ∧ ([SignatureByte.mk 0x55 false, SignatureByte.mk 0x8B false,
          SignatureByte.mk 0xEC false, SignatureByte.mk 0xE8 false] ≠ []
      ∧ (∃ sb, [SignatureByte.mk 0x55 false, SignatureByte.mk 0x8B false,
            SignatureByte.mk 0xEC false, SignatureByte.mk (0xE8 : Fin 256) false].getLast?
          = some sb ∧ sb.isWildcard = false)
      ∧ (∀ (signature : Signature) (address : Nat) (ins : insn_t),
          0 < ins.size → ins.size < 65536 →
          ∃ added, appendInstruction exampleHost false true signature address ins
              = signature ++ added
            ∧ ∃ sb ∈ added, sb.isWildcard = false)) :=
  ⟨exampleDecode_size_lt, by decide,
    GenerateSignatureForEA_success_nonempty_fixed_last exampleHost false 5 0 true 1000 true _
      exampleDecode_size_lt (by decide)⟩

set_option maxRecDepth 100000 in
theorem IsSignatureUnique_iff_exactly_one_witness :
    edgeHost.max_ea ≤ BADADDR
    ∧ IsSignatureUnique edgeHost ['E', '8', ' ', '?', ' ', '?', ' ', '?', ' ', '?'] = true
    ∧ IsSignatureUnique edgeHost ['E', '8'] = false
    ∧ IsSignatureUnique edgeHost ['C', '3'] = false
    ∧ ((IsSignatureUnique edgeHost ['E', '8'] = true ↔
          ∃! a, edgeHost.min_ea ≤ a ∧ a < edgeHost.max_ea
            ∧ occursAt edgeHost.get_byte (edgeHost.parse_binpat_str ['E', '8'])
                edgeHost.max_ea a = true)
      ∧ ((∀ a, edgeHost.min_ea ≤ a → a < edgeHost.max_ea
            → ¬ (occursAt edgeHost.get_byte (edgeHost.parse_binpat_str ['E', '8'])
                edgeHost.max_ea a = true))
          → IsSignatureUnique edgeHost ['E', '8'] = false)
      ∧ (∀ a b, a ≠ b → edgeHost.min_ea ≤ a → a < edgeHost.max_ea
          → occursAt edgeHost.get_byte (edgeHost.parse_binpat_str ['E', '8'])
              edgeHost.max_ea a = true
          → edgeHost.min_ea ≤ b → b < edgeHost.max_ea
          → occursAt edgeHost.get_byte (edgeHost.parse_binpat_str ['E', '8'])
              edgeHost.max_ea b = true
          → IsSignatureUnique edgeHost ['E', '8'] = false)) :=
  ⟨by decide, by decide, by decide, by decide,
    IsSignatureUnique_iff_exactly_one edgeHost ['E', '8']
      (fun a => occursAt edgeHost.get_byte (edgeHost.parse_binpat_str ['E', '8'])
        edgeHost.max_ea a = true)
      (by decide)
      (bin_search2_model_lowest edgeHost.get_byte edgeHost.max_ea
        (edgeHost.parse_binpat_str ['E', '8']))⟩

set_option maxRecDepth 100000 in
theorem appendInstruction_generic_operand_witness :
    (∀ o ∈ [op_t.mk optype_t.o_reg 0], o.type = optype_t.o_void ∨ o.offb % 256 = 0)
    ∧ (op_t.mk optype_t.o_imm 2).type ≠ optype_t.o_void
    ∧ (op_t.mk optype_t.o_imm 2).offb = 2 ∧ 0 < 2 ∧ 2 < 6 ∧ 6 ≤ 255
    ∧ appendInstruction exampleHost false true [] 3
        (insn_t.mk 6 [op_t.mk optype_t.o_reg 0, op_t.mk optype_t.o_imm 2,
          op_t.mk optype_t.o_imm 4])
      = [SignatureByte.mk 0xE8 false, SignatureByte.mk 0x10 false,
          SignatureByte.mk 0x20 true, SignatureByte.mk 0x30 true,
          SignatureByte.mk 0x40 true, SignatureByte.mk 0x55 true]
    ∧ (appendInstruction exampleHost false true [] 3
          (insn_t.mk 6 ([op_t.mk optype_t.o_reg 0] ++ op_t.mk optype_t.o_imm 2
            :: [op_t.mk optype_t.o_imm 4]))
        = [] ++ maskedBytes exampleHost 3 6 2
      ∧ (maskedBytes exampleHost 3 6 2).length = 6
      ∧ (∀ i : Nat, i < 6 → (maskedBytes exampleHost 3 6 2)[i]?
          = some (SignatureByte.mk (exampleHost.get_byte (ea_add 3 i)) (decide (2 ≤ i))))
      ∧ appendInstruction exampleHost false true [] 3
          (insn_t.mk 6 [op_t.mk optype_t.o_reg 0])
        = [] ++ maskedBytes exampleHost 3 6 6
      ∧ (∀ i : Nat, i < 6 → (maskedBytes exampleHost 3 6 6)[i]?
          = some (SignatureByte.mk (exampleHost.get_byte (ea_add 3 i)) false))) :=
  ⟨by decide, by decide, rfl, by decide, by decide, by decide, by decide,
    appendInstruction_generic_operand exampleHost [] 3 6 2 [op_t.mk optype_t.o_reg 0]
      [op_t.mk optype_t.o_imm 4] (op_t.mk optype_t.o_imm 2)
      (by decide) (by decide) rfl (by decide) (by decide) (by decide)⟩

theorem splitSpaces_no_space (t : List Char) (ht : ' ' ∉ t) : splitSpaces t = [t] := by
  induction t with
  | nil => rfl
  | cons c cs ih =>
    have hc : c ≠ ' ' := fun e => ht (by simp [e])
    have hcs : ' ' ∉ cs := fun hm => ht (List.mem_cons_of_mem _ hm)
    rw [splitSpaces, if_neg hc, ih hcs]

theorem splitSpaces_append_space (t r : List Char) (ht : ' ' ∉ t) :
    splitSpaces (t ++ ' ' :: r) = t :: splitSpaces r := by
  induction t with
  | nil => simp [splitSpaces]
  | cons c cs ih =>
    have hc : c ≠ ' ' := fun e => ht (by simp [e])
    have hcs : ' ' ∉ cs := fun hm => ht (List.mem_cons_of_mem _ hm)
    rw [List.cons_append, splitSpaces, if_neg hc, ih hcs]

theorem splitSpaces_intercalate (tokens : List (List Char)) (hne : tokens ≠ [])
    (htok : ∀ t ∈ tokens, ' ' ∉ t) :
    splitSpaces (List.intercalate [' '] tokens) = tokens := by
  induction tokens with
  | nil => exact absurd rfl hne
  | cons a t ih =>
    cases t with
    | nil =>
      rw [intercalate_single]
      exact splitSpaces_no_space a (htok a (by simp))
    | cons b t2 =>
      rw [intercalate_cons_cons, splitSpaces_append_space _ _ (htok a (by simp)),
        ih (by simp) (fun x hx => htok x (List.mem_cons_of_mem _ hx))]

theorem hexDigitUpper_ne_question (n : Nat) : hexDigitUpper n ≠ '?' := by
  by_cases hn : n < 16
  · interval_cases n <;> decide
  · have : hexDigitUpper n = '0' := by
      unfold hexDigitUpper
      rw [List.getD_eq_default]
      simp only [List.length_cons, List.length_nil]
      omega
    rw [this]; decide

theorem parseToken_entryToken (sb : SignatureByte) :
    parseToken (entryToken false sb)
      = some (if sb.isWildcard then none else some sb.value) := by
  unfold entryToken
  cases hw : sb.isWildcard
  · simp only [Bool.false_eq_true, if_false]
    have h1 := (hexDigitUpper_spec (sb.value.val / 16) (by omega)).2
    have h2 := (hexDigitUpper_spec (sb.value.val % 16) (by omega)).2
    rw [parseToken, h1, h2]
    simp only [Option.some.injEq]
    apply Fin.ext
    show (16 * (sb.value.val / 16) + sb.value.val % 16) % 256 = sb.value.val
    omega
  · simp [parseToken]

theorem parseTokens_entryTokens (s : Signature) :
    parseTokens (s.map (entryToken false)) = some (toPattern s) := by
  induction s with
  | nil => rfl
  | cons a t ih =>
    rw [List.map_cons, parseTokens, parseToken_entryToken, ih]
    rfl

theorem parse_binpat_str_model_render (s : Signature) :
    parse_binpat_str_model (GenerateSignatureString s false) = toPattern s := by
  cases s with
  | nil => rfl
  | cons a t =>
    rw [GenerateSignatureString_eq]
    unfold parse_binpat_str_model
    rw [splitSpaces_intercalate _ (by simp)
      (by
        intro x hx
        obtain ⟨sb, _, rfl⟩ := List.mem_map.mp hx
        exact entryToken_no_space false sb),
      parseTokens_entryTokens]

theorem IsSignatureUnique_imageHost_iff (base : Nat) (image : List (Fin 256))
    (code : Nat → Bool) (decode : Nat → insn_t) (ask : Nat → Int) (s : Signature)
    (hmax : base + image.length ≤ BADADDR) :
    IsSignatureUnique (imageHost base image code decode ask) (GenerateSignatureString s false)
        = true
      ↔ ∃! a, base ≤ a ∧ a < base + image.length
          ∧ occursAt (imageHost base image code decode ask).get_byte (toPattern s)
              (base + image.length) a = true := by
  have hlow := bin_search2_model_lowest (imageHost base image code decode ask).get_byte
    (base + image.length) (toPattern s)
  have key := IsSignatureUnique_true_iff_of_lowest (imageHost base image code decode ask)
    (GenerateSignatureString s false)
    (fun a => occursAt (imageHost base image code decode ask).get_byte (toPattern s)
      (base + image.length) a = true) hmax
    (by
      show LowestMatchSearch (fun start => bin_search2_model
        (imageHost base image code decode ask).get_byte start (base + image.length)
        (parse_binpat_str_model (GenerateSignatureString s false))) (base + image.length) _
      rw [parse_binpat_str_model_render]
      exact hlow)
  exact key

theorem imageBytes_values (h : Host) (address count : Nat) (wildcard : Bool) :
    (imageBytes h address count wildcard).map SignatureByte.value
      = imageValues h address count := by
  unfold imageBytes imageValues
  rw [List.map_map]
  rfl

theorem imageValues_append (h : Host) (address a b : Nat) :
    imageValues h address a ++ imageValues h (ea_add address a) b
      = imageValues h address (a + b) := by
  unfold imageValues
  rw [List.range_add, List.map_append, List.map_map]
  congr 1
  apply List.map_congr_left
  intro i _
  simp [ea_add_ea_add]

theorem imageValues_zero_offset (h : Host) (address count : Nat) :
    imageValues h (ea_add address 0) count = imageValues h (address % EA_MOD) count := by
  unfold imageValues ea_add
  simp

theorem imageValues_mod (h : Host) (address count : Nat) :
    imageValues h (address % EA_MOD) count = imageValues h address count := by
  unfold imageValues ea_add
  apply List.map_congr_left
  intro i _
  simp [Nat.add_mod]

theorem cursorAfter_eq (h : Host) (ea n : Nat) :
    cursorAfter h ea (n + 1) = ea_add ea (consumedLength h ea (n + 1)) := by
  induction n with
  | zero =>
    show ea_add ea (h.decode_insn ea).size = ea_add ea (0 + (h.decode_insn ea).size)
    rw [Nat.zero_add]
  | succ k ih =>
    rw [cursorAfter, consumedLength, ← ea_add_ea_add, ← ih]

theorem imageValues_cursorAfter (h : Host) (ea n count : Nat) :
    imageValues h (cursorAfter h ea n) count
      = imageValues h (ea_add ea (consumedLength h ea n)) count := by
  cases n with
  | zero =>
    show imageValues h ea count = imageValues h (ea_add ea 0) count
    rw [imageValues_zero_offset, imageValues_mod]
  | succ k => rw [cursorAfter_eq]

theorem GetOperandGenericLoop_cases (ins : insn_t) (a b : Nat) (ops : List op_t) :
    GetOperandGenericLoop ins a b ops = (false, a, b)
    ∨ ∃ o ∈ ops, o.offb % 256 ≠ 0
        ∧ GetOperandGenericLoop ins a b ops
          = (true, o.offb % 256, (((ins.size : Int) - (o.offb % 256 : Nat)) % 256).toNat) := by
  induction ops with
  | nil => left; rfl
  | cons o t ih =>
    rw [GetOperandGenericLoop]
    have ih2 : GetOperandGenericLoop ins a b t = (false, a, b)
        ∨ ∃ o2 ∈ o :: t, o2.offb % 256 ≠ 0
          ∧ GetOperandGenericLoop ins a b t
            = (true, o2.offb % 256,
                (((ins.size : Int) - (o2.offb % 256 : Nat)) % 256).toNat) := by
      rcases ih with h1 | ⟨o2, ho2, hz, he⟩
      · left; exact h1
      · right; exact ⟨o2, List.mem_cons_of_mem _ ho2, hz, he⟩
    by_cases hv : o.type = optype_t.o_void
    · rw [if_pos hv]; exact ih2
    · rw [if_neg hv]
      by_cases hz : o.offb % 256 = 0
      · rw [if_pos hz]; exact ih2
      · rw [if_neg hz]
        right
        exact ⟨o, by simp, hz, rfl⟩

theorem GetOperandOffsetARMLoop_cases (ins : insn_t) (a : Nat) (ops : List op_t) :
    GetOperandOffsetARMLoop ins a 0 ops = (false, a, 0)
    ∨ ∃ o ∈ ops, GetOperandOffsetARMLoop ins a 0 ops
        = (true, o.offb % 256, if ins.size = 8 then 7 else if ins.size = 4 then 3 else 0) := by
  induction ops with
  | nil => left; rfl
  | cons o t ih =>
    have ih2 : GetOperandOffsetARMLoop ins a 0 t = (false, a, 0)
        ∨ ∃ o2 ∈ o :: t, GetOperandOffsetARMLoop ins a 0 t
          = (true, o2.offb % 256,
              if ins.size = 8 then 7 else if ins.size = 4 then 3 else 0) := by
      rcases ih with h1 | ⟨o2, ho2, he⟩
      · left; exact h1
      · right; exact ⟨o2, List.mem_cons_of_mem _ ho2, he⟩
    have hq : ∃ o2 ∈ o :: t,
        ((true, o.offb % 256, if ins.size = 8 then 7 else if ins.size = 4 then 3 else 0)
          : Bool × Nat × Nat)
        = (true, o2.offb % 256, if ins.size = 8 then 7 else if ins.size = 4 then 3 else 0) :=
      ⟨o, by simp, rfl⟩
    rw [GetOperandOffsetARMLoop]
    cases ht : o.type <;> simp only [ht] <;>
      first
        | exact ih2
        | exact Or.inr hq

theorem GetOperand_fit (IS_ARM : Bool) (ins : insn_t) (hfit : operandOffsetsFit IS_ARM ins)
    (hfound : (GetOperand IS_ARM ins 0 0).1 = true)
    (hlen : (GetOperand IS_ARM ins 0 0).2.2 > 0) :
    ((GetOperand IS_ARM ins 0 0).2.1 ≠ 0
      ∧ (GetOperand IS_ARM ins 0 0).2.1 + (GetOperand IS_ARM ins 0 0).2.2 = ins.size)
    ∨ ((GetOperand IS_ARM ins 0 0).2.1 = 0
      ∧ (GetOperand IS_ARM ins 0 0).2.2 + 1 = ins.size) := by
  obtain ⟨_, hgen, harm⟩ := hfit
  cases IS_ARM with
  | false =>
    have hg := hgen rfl
    have e : GetOperand false ins 0 0 = GetOperandGenericLoop ins 0 0 ins.ops := rfl
    rw [e] at hfound hlen ⊢
    rcases GetOperandGenericLoop_cases ins 0 0 ins.ops with h1 | ⟨o, ho, hz, he⟩
    · rw [h1] at hfound; exact absurd hfound (by simp)
    · rw [he] at hlen ⊢
      have hk := hg.2 o ho
      have hs := hg.1
      simp only at hlen ⊢
      left
      refine ⟨hz, ?_⟩
      omega
  | true =>
    have ha := harm rfl
    have e : GetOperand true ins 0 0 = GetOperandOffsetARMLoop ins 0 0 ins.ops := rfl
    rw [e] at hfound hlen ⊢
    rcases GetOperandOffsetARMLoop_cases ins 0 ins.ops with h1 | ⟨o, ho, he⟩
    · rw [h1] at hfound; exact absurd hfound (by simp)
    · rw [he] at hlen ⊢
      have hk := ha o ho
      simp only at hlen ⊢
      by_cases h8 : ins.size = 8
      · rw [if_pos h8] at hlen ⊢
        omega
      · rw [if_neg h8] at hlen ⊢
        by_cases h4 : ins.size = 4
        · rw [if_pos h4] at hlen ⊢
          omega
        · rw [if_neg h4] at hlen
          omega

theorem appendInstruction_values (h : Host) (IS_ARM wildcardOperands : Bool)
    (signature : Signature) (address : Nat) (ins : insn_t)
    (hfit : operandOffsetsFit IS_ARM ins) :
    (appendInstruction h IS_ARM wildcardOperands signature address ins).map SignatureByte.value
      = signature.map SignatureByte.value ++ imageValues h address ins.size := by
  have hlt : ins.size < EA_MOD := by
    have := hfit.1
    unfold EA_MOD; omega
  unfold appendInstruction
  simp only
  by_cases hc : (wildcardOperands && (GetOperand IS_ARM ins 0 0).1
      && decide ((GetOperand IS_ARM ins 0 0).2.2 > 0)) = true
  · rw [if_pos hc]
    simp only [Bool.and_eq_true, decide_eq_true_eq] at hc
    obtain ⟨⟨_, hfound⟩, hlen⟩ := hc
    rcases GetOperand_fit IS_ARM ins hfit hfound hlen with ⟨hoff, hsum⟩ | ⟨hoff, hsum⟩
    · rw [if_neg hoff, AddBytesToSignature_eq, AddBytesToSignature_eq, List.map_append,
        List.map_append, imageBytes_values, imageBytes_values, List.append_assoc,
        imageValues_append, hsum]
    · have hone : to_size_t ((ins.size : Int) - ((GetOperand IS_ARM ins 0 0).2.2 : Nat)) = 1 := by
        have : (ins.size : Int) - ((GetOperand IS_ARM ins 0 0).2.2 : Nat) = 1 := by omega
        rw [this]; decide
      rw [if_pos hoff, hone, hoff, AddBytesToSignature_eq, AddBytesToSignature_eq,
        AddBytesToSignature_eq, List.map_append, List.map_append, List.map_append,
        imageBytes_values, imageBytes_values, imageBytes_values, List.append_assoc,
        List.append_assoc]
      have e0 : imageValues h address 0 = [] := rfl
      rw [e0, List.nil_append, imageValues_zero_offset, imageValues_mod, imageValues_append,
        hsum]
  · rw [if_neg hc, AddBytesToSignature_eq, List.map_append, imageBytes_values,
      to_size_t_natCast ins.size hlt]

theorem patternAfter_values (h : Host) (IS_ARM wildcardOperands : Bool) (ea n : Nat)
    (hfit : ∀ m, m < n → operandOffsetsFit IS_ARM (h.decode_insn (cursorAfter h ea m))) :
    (patternAfter h IS_ARM wildcardOperands ea n).map SignatureByte.value
      = imageValues h ea (consumedLength h ea n) := by
  induction n with
  | zero => rfl
  | succ k ih =>
    rw [patternAfter, appendInstruction_values h IS_ARM wildcardOperands _ _ _
        (hfit k (by omega)),
      ih (fun m hm => hfit m (by omega)), imageValues_cursorAfter, imageValues_append]
    rfl

theorem patternAfter_contiguous (h : Host) (IS_ARM wildcardOperands : Bool) (ea n : Nat)
    (hfit : ∀ m, m < n → operandOffsetsFit IS_ARM (h.decode_insn (cursorAfter h ea m))) :
    (patternAfter h IS_ARM wildcardOperands ea n).length = consumedLength h ea n
    ∧ ∀ i, i < consumedLength h ea n →
        ((patternAfter h IS_ARM wildcardOperands ea n)[i]?).map SignatureByte.value
          = some (h.get_byte (ea_add ea i)) := by
  have hv := patternAfter_values h IS_ARM wildcardOperands ea n hfit
  have hl : (patternAfter h IS_ARM wildcardOperands ea n).length = consumedLength h ea n := by
    have := congrArg List.length hv
    simpa [imageValues] using this
  refine ⟨hl, ?_⟩
  intro i hi
  rw [← List.getElem?_map, hv]
  simp [imageValues, List.getElem?_range hi]

theorem TrimSignature_removes_trailing_run_witness :
    TrimSignature [SignatureByte.mk 0xAA false, SignatureByte.mk 0xBB true,
        SignatureByte.mk 0xCC false, SignatureByte.mk 0xDD true, SignatureByte.mk 0xEE true]
      = [SignatureByte.mk 0xAA false, SignatureByte.mk 0xBB true, SignatureByte.mk 0xCC false]
    ∧ trailingWildcards [SignatureByte.mk 0xAA false, SignatureByte.mk 0xBB true,
        SignatureByte.mk 0xCC false, SignatureByte.mk 0xDD true, SignatureByte.mk 0xEE true] = 2
    ∧ (TrimSignature [SignatureByte.mk 0xAA false, SignatureByte.mk 0xBB true,
        SignatureByte.mk 0xCC false, SignatureByte.mk 0xDD true,
        SignatureByte.mk 0xEE true]).length
      = [SignatureByte.mk 0xAA false, SignatureByte.mk 0xBB true,
          SignatureByte.mk 0xCC false, SignatureByte.mk 0xDD true,
          SignatureByte.mk (0xEE : Fin 256) true].length
        - trailingWildcards [SignatureByte.mk 0xAA false, SignatureByte.mk 0xBB true,
            SignatureByte.mk 0xCC false, SignatureByte.mk 0xDD true,
            SignatureByte.mk 0xEE true]
    ∧ TrimSignature [SignatureByte.mk 0xAA false, SignatureByte.mk 0xBB false]
      = [SignatureByte.mk 0xAA false, SignatureByte.mk 0xBB false]
    ∧ TrimSignature [SignatureByte.mk 0xAA true, SignatureByte.mk 0xBB true] = [] :=
  ⟨by decide, by decide,
    (TrimSignature_removes_trailing_run [SignatureByte.mk 0xAA false,
      SignatureByte.mk 0xBB true, SignatureByte.mk 0xCC false, SignatureByte.mk 0xDD true,
      SignatureByte.mk 0xEE true]).2.2.2.1,
    by decide, by decide⟩

theorem GenerateSignatureString_tokens_joined_witness :
    GenerateSignatureString [SignatureByte.mk 0xAA false, SignatureByte.mk 0xBB true,
        SignatureByte.mk 0x0B false] false
      = ['A', 'A', ' ', '?', ' ', '0', 'B']
    ∧ GenerateSignatureString [SignatureByte.mk 0xAA false, SignatureByte.mk 0xBB true,
        SignatureByte.mk 0x0B false] true
      = ['A', 'A', ' ', '?', '?', ' ', '0', 'B']
    ∧ (GenerateSignatureString [SignatureByte.mk 0xAA false, SignatureByte.mk 0xBB true,
        SignatureByte.mk 0x0B false] true).length
      = 3 * [SignatureByte.mk 0xAA false, SignatureByte.mk 0xBB true,
          SignatureByte.mk (0x0B : Fin 256) false].length - 1 :=
  ⟨by decide, by decide,
    (GenerateSignatureString_tokens_joined [SignatureByte.mk 0xAA false,
      SignatureByte.mk 0xBB true, SignatureByte.mk 0x0B false] true).2.2.2.2.2.2.2.2.2⟩

theorem GenerateByteArrayWithBitMaskSignatureString_pattern_mask_witness :
    GenerateByteArrayWithBitMaskSignatureString
        [SignatureByte.mk 0xAA false, SignatureByte.mk 0xBB true]
      = ['0', 'x', 'A', 'A', ',', ' ', '0', 'x', '0', '0', ' ', ' ', '0', 'b', '0', '1']
    ∧ binaryValue
        ((List.map maskBit [SignatureByte.mk 0xAA false, SignatureByte.mk 0xBB true]).reverse)
      = fixedWeight [SignatureByte.mk 0xAA false, SignatureByte.mk 0xBB true]
    ∧ fixedWeight [SignatureByte.mk 0xAA false, SignatureByte.mk 0xBB true] = 1 :=
  ⟨by decide,
    (GenerateByteArrayWithBitMaskSignatureString_pattern_mask
      [SignatureByte.mk 0xAA false, SignatureByte.mk 0xBB true]).2.2.2.2.2.2.2,
    by decide⟩

theorem GenerateCodeSignatureString_pattern_mask_witness :
    GenerateCodeSignatureString [SignatureByte.mk 0xAA false, SignatureByte.mk 0xBB true]
      = [Char.ofNat 92, 'x', 'A', 'A', Char.ofNat 92, 'x', '0', '0', ' ', 'x', '?']
    ∧ GenerateCodeSignatureString [SignatureByte.mk 0xAA false, SignatureByte.mk 0xBB true]
      = (List.map codeEscape
            [SignatureByte.mk 0xAA false, SignatureByte.mk 0xBB true]).flatten ++ [' ']
          ++ List.map maskChar [SignatureByte.mk 0xAA false, SignatureByte.mk 0xBB true] :=
  ⟨by decide,
    (GenerateCodeSignatureString_pattern_mask
      [SignatureByte.mk 0xAA false, SignatureByte.mk 0xBB true]).2.1⟩

theorem consumedLength_mono (h : Host) (ea : Nat) (m n : Nat) (hmn : m ≤ n) :
    consumedLength h ea m ≤ consumedLength h ea n := by
  induction n with
  | zero =>
    have : m = 0 := by omega
    rw [this]
  | succ k ih =>
    by_cases hk : m = k + 1
    · rw [hk]
    · have := ih (by omega)
      rw [consumedLength]
      omega

theorem GenerateSignatureLoop_reaches (h : Host) (IS_ARM wildcardOperands : Bool)
    (maxSignatureLength : Nat) (askLongerSignature : Bool) (ea n : Nat)
    (hwrap : consumedLength h ea n < 4294967296)
    (huniq : IsSignatureUnique h
      (GenerateSignatureString (patternAfter h IS_ARM wildcardOperands ea n) false) = true) :
    ∀ (fuel k : Nat), k < n → n ≤ k + fuel →
      (∀ m, k ≤ m → m < n → 0 < (h.decode_insn (cursorAfter h ea m)).size) →
      (∀ m, k ≤ m → m < n → consumedLength h ea m ≤ maxSignatureLength) →
      (∀ m, k < m → m < n → IsSignatureUnique h
        (GenerateSignatureString (patternAfter h IS_ARM wildcardOperands ea m) false) = false) →
      GenerateSignatureLoop h IS_ARM wildcardOperands maxSignatureLength askLongerSignature
          fuel (patternAfter h IS_ARM wildcardOperands ea k) (consumedLength h ea k)
          (cursorAfter h ea k)
        = some (some (TrimSignature (patternAfter h IS_ARM wildcardOperands ea n))) := by
  intro fuel
  induction fuel with
  | zero => intro k hk hn; omega
  | succ fuel ih =>
    intro k hk hn hsize hguard hnot
    have hpos := hsize k (by omega) hk
    have hg := hguard k (by omega) hk
    rw [GenerateSignatureLoop]
    simp only
    rw [if_neg (by omega)]
    have hlg : lengthGuard h maxSignatureLength askLongerSignature
        (patternAfter h IS_ARM wildcardOperands ea k) (consumedLength h ea k)
        = some (consumedLength h ea k) := by
      unfold lengthGuard
      rw [if_neg (by omega)]
    rw [hlg]
    simp only
    have hnext : (consumedLength h ea k + (h.decode_insn (cursorAfter h ea k)).size)
        % 4294967296 = consumedLength h ea (k + 1) := by
      have := consumedLength_mono h ea (k + 1) n (by omega)
      rw [consumedLength] at this ⊢
      exact Nat.mod_eq_of_lt (by omega)
    rw [hnext]
    by_cases hlast : k + 1 = n
    · have hu : IsSignatureUnique h (GenerateSignatureString
          (appendInstruction h IS_ARM wildcardOperands
            (patternAfter h IS_ARM wildcardOperands ea k) (cursorAfter h ea k)
            (h.decode_insn (cursorAfter h ea k))) false) = true := by
        rw [← hlast, patternAfter] at huniq
        exact huniq
      rw [if_pos hu, ← hlast, patternAfter]
    · have hu : ¬ (IsSignatureUnique h (GenerateSignatureString
          (appendInstruction h IS_ARM wildcardOperands
            (patternAfter h IS_ARM wildcardOperands ea k) (cursorAfter h ea k)
            (h.decode_insn (cursorAfter h ea k))) false) = true) := by
        have := hnot (k + 1) (by omega) (by omega)
        rw [patternAfter] at this
        rw [this]
        exact Bool.false_ne_true
      rw [if_neg hu]
      exact ih (k + 1) (by omega) (by omega)
        (fun m hm1 hm2 => hsize m (by omega) hm2)
        (fun m hm1 hm2 => hguard m (by omega) hm2)
        (fun m hm1 hm2 => hnot m (by omega) hm2)

theorem GenerateSignatureForEA_returns_at_first_unique (h : Host) (IS_ARM : Bool)
    (fuel ea : Nat) (wildcardOperands : Bool) (maxSignatureLength : Nat)
    (askLongerSignature : Bool) (n : Nat)
    (hea : ea ≠ BADADDR) (hcode : h.is_code ea = true) (hn : 1 ≤ n) (hfuel : n ≤ fuel)
    (hsize : ∀ m, m < n → 0 < (h.decode_insn (cursorAfter h ea m)).size)
    (hguard : ∀ m, m < n → consumedLength h ea m ≤ maxSignatureLength)
    (hwrap : consumedLength h ea n < 4294967296)
    (hnot : ∀ m, 1 ≤ m → m < n → IsSignatureUnique h
      (GenerateSignatureString (patternAfter h IS_ARM wildcardOperands ea m) false) = false)
    (huniq : IsSignatureUnique h
      (GenerateSignatureString (patternAfter h IS_ARM wildcardOperands ea n) false) = true) :
    GenerateSignatureForEA h IS_ARM fuel ea wildcardOperands maxSignatureLength
        askLongerSignature
      = some (some (TrimSignature (patternAfter h IS_ARM wildcardOperands ea n))) := by
  unfold GenerateSignatureForEA
  rw [if_neg hea, if_neg (by simp [hcode])]
  exact GenerateSignatureLoop_reaches h IS_ARM wildcardOperands maxSignatureLength
    askLongerSignature ea n hwrap huniq fuel 0 (by omega) (by omega)
    (fun m _ hm => hsize m hm) (fun m _ hm => hguard m hm)
    (fun m hm1 hm2 => hnot m (by omega) hm2)

theorem entryToken_congr (a b : SignatureByte) (hw : a.isWildcard = b.isWildcard)
    (hv : a.isWildcard = false → a.value = b.value) :
    entryToken false a = entryToken false b := by
  unfold entryToken
  cases ha : a.isWildcard
  · rw [← hw, ha, hv ha]
  · rw [← hw, ha]
    rfl

theorem toPattern_eq_iff (s1 s2 : Signature) :
    toPattern s1 = toPattern s2
      ↔ List.Forall₂ (fun a b : SignatureByte =>
          a.isWildcard = b.isWildcard ∧ (a.isWildcard = false → a.value = b.value)) s1 s2 := by
  induction s1 generalizing s2 with
  | nil =>
    cases s2 with
    | nil => simp [toPattern]
    | cons b t => simp [toPattern]
  | cons a t ih =>
    cases s2 with
    | nil => simp [toPattern]
    | cons b t2 =>
      have ih2 := ih t2
      unfold toPattern at ih2 ⊢
      rw [List.map_cons, List.map_cons, List.cons.injEq, ih2, List.forall₂_cons]
      apply and_congr_left'
      cases ha : a.isWildcard <;> cases hb : b.isWildcard <;> simp

theorem render_eq_of_forall₂ (s1 s2 : Signature)
    (hrel : List.Forall₂ (fun a b : SignatureByte =>
      a.isWildcard = b.isWildcard ∧ (a.isWildcard = false → a.value = b.value)) s1 s2) :
    GenerateSignatureString s1 false = GenerateSignatureString s2 false := by
  rw [GenerateSignatureString_eq, GenerateSignatureString_eq]
  congr 1
  induction hrel with
  | nil => rfl
  | cons hab _ ih =>
    rw [List.map_cons, List.map_cons, ih, entryToken_congr _ _ hab.1 hab.2]

theorem render_eq_iff_forall₂ (s1 s2 : Signature) :
    GenerateSignatureString s1 false = GenerateSignatureString s2 false
      ↔ List.Forall₂ (fun a b : SignatureByte =>
          a.isWildcard = b.isWildcard ∧ (a.isWildcard = false → a.value = b.value)) s1 s2 := by
  constructor
  · intro heq
    rw [← toPattern_eq_iff, ← parse_binpat_str_model_render, ← parse_binpat_str_model_render,
      heq]
  · exact render_eq_of_forall₂ s1 s2

/-- C20: the IDA-style rendering determines a signature exactly up to the stored values
of its wildcard entries: two signatures render to the same string iff they have the
same length, the same wildcard positions and equal values at every fixed position. -/
theorem GenerateSignatureString_eq_iff_same_mask (s1 s2 : Signature) :
    (GenerateSignatureString s1 false = GenerateSignatureString s2 false
      ↔ s1.length = s2.length
        ∧ ∀ i, i < s1.length →
          (s1.getD i (SignatureByte.mk 0 true)).isWildcard
              = (s2.getD i (SignatureByte.mk 0 true)).isWildcard
          ∧ ((s1.getD i (SignatureByte.mk 0 true)).isWildcard = false →
              (s1.getD i (SignatureByte.mk 0 true)).value
                = (s2.getD i (SignatureByte.mk 0 true)).value))
    ∧ FormatSignature s1 SignatureType.IDA = GenerateSignatureString s1 false := by
  refine ⟨?_, rfl⟩
  rw [render_eq_iff_forall₂, List.forall₂_iff_get]
  constructor
  · rintro ⟨hlen, hget⟩
    refine ⟨hlen, ?_⟩
    intro i hi
    have h2 : i < s2.length := by omega
    have := hget i hi h2
    simpa [List.getD_eq_getElem?_getD, List.getElem?_eq_getElem hi,
      List.getElem?_eq_getElem h2] using this
  · rintro ⟨hlen, hget⟩
    refine ⟨hlen, ?_⟩
    intro i hi h2
    have := hget i hi
    simpa [List.getD_eq_getElem?_getD, List.getElem?_eq_getElem hi,
      List.getElem?_eq_getElem h2] using this

theorem GenerateSignatureString_eq_iff_same_mask_witness :
    GenerateSignatureString [SignatureByte.mk 0xAA false, SignatureByte.mk 0x11 true] false
      = GenerateSignatureString [SignatureByte.mk 0xAA false, SignatureByte.mk 0x22 true] false
    ∧ GenerateSignatureString [SignatureByte.mk 0xAA false, SignatureByte.mk 0x11 true] false
      ≠ GenerateSignatureString [SignatureByte.mk 0xAA false, SignatureByte.mk 0x11 false] false
    ∧ GenerateSignatureString [SignatureByte.mk 0xAA false, SignatureByte.mk 0x11 false] false
      ≠ GenerateSignatureString [SignatureByte.mk 0xAA false, SignatureByte.mk 0x12 false] false :=
  ⟨((GenerateSignatureString_eq_iff_same_mask
      [SignatureByte.mk 0xAA false, SignatureByte.mk 0x11 true]
      [SignatureByte.mk 0xAA false, SignatureByte.mk 0x22 true]).1).mpr (by decide),
    by decide, by decide⟩

theorem GetOperandOffsetARMLoop_skip (ins : insn_t) (a b : Nat) (pre rest : List op_t)
    (hpre : ∀ o ∈ pre, armQualifies o.type = false) :
    GetOperandOffsetARMLoop ins a b (pre ++ rest) = GetOperandOffsetARMLoop ins a b rest := by
  induction pre with
  | nil => rfl
  | cons o t ih =>
    have ho := hpre o (by simp)
    have ht := ih (fun x hx => hpre x (List.mem_cons_of_mem _ hx))
    rw [List.cons_append, GetOperandOffsetARMLoop]
    cases hty : o.type <;> simp only [hty, armQualifies] at ho ⊢ <;>
      first
        | exact ht
        | exact absurd ho (by decide)

theorem GetOperandOffsetARMLoop_hit (ins : insn_t) (a b : Nat) (op : op_t) (post : List op_t)
    (hop : armQualifies op.type = true) :
    GetOperandOffsetARMLoop ins a b (op :: post)
      = (true, op.offb % 256,
          if ins.size = 8 then 7 else if ins.size = 4 then 3 else b) := by
  rw [GetOperandOffsetARMLoop]
  cases hty : op.type <;> simp only [hty, armQualifies] at hop ⊢ <;>
    first
      | rfl
      | exact absurd hop (by decide)

theorem GetOperand_arm_first (size k : Nat) (pre post : List op_t) (op : op_t)
    (hpre : ∀ o ∈ pre, armQualifies o.type = false)
    (hop : armQualifies op.type = true) (hk : op.offb = k) (hk256 : k < 256) :
    GetOperand true (insn_t.mk size (pre ++ op :: post)) 0 0
      = (true, k, if size = 8 then 7 else if size = 4 then 3 else 0) := by
  have e : GetOperand true (insn_t.mk size (pre ++ op :: post)) 0 0
      = GetOperandOffsetARMLoop (insn_t.mk size (pre ++ op :: post)) 0 0
          (pre ++ op :: post) := rfl
  rw [e, GetOperandOffsetARMLoop_skip _ 0 0 pre (op :: post) hpre,
    GetOperandOffsetARMLoop_hit _ 0 0 op post hop, hk, Nat.mod_eq_of_lt hk256]

theorem GetOperand_arm_none (size : Nat) (ops : List op_t)
    (hops : ∀ o ∈ ops, armQualifies o.type = false) :
    GetOperand true (insn_t.mk size ops) 0 0 = (false, 0, 0) := by
  have e : GetOperand true (insn_t.mk size ops) 0 0
      = GetOperandOffsetARMLoop (insn_t.mk size ops) 0 0 (ops ++ []) := by
    rw [List.append_nil]; rfl
  rw [e, GetOperandOffsetARMLoop_skip _ 0 0 ops [] hops]
  rfl

theorem appendInstruction_all_fixed (h : Host) (IS_ARM wildcardOperands : Bool)
    (signature : Signature) (address : Nat) (ins : insn_t) (hlt : ins.size < 65536)
    (hno : (GetOperand IS_ARM ins 0 0).1 = false ∨ (GetOperand IS_ARM ins 0 0).2.2 = 0) :
    appendInstruction h IS_ARM wildcardOperands signature address ins
      = signature ++ imageBytes h address ins.size false := by
  unfold appendInstruction
  simp only
  have hc : ¬ ((wildcardOperands && (GetOperand IS_ARM ins 0 0).1
      && decide ((GetOperand IS_ARM ins 0 0).2.2 > 0)) = true) := by
    simp only [Bool.and_eq_true, decide_eq_true_eq, not_and]
    intro hw hl
    rcases hno with h1 | h1
    · rw [h1] at hw; exact absurd hw.2 (by simp)
    · omega
  rw [if_neg hc, AddBytesToSignature_eq, to_size_t_natCast ins.size (by unfold EA_MOD; omega)]

/-- C11: ARM mode.  For an instruction whose first operand of a kind in
memory, far, near, phrase, displacement, immediate sits at offset `k` (any `k < 256`),
`GetOperand` reports operand length 3 when the instruction length is 4 and 7 when it is
8, and the instruction then contributes exactly that many wildcard entries; for every
other instruction length, and for an instruction whose operands are all of other kinds,
the whole instruction is appended as fixed entries. -/
theorem appendInstruction_arm_heuristic (h : Host) (wildcardOperands : Bool)
    (signature : Signature) (address size k : Nat) (pre post : List op_t) (op : op_t)
    (hpre : ∀ o ∈ pre, armQualifies o.type = false)
    (hop : armQualifies op.type = true) (hk : op.offb = k) (hk256 : k < 256)
    (hsize : size < 65536) :
    GetOperand true (insn_t.mk 4 (pre ++ op :: post)) 0 0 = (true, k, 3)
    ∧ GetOperand true (insn_t.mk 8 (pre ++ op :: post)) 0 0 = (true, k, 7)
    ∧ appendInstruction h true true signature address (insn_t.mk 4 (pre ++ op :: post))
        = signature ++ imageBytes h address k false
            ++ imageBytes h (ea_add address k) 3 true
            ++ (if k = 0 then imageBytes h (ea_add address 3) 1 false else [])
    ∧ appendInstruction h true true signature address (insn_t.mk 8 (pre ++ op :: post))
        = signature ++ imageBytes h address k false
            ++ imageBytes h (ea_add address k) 7 true
            ++ (if k = 0 then imageBytes h (ea_add address 7) 1 false else [])
    ∧ (size ≠ 4 → size ≠ 8 →
        appendInstruction h true wildcardOperands signature address
            (insn_t.mk size (pre ++ op :: post))
          = signature ++ imageBytes h address size false)
    ∧ appendInstruction h true wildcardOperands signature address (insn_t.mk size pre)
        = signature ++ imageBytes h address size false
    ∧ (∀ sb ∈ imageBytes h address size false, sb.isWildcard = false)
    ∧ (imageBytes h address size false).length = size := by
  have h4 := GetOperand_arm_first 4 k pre post op hpre hop hk hk256
  have h8 := GetOperand_arm_first 8 k pre post op hpre hop hk hk256
  simp only [Nat.reduceEqDiff, if_true, if_false] at h4 h8
  refine ⟨h4, h8, ?_, ?_, ?_, ?_, ?_, by simp [imageBytes]⟩
  · unfold appendInstruction
    simp only [h4]
    by_cases hk0 : k = 0
    · subst hk0
      simp only [Bool.and_self, gt_iff_lt, Nat.ofNat_pos, decide_True, if_true]
      rw [AddBytesToSignature_eq, AddBytesToSignature_eq, AddBytesToSignature_eq]
      rfl
    · simp only [Bool.and_self, gt_iff_lt, Nat.ofNat_pos, decide_True, if_true, if_neg hk0]
      rw [AddBytesToSignature_eq, AddBytesToSignature_eq, List.append_nil]
  · unfold appendInstruction
    simp only [h8]
    by_cases hk0 : k = 0
    · subst hk0
      simp only [Bool.and_self, gt_iff_lt, Nat.ofNat_pos, decide_True, if_true]
      rw [AddBytesToSignature_eq, AddBytesToSignature_eq, AddBytesToSignature_eq]
      rfl
    · simp only [Bool.and_self, gt_iff_lt, Nat.ofNat_pos, decide_True, if_true, if_neg hk0]
      rw [AddBytesToSignature_eq, AddBytesToSignature_eq, List.append_nil]
  · intro hn4 hn8
    apply appendInstruction_all_fixed h true wildcardOperands signature address
      (insn_t.mk size (pre ++ op :: post)) hsize
    right
    rw [GetOperand_arm_first size k pre post op hpre hop hk hk256]
    simp [hn4, hn8]
  · apply appendInstruction_all_fixed h true wildcardOperands signature address
      (insn_t.mk size pre) hsize
    left
    rw [GetOperand_arm_none size pre hpre]
  · intro sb hsb
    unfold imageBytes at hsb
    obtain ⟨i, _, rfl⟩ := List.mem_map.mp hsb
    rfl

theorem appendInstruction_arm_heuristic_witness :
    (∀ o ∈ [op_t.mk optype_t.o_reg 0], armQualifies o.type = false)
    ∧ armQualifies (op_t.mk optype_t.o_imm 1).type = true
    ∧ appendInstruction armExampleHost true true [] 0 (armExampleHost.decode_insn 0)
      = [SignatureByte.mk 0x01 false, SignatureByte.mk 0x02 true, SignatureByte.mk 0x03 true,
          SignatureByte.mk 0x04 true]
    ∧ appendInstruction armExampleHost true true [] 4 (armExampleHost.decode_insn 4)
      = [SignatureByte.mk 0x11 true, SignatureByte.mk 0x12 true, SignatureByte.mk 0x13 true,
          SignatureByte.mk 0x14 true, SignatureByte.mk 0x15 true, SignatureByte.mk 0x16 true,
          SignatureByte.mk 0x17 true, SignatureByte.mk 0x18 false]
    ∧ appendInstruction armExampleHost true true [] 12 (armExampleHost.decode_insn 12)
      = [SignatureByte.mk 0x21 false, SignatureByte.mk 0x22 false]
    ∧ appendInstruction armExampleHost true true [] 14 (armExampleHost.decode_insn 14)
      = [SignatureByte.mk 0x31 false, SignatureByte.mk 0x32 false, SignatureByte.mk 0x33 false,
          SignatureByte.mk 0x34 false]
    ∧ GetOperand true
        (insn_t.mk 4 ([op_t.mk optype_t.o_reg 0] ++ op_t.mk optype_t.o_imm 1 :: [])) 0 0
      = (true, 1, 3)
    ∧ GetOperand true
        (insn_t.mk 8 ([op_t.mk optype_t.o_reg 0] ++ op_t.mk optype_t.o_imm 1 :: [])) 0 0
      = (true, 1, 7) :=
  ⟨by decide, by decide, by decide, by decide, by decide, by decide,
    (appendInstruction_arm_heuristic armExampleHost true [] 0 2 1
      [op_t.mk optype_t.o_reg 0] [] (op_t.mk optype_t.o_imm 1)
      (by decide) (by decide) rfl (by decide) (by decide)).1,
    (appendInstruction_arm_heuristic armExampleHost true [] 0 2 1
      [op_t.mk optype_t.o_reg 0] [] (op_t.mk optype_t.o_imm 1)
      (by decide) (by decide) rfl (by decide) (by decide)).2.1⟩

theorem GenerateSignatureLoop_nonprompting_returns (h : Host) (IS_ARM wildcardOperands : Bool)
    (maxSignatureLength : Nat)
    (hsize : ∀ a, (h.decode_insn a).size < 65536)
    (hwrap : maxSignatureLength + 65535 < 4294967296) :
    ∀ (fuel : Nat) (signature : Signature) (sigPartLength currentAddress : Nat),
      1 ≤ fuel → maxSignatureLength + 2 ≤ fuel + sigPartLength →
      ∃ r, GenerateSignatureLoop h IS_ARM wildcardOperands maxSignatureLength false
          fuel signature sigPartLength currentAddress = some r := by
  intro fuel
  induction fuel with
  | zero => intro _ _ _ h1; omega
  | succ fuel ih =>
    intro signature spl cur _ hsum
    rw [GenerateSignatureLoop]
    simp only
    by_cases hsz : ((h.decode_insn cur).size : Int) ≤ 0
    · rw [if_pos hsz]; exact ⟨_, rfl⟩
    · rw [if_neg hsz]
      by_cases hg : spl > maxSignatureLength
      · have : lengthGuard h maxSignatureLength false signature spl = none := by
          unfold lengthGuard
          rw [if_pos hg]
          rfl
        rw [this]
        exact ⟨_, rfl⟩
      · have : lengthGuard h maxSignatureLength false signature spl = some spl := by
          unfold lengthGuard
          rw [if_neg hg]
        rw [this]
        simp only
        split
        · exact ⟨_, rfl⟩
        · have hs := hsize cur
          have hmod : (spl + (h.decode_insn cur).size) % 4294967296
              = spl + (h.decode_insn cur).size := Nat.mod_eq_of_lt (by omega)
          rw [hmod]
          exact ih _ _ _ (by omega) (by omega)

/-- C19: in non-prompting mode `GenerateSignatureForEA` always returns, for every host
(image, decoder, uniqueness oracle), when decoded sizes fit the 16-bit `size` field and
`maxSignatureLength + 65535 < 2^32` (the 32-bit counter cannot wrap): fuel
`maxSignatureLength + 2` is enough.  One unit of fuel is one pass through the loop
body, which decodes one instruction, so the loop performs at most
`maxSignatureLength + 2` decodes. -/
theorem GenerateSignatureForEA_nonprompting_terminates (h : Host) (IS_ARM : Bool)
    (fuel ea : Nat) (wildcardOperands : Bool) (maxSignatureLength : Nat)
    (hsize : ∀ a, (h.decode_insn a).size < 65536)
    (hwrap : maxSignatureLength + 65535 < 4294967296)
    (hfuel : maxSignatureLength + 2 ≤ fuel) :
    (∃ r, GenerateSignatureForEA h IS_ARM fuel ea wildcardOperands maxSignatureLength false
        = some r)
    ∧ (∃ r, GenerateSignatureForEA h IS_ARM (maxSignatureLength + 2) ea wildcardOperands
        maxSignatureLength false = some r
      ∧ GenerateSignatureForEA h IS_ARM fuel ea wildcardOperands maxSignatureLength false
        = some r) := by
  have key : ∀ f, maxSignatureLength + 2 ≤ f →
      ∃ r, GenerateSignatureForEA h IS_ARM f ea wildcardOperands maxSignatureLength false
        = some r := by
    intro f hf
    unfold GenerateSignatureForEA
    split
    · exact ⟨_, rfl⟩
    · split
      · exact ⟨_, rfl⟩
      · exact GenerateSignatureLoop_nonprompting_returns h IS_ARM wildcardOperands
          maxSignatureLength hsize hwrap f [] 0 ea (by omega) (by omega)
  refine ⟨key fuel hfuel, ?_⟩
  obtain ⟨r, hr⟩ := key (maxSignatureLength + 2) (le_refl _)
  refine ⟨r, hr, ?_⟩
  obtain ⟨d, rfl⟩ : ∃ d, fuel = maxSignatureLength + 2 + d := ⟨fuel - (maxSignatureLength + 2),
    by omega⟩
  unfold GenerateSignatureForEA at hr ⊢
  split
  · rename_i hbad
    rw [if_pos hbad] at hr; exact hr
  · rename_i hbad
    rw [if_neg hbad] at hr
    split
    · rename_i hcode
      rw [if_pos hcode] at hr; exact hr
    · rename_i hcode
      rw [if_neg hcode] at hr
      exact GenerateSignatureLoop_fuel_mono h IS_ARM wildcardOperands maxSignatureLength false
        (maxSignatureLength + 2) d [] 0 ea r hr

set_option maxRecDepth 100000 in
theorem GenerateSignatureForEA_nonprompting_terminates_witness :
    (∀ a, (exampleHost.decode_insn a).size < 65536)
    ∧ 1 + 65535 < 4294967296 ∧ 1 + 2 ≤ 3
    ∧ GenerateSignatureForEA exampleHost false 3 0 true 1 false = some none
    ∧ GenerateSignatureForEA exampleHost false 2 0 true 1 false = none
    ∧ ((∃ r, GenerateSignatureForEA exampleHost false 3 0 true 1 false = some r)
      ∧ (∃ r, GenerateSignatureForEA exampleHost false (1 + 2) 0 true 1 false = some r
        ∧ GenerateSignatureForEA exampleHost false 3 0 true 1 false = some r)) :=
  ⟨exampleDecode_size_lt, by decide, by decide, by decide, by decide,
    GenerateSignatureForEA_nonprompting_terminates exampleHost false 3 0 true 1
      exampleDecode_size_lt (by decide) (by decide)⟩

theorem TrimSignature_length_le (s : Signature) : (TrimSignature s).length ≤ s.length := by
  have hdec := TrimSignature_decomp s
  have := congrArg List.length hdec
  rw [List.length_append] at this
  omega

theorem GenerateSignatureLoop_nonprompting_guard (h : Host) (IS_ARM wildcardOperands : Bool)
    (maxSignatureLength ea : Nat)
    (hsize : ∀ a, (h.decode_insn a).size < 65536)
    (hwrap : maxSignatureLength + 65535 < 4294967296) :
    ∀ (fuel k : Nat) (result : Signature),
      GenerateSignatureLoop h IS_ARM wildcardOperands maxSignatureLength false
          fuel (patternAfter h IS_ARM wildcardOperands ea k) (consumedLength h ea k)
          (cursorAfter h ea k) = some (some result) →
      ∃ n, k < n
        ∧ result = TrimSignature (patternAfter h IS_ARM wildcardOperands ea n)
        ∧ IsSignatureUnique h
            (GenerateSignatureString (patternAfter h IS_ARM wildcardOperands ea n) false) = true
        ∧ (∀ m, k ≤ m → m < n → consumedLength h ea m ≤ maxSignatureLength) := by
  intro fuel
  induction fuel with
  | zero =>
    intro k result hres
    simp [GenerateSignatureLoop] at hres
  | succ fuel ih =>
    intro k result hres
    rw [GenerateSignatureLoop] at hres
    simp only at hres
    by_cases hsz : ((h.decode_insn (cursorAfter h ea k)).size : Int) ≤ 0
    · rw [if_pos hsz] at hres
      exact absurd hres (by simp)
    · rw [if_neg hsz] at hres
      by_cases hg : consumedLength h ea k > maxSignatureLength
      · have : lengthGuard h maxSignatureLength false
            (patternAfter h IS_ARM wildcardOperands ea k) (consumedLength h ea k) = none := by
          unfold lengthGuard
          rw [if_pos hg]
          rfl
        rw [this] at hres
        exact absurd hres (by simp)
      · have : lengthGuard h maxSignatureLength false
            (patternAfter h IS_ARM wildcardOperands ea k) (consumedLength h ea k)
            = some (consumedLength h ea k) := by
          unfold lengthGuard
          rw [if_neg hg]
        rw [this] at hres
        simp only at hres
        have hs := hsize (cursorAfter h ea k)
        have hmod : (consumedLength h ea k + (h.decode_insn (cursorAfter h ea k)).size)
            % 4294967296 = consumedLength h ea (k + 1) := by
          rw [consumedLength]
          exact Nat.mod_eq_of_lt (by omega)
        rw [hmod] at hres
        by_cases hu : IsSignatureUnique h
            (GenerateSignatureString (patternAfter h IS_ARM wildcardOperands ea (k + 1)) false)
            = true
        · have hu2 := hu
          rw [patternAfter] at hu2
          rw [if_pos hu2] at hres
          refine ⟨k + 1, by omega, ?_, hu, ?_⟩
          · simp only [Option.some.injEq] at hres
            rw [patternAfter]
            exact hres.symm
          · intro m hm1 hm2
            have : m = k := by omega
            rw [this]; omega
        · have hu2 := hu
          rw [patternAfter] at hu2
          rw [if_neg hu2] at hres
          obtain ⟨n, hn1, hn2, hn3, hn4⟩ := ih (k + 1) result hres
          refine ⟨n, by omega, hn2, hn3, ?_⟩
          intro m hm1 hm2
          by_cases hmk : m = k
          · rw [hmk]; omega
          · exact hn4 m (by omega) hm2

set_option maxRecDepth 100000 in
/-- C16, counterexample: in non-prompting mode with `maxSignatureLength = 2` and
`wildcardOperands` off, the synthesis at the five-byte call of `exampleHost`
(address 3) succeeds with a signature of 5 entries, more than the maximum. -/
theorem GenerateSignatureForEA_nonprompting_exceeds_max :
    GenerateSignatureForEA exampleHost false 4 3 false 2 false
      = some (some [SignatureByte.mk 0xE8 false, SignatureByte.mk 0x10 false,
          SignatureByte.mk 0x20 false, SignatureByte.mk 0x30 false,
          SignatureByte.mk 0x40 false])
    ∧ ¬ ([SignatureByte.mk 0xE8 false, SignatureByte.mk 0x10 false,
          SignatureByte.mk 0x20 false, SignatureByte.mk 0x30 false,
          SignatureByte.mk (0x40 : Fin 256) false].length ≤ 2) := by
  decide

/-- C16, amended: in non-prompting mode, when decoded sizes fit the 16-bit `size` field
and `maxSignatureLength + 65535 < 2^32`, the guard bounds the bytes consumed before the
last instruction.  A success is the trimmed pattern of the first `n ≥ 1` instructions
with the first `n - 1` of them totalling at most `maxSignatureLength`; it is no longer
than that pattern, hence, when the operand offsets fit, at most `maxSignatureLength`
plus the length of the last instruction.  If the first `k` patterns are not unique and
the first `k` instructions total more than `maxSignatureLength`, the function returns
no result. -/
theorem GenerateSignatureForEA_nonprompting_length_bound (h : Host) (IS_ARM : Bool)
    (ea : Nat) (wildcardOperands : Bool) (maxSignatureLength : Nat)
    (hsize : ∀ a, (h.decode_insn a).size < 65536)
    (hwrap : maxSignatureLength + 65535 < 4294967296) :
    (∀ fuel result,
      GenerateSignatureForEA h IS_ARM fuel ea wildcardOperands maxSignatureLength false
        = some (some result) →
      ∃ n, 1 ≤ n
        ∧ result = TrimSignature (patternAfter h IS_ARM wildcardOperands ea n)
        ∧ consumedLength h ea (n - 1) ≤ maxSignatureLength
        ∧ result.length ≤ (patternAfter h IS_ARM wildcardOperands ea n).length
        ∧ ((∀ m, m < n → operandOffsetsFit IS_ARM (h.decode_insn (cursorAfter h ea m))) →
            result.length
              ≤ maxSignatureLength + (h.decode_insn (cursorAfter h ea (n - 1))).size))
    ∧ (∀ k fuel, maxSignatureLength + 2 ≤ fuel →
        maxSignatureLength < consumedLength h ea k →
        (∀ m, 1 ≤ m → m ≤ k → IsSignatureUnique h
          (GenerateSignatureString (patternAfter h IS_ARM wildcardOperands ea m) false)
            = false) →
        GenerateSignatureForEA h IS_ARM fuel ea wildcardOperands maxSignatureLength false
          = some none) := by
  have succ_shape : ∀ fuel result,
      GenerateSignatureForEA h IS_ARM fuel ea wildcardOperands maxSignatureLength false
        = some (some result) →
      ∃ n, 1 ≤ n
        ∧ result = TrimSignature (patternAfter h IS_ARM wildcardOperands ea n)
        ∧ IsSignatureUnique h
            (GenerateSignatureString (patternAfter h IS_ARM wildcardOperands ea n) false) = true
        ∧ consumedLength h ea (n - 1) ≤ maxSignatureLength := by
    intro fuel result hres
    unfold GenerateSignatureForEA at hres
    by_cases hbad : ea = BADADDR
    · rw [if_pos hbad] at hres; exact absurd hres (by simp)
    · rw [if_neg hbad] at hres
      by_cases hcode : (!h.is_code ea) = true
      · rw [if_pos hcode] at hres; exact absurd hres (by simp)
      · rw [if_neg hcode] at hres
        obtain ⟨n, hn1, hn2, hn3, hn4⟩ :=
          GenerateSignatureLoop_nonprompting_guard h IS_ARM wildcardOperands
            maxSignatureLength ea hsize hwrap fuel 0 result hres
        exact ⟨n, by omega, hn2, hn3, hn4 (n - 1) (by omega) (by omega)⟩
  refine ⟨?_, ?_⟩
  · intro fuel result hres
    obtain ⟨n, hn1, hn2, _, hn4⟩ := succ_shape fuel result hres
    have hle : result.length ≤ (patternAfter h IS_ARM wildcardOperands ea n).length := by
      rw [hn2]; exact TrimSignature_length_le _
    refine ⟨n, hn1, hn2, hn4, hle, ?_⟩
    intro hfit
    have hc := (patternAfter_contiguous h IS_ARM wildcardOperands ea n hfit).1
    obtain ⟨j, rfl⟩ : ∃ j, n = j + 1 := ⟨n - 1, by omega⟩
    rw [consumedLength] at hc
    simp only [Nat.add_sub_cancel] at hn4 ⊢
    omega
  · intro k fuel hfuel hk hnot
    have hterm : ∃ r, GenerateSignatureForEA h IS_ARM fuel ea wildcardOperands
        maxSignatureLength false = some r := by
      unfold GenerateSignatureForEA
      split
      · exact ⟨_, rfl⟩
      · split
        · exact ⟨_, rfl⟩
        · exact GenerateSignatureLoop_nonprompting_returns h IS_ARM wildcardOperands
            maxSignatureLength hsize hwrap fuel [] 0 ea (by omega) (by omega)
    obtain ⟨r, hr⟩ := hterm
    cases r with
    | none => exact hr
    | some result =>
      exfalso
      obtain ⟨n, hn1, _, hn3, hn4⟩ := succ_shape fuel result hr
      by_cases hnk : n ≤ k
      · have := hnot n hn1 hnk
        rw [this] at hn3
        exact Bool.false_ne_true hn3
      · have := consumedLength_mono h ea k (n - 1) (by omega)
        omega

set_option maxRecDepth 100000 in
theorem GenerateSignatureForEA_nonprompting_length_bound_witness :
    (∀ a, (exampleHost.decode_insn a).size < 65536)
    ∧ 2 + 65535 < 4294967296
    ∧ GenerateSignatureForEA exampleHost false 4 0 true 2 false = some none
    ∧ consumedLength exampleHost 0 2 = 3
    ∧ (∀ k fuel, 2 + 2 ≤ fuel → 2 < consumedLength exampleHost 0 k →
        (∀ m, 1 ≤ m → m ≤ k → IsSignatureUnique exampleHost
          (GenerateSignatureString (patternAfter exampleHost false true 0 m) false) = false) →
        GenerateSignatureForEA exampleHost false fuel 0 true 2 false = some none) :=
  ⟨exampleDecode_size_lt, by decide, by decide, by decide,
    (GenerateSignatureForEA_nonprompting_length_bound exampleHost false 0 true 2
      exampleDecode_size_lt (by decide)).2⟩

theorem to_size_t_sub (a b : Nat) (hab : a ≤ b) (hb : b < EA_MOD) :
    to_size_t ((b : Int) - (a : Int)) = b - a := by
  have : (b : Int) - (a : Int) = ((b - a : Nat) : Int) := by omega
  rw [this]
  exact to_size_t_natCast (b - a) (by omega)

theorem ea_add_small (a i : Nat) (hlt : a + i < EA_MOD) : ea_add a i = a + i := by
  unfold ea_add
  exact Nat.mod_eq_of_lt hlt

/-- C18: for `start < end` (both addresses of the 64-bit address space)
`PrintSelectedCode` prints and copies the rendering of a signature that has exactly
`end - start` entries, every one fixed, entry `i` holding the image byte at `start + i`;
for `start = end` its only action is the "too small" message: no signature is built,
printed or copied. -/
theorem PrintSelectedCode_raw_range (h : Host) (start endEA : Nat) (sigType : SignatureType)
    (hlt : start < endEA) (hend : endEA < EA_MOD) :
    PrintSelectedCode h start endEA sigType
      = [Event.msgCodeFor start endEA
            (FormatSignature (imageBytes h start (endEA - start) false) sigType),
          Event.SetClipboard
            (FormatSignature (imageBytes h start (endEA - start) false) sigType)]
    ∧ imageBytes h start (endEA - start) false
        = AddBytesToSignature h [] start (endEA - start) false
    ∧ (imageBytes h start (endEA - start) false).length = endEA - start
    ∧ (∀ sb ∈ imageBytes h start (endEA - start) false, sb.isWildcard = false)
    ∧ (∀ i, i < endEA - start → (imageBytes h start (endEA - start) false)[i]?
        = some (SignatureByte.mk (h.get_byte (start + i)) false))
    ∧ PrintSelectedCode h start start sigType = [Event.msgSelectionTooSmall start start] := by
  refine ⟨?_, ?_, by simp [imageBytes], ?_, ?_, ?_⟩
  · unfold PrintSelectedCode
    simp only
    rw [to_size_t_sub start endEA (by omega) hend, if_neg (by omega), AddBytesToSignature_eq,
      List.nil_append]
  · rw [AddBytesToSignature_eq, List.nil_append]
  · intro sb hsb
    unfold imageBytes at hsb
    obtain ⟨i, _, rfl⟩ := List.mem_map.mp hsb
    rfl
  · intro i hi
    unfold imageBytes
    rw [List.getElem?_map, List.getElem?_range hi, Option.map_some',
      ea_add_small start i (by omega)]
  · unfold PrintSelectedCode
    simp only
    have : to_size_t ((start : Int) - (start : Int)) = 0 := by
      rw [Int.sub_self]; rfl
    rw [this, if_pos rfl]

set_option maxRecDepth 100000 in
theorem PrintSelectedCode_raw_range_witness :
    3 < 8 ∧ 8 < EA_MOD
    ∧ PrintSelectedCode exampleHost 3 8 SignatureType.IDA
      = [Event.msgCodeFor 3 8
            ['E', '8', ' ', '1', '0', ' ', '2', '0', ' ', '3', '0', ' ', '4', '0'],
          Event.SetClipboard
            ['E', '8', ' ', '1', '0', ' ', '2', '0', ' ', '3', '0', ' ', '4', '0']]
    ∧ PrintSelectedCode exampleHost 3 3 SignatureType.IDA = [Event.msgSelectionTooSmall 3 3]
    ∧ (imageBytes exampleHost 3 (8 - 3) false).length = 8 - 3
    ∧ (∀ sb ∈ imageBytes exampleHost 3 (8 - 3) false, sb.isWildcard = false) :=
  ⟨by decide, by decide, by decide, by decide,
    (PrintSelectedCode_raw_range exampleHost 3 8 SignatureType.IDA (by decide)
      (by decide)).2.2.1,
    (PrintSelectedCode_raw_range exampleHost 3 8 SignatureType.IDA (by decide)
      (by decide)).2.2.2.1⟩

theorem occursAt_one (gb : Nat → Fin 256) (x : Fin 256) (stop a : Nat) :
    occursAt gb [some x] stop a = true ↔ a + 1 ≤ stop ∧ foldCase x = foldCase (gb a) := by
  simp [occursAt, patMatches]

theorem occursAt_two (gb : Nat → Fin 256) (x y : Fin 256) (stop a : Nat) :
    occursAt gb [some x, some y] stop a = true
      ↔ a + 2 ≤ stop ∧ foldCase x = foldCase (gb a) ∧ foldCase y = foldCase (gb (a + 1)) := by
  simp [occursAt, patMatches]

theorem occursAt_three (gb : Nat → Fin 256) (x y z : Fin 256) (stop a : Nat) :
    occursAt gb [some x, some y, some z] stop a = true
      ↔ a + 3 ≤ stop ∧ foldCase x = foldCase (gb a) ∧ foldCase y = foldCase (gb (a + 1))
        ∧ foldCase z = foldCase (gb (a + 2)) := by
  simp [occursAt, patMatches, Nat.add_assoc]

set_option maxRecDepth 100000 in
theorem foldCase_eq_90 : ∀ b : Fin 256, foldCase 144 = foldCase b ↔ b = 144 := by
  decide

set_option maxRecDepth 100000 in
theorem foldCase_eq_C3 : ∀ b : Fin 256, foldCase 195 = foldCase b ↔ b = 195 := by
  decide

theorem appendInstruction_no_operand (h : Host) (IS_ARM wildcardOperands : Bool)
    (signature : Signature) (address : Nat) (ins : insn_t)
    (hs : ins.size = 1) (hops : ∀ o ∈ ins.ops, o.type = optype_t.o_void)
    (haddr : address < EA_MOD) :
    appendInstruction h IS_ARM wildcardOperands signature address ins
      = signature ++ [SignatureByte.mk (h.get_byte address) false] := by
  have hno : (GetOperand IS_ARM ins 0 0).1 = false := by
    obtain ⟨size, ops⟩ := ins
    cases IS_ARM with
    | true =>
      rw [GetOperand_arm_none size ops (fun o ho => by
        have := hops o ho
        simp only at this
        rw [this]; rfl)]
    | false =>
      have e : GetOperand false (insn_t.mk size ops) 0 0
          = GetOperandGeneric (insn_t.mk size ops) 0 0 := rfl
      rw [e, GetOperandGeneric_none size 0 0 ops (fun o ho => Or.inl (hops o ho))]
  rw [appendInstruction_all_fixed h IS_ARM wildcardOperands signature address ins
    (by omega) (Or.inl hno), hs]
  have : imageBytes h address 1 false = [SignatureByte.mk (h.get_byte address) false] := by
    show [SignatureByte.mk (h.get_byte (ea_add address 0)) false] = _
    rw [ea_add_small address 0 (by omega), Nat.add_zero]
  rw [this]

theorem three_single_byte_instructions (h : Host) (IS_ARM wildcardOperands : Bool)
    (hd0 : (h.decode_insn 4096).size = 1)
    (ho0 : ∀ o ∈ (h.decode_insn 4096).ops, o.type = optype_t.o_void)
    (hd1 : (h.decode_insn 4097).size = 1)
    (ho1 : ∀ o ∈ (h.decode_insn 4097).ops, o.type = optype_t.o_void)
    (hd2 : (h.decode_insn 4098).size = 1)
    (ho2 : ∀ o ∈ (h.decode_insn 4098).ops, o.type = optype_t.o_void) :
    cursorAfter h 4096 1 = 4097 ∧ cursorAfter h 4096 2 = 4098
    ∧ patternAfter h IS_ARM wildcardOperands 4096 1
        = [SignatureByte.mk (h.get_byte 4096) false]
    ∧ patternAfter h IS_ARM wildcardOperands 4096 2
        = [SignatureByte.mk (h.get_byte 4096) false, SignatureByte.mk (h.get_byte 4097) false]
    ∧ patternAfter h IS_ARM wildcardOperands 4096 3
        = [SignatureByte.mk (h.get_byte 4096) false, SignatureByte.mk (h.get_byte 4097) false,
            SignatureByte.mk (h.get_byte 4098) false]
    ∧ consumedLength h 4096 1 = 1 ∧ consumedLength h 4096 2 = 2
    ∧ consumedLength h 4096 3 = 3 := by
  have c1 : cursorAfter h 4096 1 = 4097 := by
    show ea_add 4096 (h.decode_insn 4096).size = 4097
    rw [hd0]; rfl
  have c2 : cursorAfter h 4096 2 = 4098 := by
    show ea_add (cursorAfter h 4096 1) (h.decode_insn (cursorAfter h 4096 1)).size = 4098
    rw [c1, hd1]; rfl
  have p1 : patternAfter h IS_ARM wildcardOperands 4096 1
      = [SignatureByte.mk (h.get_byte 4096) false] := by
    show appendInstruction h IS_ARM wildcardOperands [] 4096 (h.decode_insn 4096) = _
    rw [appendInstruction_no_operand h IS_ARM wildcardOperands [] 4096 _ hd0 ho0
      (by unfold EA_MOD; omega)]
    rfl
  have p2 : patternAfter h IS_ARM wildcardOperands 4096 2
      = [SignatureByte.mk (h.get_byte 4096) false,
          SignatureByte.mk (h.get_byte 4097) false] := by
    rw [patternAfter, p1, c1,
      appendInstruction_no_operand h IS_ARM wildcardOperands _ 4097 _ hd1 ho1
        (by unfold EA_MOD; omega)]
    rfl
  have p3 : patternAfter h IS_ARM wildcardOperands 4096 3
      = [SignatureByte.mk (h.get_byte 4096) false, SignatureByte.mk (h.get_byte 4097) false,
          SignatureByte.mk (h.get_byte 4098) false] := by
    rw [patternAfter, p2, c2,
      appendInstruction_no_operand h IS_ARM wildcardOperands _ 4098 _ hd2 ho2
        (by unfold EA_MOD; omega)]
    rfl
  have l1 : consumedLength h 4096 1 = 1 := by
    show 0 + (h.decode_insn 4096).size = 1
    rw [hd0]
  have l2 : consumedLength h 4096 2 = 2 := by
    rw [consumedLength, l1, c1, hd1]
  have l3 : consumedLength h 4096 3 = 3 := by
    rw [consumedLength, l2, c2, hd2]
  exact ⟨c1, c2, p1, p2, p3, l1, l2, l3⟩

theorem synthesis_at_nop_nop_ret (base : Nat) (image : List (Fin 256))
    (code : Nat → Bool) (decode : Nat → insn_t) (ask : Nat → Int) (IS_ARM : Bool)
    (fuel : Nat) (wildcardOperands : Bool) (maxSignatureLength : Nat)
    (askLongerSignature : Bool)
    (hlen : image.length = 8192) (hbase : base ≤ 4096)
    (hcode : code 4096 = true)
    (hd0 : (decode 4096).size = 1) (ho0 : ∀ o ∈ (decode 4096).ops, o.type = optype_t.o_void)
    (hd1 : (decode 4097).size = 1) (ho1 : ∀ o ∈ (decode 4097).ops, o.type = optype_t.o_void)
    (hd2 : (decode 4098).size = 1) (ho2 : ∀ o ∈ (decode 4098).ops, o.type = optype_t.o_void)
    (hb0 : (imageHost base image code decode ask).get_byte 4096 = 144)
    (hb1 : (imageHost base image code decode ask).get_byte 4097 = 144)
    (hb2 : (imageHost base image code decode ask).get_byte 4098 = 195)
    (hnowhere : ∀ a, base ≤ a → a + 3 ≤ base + 8192 →
      (imageHost base image code decode ask).get_byte a = 144 →
      (imageHost base image code decode ask).get_byte (a + 1) = 144 →
      (imageHost base image code decode ask).get_byte (a + 2) = 195 → a = 4096)
    (hmaxlen : 2 ≤ maxSignatureLength) (hfuel : 3 ≤ fuel) :
    ((∃ a, a ≠ 4096 ∧ base ≤ a ∧ a + 2 ≤ base + 8192
        ∧ (imageHost base image code decode ask).get_byte a = 144
        ∧ (imageHost base image code decode ask).get_byte (a + 1) = 144) →
      GenerateSignatureForEA (imageHost base image code decode ask) IS_ARM fuel 4096
          wildcardOperands maxSignatureLength askLongerSignature
        = some (some [SignatureByte.mk 144 false, SignatureByte.mk 144 false,
            SignatureByte.mk 195 false]))
    ∧ ((∀ a, base ≤ a → a + 2 ≤ base + 8192 →
        (imageHost base image code decode ask).get_byte a = 144 →
        (imageHost base image code decode ask).get_byte (a + 1) = 144 → a = 4096) →
      GenerateSignatureForEA (imageHost base image code decode ask) IS_ARM fuel 4096
          wildcardOperands maxSignatureLength askLongerSignature
        = some (some [SignatureByte.mk 144 false, SignatureByte.mk 144 false]))
    ∧ FormatSignature [SignatureByte.mk 144 false, SignatureByte.mk 144 false,
          SignatureByte.mk 195 false] SignatureType.IDA
        = ['9', '0', ' ', '9', '0', ' ', 'C', '3']
    ∧ FormatSignature [SignatureByte.mk 144 false, SignatureByte.mk 144 false]
          SignatureType.IDA
        = ['9', '0', ' ', '9', '0'] := by
  obtain ⟨c1, c2, p1, p2, p3, l1, l2, l3⟩ :=
    three_single_byte_instructions (imageHost base image code decode ask) IS_ARM
      wildcardOperands hd0 ho0 hd1 ho1 hd2 ho2
  rw [hb0] at p1
  rw [hb0, hb1] at p2
  rw [hb0, hb1, hb2] at p3
  have hmax : base + image.length ≤ BADADDR := by
    rw [hlen]; unfold BADADDR; omega
  have hsizes : ∀ m, m < 3 →
      0 < ((imageHost base image code decode ask).decode_insn
        (cursorAfter (imageHost base image code decode ask) 4096 m)).size := by
    intro m hm
    interval_cases m
    · show 0 < (decode 4096).size
      omega
    · rw [c1]; show 0 < (decode 4097).size; omega
    · rw [c2]; show 0 < (decode 4098).size; omega
  have hguard : ∀ m, m < 3 →
      consumedLength (imageHost base image code decode ask) 4096 m ≤ maxSignatureLength := by
    intro m hm
    interval_cases m
    · show 0 ≤ maxSignatureLength; omega
    · rw [l1]; omega
    · rw [l2]; omega
  have hone : IsSignatureUnique (imageHost base image code decode ask)
      (GenerateSignatureString
        (patternAfter (imageHost base image code decode ask) IS_ARM wildcardOperands 4096 1)
        false) = false := by
    rw [← Bool.not_eq_true, p1,
      IsSignatureUnique_imageHost_iff base image code decode ask _ hmax, hlen]
    rintro ⟨a, _, huniq⟩
    have e1 := huniq 4096 ⟨hbase, by omega, by
      show occursAt _ [some 144] _ 4096 = true
      rw [occursAt_one, hb0]; exact ⟨by omega, rfl⟩⟩
    have e2 := huniq 4097 ⟨by omega, by omega, by
      show occursAt _ [some 144] _ 4097 = true
      rw [occursAt_one, hb1]; exact ⟨by omega, rfl⟩⟩
    omega
  have htwo_iff : IsSignatureUnique (imageHost base image code decode ask)
      (GenerateSignatureString
        (patternAfter (imageHost base image code decode ask) IS_ARM wildcardOperands 4096 2)
        false) = true
      ↔ ∃! a, base ≤ a ∧ a < base + 8192
          ∧ (a + 2 ≤ base + 8192
            ∧ (imageHost base image code decode ask).get_byte a = 144
            ∧ (imageHost base image code decode ask).get_byte (a + 1) = 144) := by
    rw [p2, IsSignatureUnique_imageHost_iff base image code decode ask _ hmax, hlen]
    apply existsUnique_congr
    intro a
    apply and_congr_right; intro _
    apply and_congr_right; intro _
    show occursAt _ [some 144, some 144] _ a = true ↔ _
    rw [occursAt_two, foldCase_eq_90, foldCase_eq_90]
  have hpair0 : base ≤ 4096 ∧ 4096 < base + 8192
      ∧ (4096 + 2 ≤ base + 8192
        ∧ (imageHost base image code decode ask).get_byte 4096 = 144
        ∧ (imageHost base image code decode ask).get_byte (4096 + 1) = 144) :=
    ⟨hbase, by omega, by omega, hb0, hb1⟩
  have hthree : IsSignatureUnique (imageHost base image code decode ask)
      (GenerateSignatureString
        (patternAfter (imageHost base image code decode ask) IS_ARM wildcardOperands 4096 3)
        false) = true := by
    rw [p3, IsSignatureUnique_imageHost_iff base image code decode ask _ hmax, hlen]
    refine ⟨4096, ⟨hbase, by omega, ?_⟩, ?_⟩
    · show occursAt _ [some 144, some 144, some 195] _ 4096 = true
      rw [occursAt_three, foldCase_eq_90, foldCase_eq_90, foldCase_eq_C3]
      exact ⟨by omega, hb0, hb1, hb2⟩
    · rintro y ⟨hy1, _, hy3⟩
      have hy4 : occursAt (imageHost base image code decode ask).get_byte
          [some 144, some 144, some 195] (base + 8192) y = true := hy3
      rw [occursAt_three, foldCase_eq_90, foldCase_eq_90, foldCase_eq_C3] at hy4
      exact hnowhere y hy1 hy4.1 hy4.2.1 hy4.2.2.1 hy4.2.2.2
  refine ⟨?_, ?_, by decide, by decide⟩
  · rintro ⟨a, ha1, ha2, ha3, ha4, ha5⟩
    have htwo : IsSignatureUnique (imageHost base image code decode ask)
        (GenerateSignatureString
          (patternAfter (imageHost base image code decode ask) IS_ARM wildcardOperands 4096 2)
          false) = false := by
      rw [← Bool.not_eq_true, htwo_iff]
      rintro ⟨b, _, huniq⟩
      have e1 := huniq 4096 hpair0
      have e2 := huniq a ⟨ha2, by omega, ha3, ha4, ha5⟩
      omega
    have := GenerateSignatureForEA_returns_at_first_unique
      (imageHost base image code decode ask) IS_ARM fuel 4096 wildcardOperands
      maxSignatureLength askLongerSignature 3 (by decide) hcode (by omega) hfuel hsizes hguard
      (by rw [l3]; omega)
      (by
        intro m hm1 hm2
        interval_cases m
        · exact hone
        · exact htwo)
      hthree
    rw [this, p3]
    rfl
  · intro honly
    have htwo : IsSignatureUnique (imageHost base image code decode ask)
        (GenerateSignatureString
          (patternAfter (imageHost base image code decode ask) IS_ARM wildcardOperands 4096 2)
          false) = true := by
      rw [htwo_iff]
      refine ⟨4096, hpair0, ?_⟩
      rintro y ⟨hy1, _, hy3, hy4, hy5⟩
      exact honly y hy1 hy3 hy4 hy5
    have := GenerateSignatureForEA_returns_at_first_unique
      (imageHost base image code decode ask) IS_ARM fuel 4096 wildcardOperands
      maxSignatureLength askLongerSignature 2 (by decide) hcode (by omega) (by omega)
      (fun m hm => hsizes m (by omega)) (fun m hm => hguard m (by omega))
      (by rw [l2]; omega)
      (by
        intro m hm1 hm2
        interval_cases m
        exact hone)
      htwo
    rw [this, p2]
    rfl

/-- C17, amended: for every 0x2000-byte image (loaded at any base that puts 0x1000 to
0x1002 inside it) in which `90 90 C3` sits at 0x1000 as three one-byte instructions
without operands and occurs nowhere else, with `maxSignatureLength ≥ 2` and fuel for
three instructions, `GenerateSignatureForEA` at 0x1000 returns the shortest unique run of
whole instructions: `[90, 90, C3]`, all fixed, rendered `90 90 C3`, when the pair `90 90`
also occurs at another address; and `[90, 90]`, rendered `90 90`, when it does not. -/
theorem GenerateSignatureForEA_nop_nop_ret (base : Nat) (image : List (Fin 256))
    (code : Nat → Bool) (decode : Nat → insn_t) (ask : Nat → Int) (IS_ARM : Bool)
    (fuel : Nat) (wildcardOperands : Bool) (maxSignatureLength : Nat)
    (askLongerSignature : Bool)
    (hlen : image.length = 8192) (hbase : base ≤ 4096)
    (hcode : code 4096 = true)
    (hd0 : (decode 4096).size = 1) (ho0 : ∀ o ∈ (decode 4096).ops, o.type = optype_t.o_void)
    (hd1 : (decode 4097).size = 1) (ho1 : ∀ o ∈ (decode 4097).ops, o.type = optype_t.o_void)
    (hd2 : (decode 4098).size = 1) (ho2 : ∀ o ∈ (decode 4098).ops, o.type = optype_t.o_void)
    (hb0 : (imageHost base image code decode ask).get_byte 4096 = 144)
    (hb1 : (imageHost base image code decode ask).get_byte 4097 = 144)
    (hb2 : (imageHost base image code decode ask).get_byte 4098 = 195)
    (hnowhere : ∀ a, base ≤ a → a + 3 ≤ base + 8192 →
      (imageHost base image code decode ask).get_byte a = 144 →
      (imageHost base image code decode ask).get_byte (a + 1) = 144 →
      (imageHost base image code decode ask).get_byte (a + 2) = 195 → a = 4096)
    (hmaxlen : 2 ≤ maxSignatureLength) (hfuel : 3 ≤ fuel) :
    ((∃ a, a ≠ 4096 ∧ base ≤ a ∧ a + 2 ≤ base + 8192
        ∧ (imageHost base image code decode ask).get_byte a = 144
        ∧ (imageHost base image code decode ask).get_byte (a + 1) = 144) →
      GenerateSignatureForEA (imageHost base image code decode ask) IS_ARM fuel 4096
          wildcardOperands maxSignatureLength askLongerSignature
        = some (some [SignatureByte.mk 144 false, SignatureByte.mk 144 false,
            SignatureByte.mk 195 false]))
    ∧ ((∀ a, base ≤ a → a + 2 ≤ base + 8192 →
        (imageHost base image code decode ask).get_byte a = 144 →
        (imageHost base image code decode ask).get_byte (a + 1) = 144 → a = 4096) →
      GenerateSignatureForEA (imageHost base image code decode ask) IS_ARM fuel 4096
          wildcardOperands maxSignatureLength askLongerSignature
        = some (some [SignatureByte.mk 144 false, SignatureByte.mk 144 false]))
    ∧ FormatSignature [SignatureByte.mk 144 false, SignatureByte.mk 144 false,
          SignatureByte.mk 195 false] SignatureType.IDA
        = ['9', '0', ' ', '9', '0', ' ', 'C', '3']
    ∧ FormatSignature [SignatureByte.mk 144 false, SignatureByte.mk 144 false]
          SignatureType.IDA
        = ['9', '0', ' ', '9', '0'] :=
  synthesis_at_nop_nop_ret base image code decode ask IS_ARM fuel wildcardOperands
    maxSignatureLength askLongerSignature hlen hbase hcode hd0 ho0 hd1 ho1 hd2 ho2 hb0 hb1 hb2
    hnowhere hmaxlen hfuel

theorem nopImage_length (p : Bool) : (nopImage p).length = 8192 := by
  simp [nopImage]

theorem nopHost_get_byte (p : Bool) (a : Nat) (ha : a < 8192) :
    (nopHost p).get_byte a = nopByte p a := by
  show (if 0 ≤ a then (nopImage p).getD (a - 0) 255 else 255) = nopByte p a
  rw [if_pos (Nat.zero_le a), Nat.sub_zero, List.getD_eq_getElem?_getD]
  unfold nopImage
  rw [List.getElem?_map, List.getElem?_range ha]
  rfl

theorem nopByte_eq_C3 (p : Bool) (a : Nat) (hb : nopByte p a = 195) : a = 4098 := by
  unfold nopByte at hb
  split_ifs at hb with h1 h2 h3
  · exact absurd hb (by decide)
  · exact h2
  · exact absurd hb (by decide)
  · exact absurd hb (by decide)

theorem nopByte_eq_90 (a : Nat) (hb : nopByte false a = 144) : a = 4096 ∨ a = 4097 := by
  unfold nopByte at hb
  split_ifs at hb with h1 h2 h3
  · exact h1
  · exact absurd hb (by decide)
  · simp at h3
  · exact absurd hb (by decide)

theorem nopHost_nowhere_else (p : Bool) (a : Nat) (ha : a + 3 ≤ 0 + 8192)
    (hb : (nopHost p).get_byte (a + 2) = 195) : a = 4096 := by
  rw [nopHost_get_byte p (a + 2) (by omega)] at hb
  have := nopByte_eq_C3 p (a + 2) hb
  omega

set_option maxRecDepth 100000 in
/-- C17, counterexample: in the 0x2000-byte image `nopImage false` the bytes `90 90 C3`
sit at 0x1000 as three one-byte instructions without operands and occur nowhere else,
yet `GenerateSignatureForEA` at 0x1000 returns `[90, 90]`, rendered `90 90`, because the
pair `90 90` is already unique after the second instruction. -/
theorem GenerateSignatureForEA_nop_pair_already_unique :
    (nopImage false).length = 8192
    ∧ (nopHost false).min_ea = 0 ∧ (nopHost false).max_ea = 8192
    ∧ (nopHost false).is_code 4096 = true
    ∧ (nopHost false).decode_insn 4096 = insn_t.mk 1 []
    ∧ (nopHost false).decode_insn 4097 = insn_t.mk 1 []
    ∧ (nopHost false).decode_insn 4098 = insn_t.mk 1 []
    ∧ (nopHost false).get_byte 4096 = 144
    ∧ (nopHost false).get_byte 4097 = 144
    ∧ (nopHost false).get_byte 4098 = 195
    ∧ (∀ a, 0 ≤ a → a + 3 ≤ 0 + 8192 → (nopHost false).get_byte a = 144 →
        (nopHost false).get_byte (a + 1) = 144 → (nopHost false).get_byte (a + 2) = 195 →
        a = 4096)
    ∧ GenerateSignatureForEA (nopHost false) false 3 4096 true 1000 true
        = some (some [SignatureByte.mk 144 false, SignatureByte.mk 144 false])
    ∧ GenerateSignatureForEA (nopHost false) false 3 4096 true 1000 true
        ≠ some (some [SignatureByte.mk 144 false, SignatureByte.mk 144 false,
            SignatureByte.mk 195 false])
    ∧ FormatSignature [SignatureByte.mk 144 false, SignatureByte.mk 144 false]
          SignatureType.IDA
        = ['9', '0', ' ', '9', '0'] := by
  have g0 : (nopHost false).get_byte 4096 = 144 := by
    rw [nopHost_get_byte false 4096 (by omega)]; rfl
  have g1 : (nopHost false).get_byte 4097 = 144 := by
    rw [nopHost_get_byte false 4097 (by omega)]; rfl
  have g2 : (nopHost false).get_byte 4098 = 195 := by
    rw [nopHost_get_byte false 4098 (by omega)]; rfl
  have hnow : ∀ a, 0 ≤ a → a + 3 ≤ 0 + 8192 → (nopHost false).get_byte a = 144 →
      (nopHost false).get_byte (a + 1) = 144 → (nopHost false).get_byte (a + 2) = 195 →
      a = 4096 := fun a _ ha _ _ hb => nopHost_nowhere_else false a ha hb
  have hrun : GenerateSignatureForEA (nopHost false) false 3 4096 true 1000 true
      = some (some [SignatureByte.mk 144 false, SignatureByte.mk 144 false]) :=
    (synthesis_at_nop_nop_ret 0 (nopImage false) (fun a => decide (4096 ≤ a ∧ a < 4099))
      (fun a => if 4096 ≤ a ∧ a < 4099 then insn_t.mk 1 [] else insn_t.mk 0 [])
      (fun _ => 0) false 3 true 1000 true (nopImage_length false) (by omega) (by decide)
      (by decide) (by decide) (by decide) (by decide) (by decide) (by decide)
      g0 g1 g2 hnow (by omega) (by omega)).2.1
      (by
        intro a _ ha hb0 hb1
        have hc0 : (nopHost false).get_byte a = 144 := hb0
        have hc1 : (nopHost false).get_byte (a + 1) = 144 := hb1
        rw [nopHost_get_byte false a (by omega)] at hc0
        rw [nopHost_get_byte false (a + 1) (by omega)] at hc1
        have := nopByte_eq_90 a hc0
        have := nopByte_eq_90 (a + 1) hc1
        omega)
  refine ⟨nopImage_length false, rfl, ?_, by decide, by decide, by decide, by decide,
    g0, g1, g2, hnow, hrun, ?_, by decide⟩
  · show 0 + (nopImage false).length = 8192
    rw [nopImage_length]
  · rw [hrun]
    decide

set_option maxRecDepth 100000 in
theorem GenerateSignatureForEA_nop_nop_ret_witness :
    (nopImage true).length = 8192
    ∧ (nopHost true).get_byte 0 = 144 ∧ (nopHost true).get_byte 1 = 144
    ∧ GenerateSignatureForEA (nopHost true) false 3 4096 true 1000 true
        = some (some [SignatureByte.mk 144 false, SignatureByte.mk 144 false,
            SignatureByte.mk 195 false])
    ∧ FormatSignature [SignatureByte.mk 144 false, SignatureByte.mk 144 false,
          SignatureByte.mk 195 false] SignatureType.IDA
        = ['9', '0', ' ', '9', '0', ' ', 'C', '3'] :=
  have g0 : (nopHost true).get_byte 4096 = 144 := by
    rw [nopHost_get_byte true 4096 (by omega)]; rfl
  have g1 : (nopHost true).get_byte 4097 = 144 := by
    rw [nopHost_get_byte true 4097 (by omega)]; rfl
  have g2 : (nopHost true).get_byte 4098 = 195 := by
    rw [nopHost_get_byte true 4098 (by omega)]; rfl
  have e0 : (nopHost true).get_byte 0 = 144 := by
    rw [nopHost_get_byte true 0 (by omega)]; rfl
  have e1 : (nopHost true).get_byte 1 = 144 := by
    rw [nopHost_get_byte true 1 (by omega)]; rfl
  ⟨nopImage_length true, e0, e1,
    (GenerateSignatureForEA_nop_nop_ret 0 (nopImage true)
      (fun a => decide (4096 ≤ a ∧ a < 4099))
      (fun a => if 4096 ≤ a ∧ a < 4099 then insn_t.mk 1 [] else insn_t.mk 0 [])
      (fun _ => 0) false 3 true 1000 true (nopImage_length true) (by omega) (by decide)
      (by decide) (by decide) (by decide) (by decide) (by decide) (by decide)
      g0 g1 g2 (fun a _ ha _ _ hb => nopHost_nowhere_else true a ha hb)
      (by omega) (by omega)).1 ⟨0, by omega, by omega, by omega, e0, e1⟩,
    by decide⟩

theorem FindXRefsLoop_eq (h : Host) (IS_ARM : Bool) (fuel : Nat) (wildcardOperands : Bool)
    (maxSignatureLength : Nat) :
    ∀ (origins : List Nat) (acc : List XrefEntry),
      (∀ o ∈ origins, h.is_code o = true →
        GenerateSignatureForEA h IS_ARM fuel o wildcardOperands maxSignatureLength false
          ≠ none) →
      FindXRefsLoop h IS_ARM fuel wildcardOperands maxSignatureLength origins acc
        = some (acc ++ origins.filterMap
            (collectEntry h IS_ARM fuel wildcardOperands maxSignatureLength)) := by
  intro origins
  induction origins with
  | nil => intro acc _; simp [FindXRefsLoop]
  | cons o rest ih =>
    intro acc hterm
    have hrest := fun acc2 => ih acc2 (fun x hx => hterm x (List.mem_cons_of_mem _ hx))
    rw [FindXRefsLoop]
    by_cases hcode : h.is_code o = true
    · rw [if_neg (by simp [hcode])]
      have ht := hterm o (by simp) hcode
      cases hg : GenerateSignatureForEA h IS_ARM fuel o wildcardOperands maxSignatureLength
          false with
      | none => exact absurd hg ht
      | some r =>
        cases r with
        | none =>
          simp only
          rw [hrest, List.filterMap_cons]
          have : collectEntry h IS_ARM fuel wildcardOperands maxSignatureLength o = none := by
            unfold collectEntry
            rw [if_pos hcode, hg]
          rw [this]
        | some s =>
          simp only
          rw [hrest, List.filterMap_cons]
          have : collectEntry h IS_ARM fuel wildcardOperands maxSignatureLength o
              = some (o, s) := by
            unfold collectEntry
            rw [if_pos hcode, hg]
          rw [this, List.append_assoc]
          rfl
    · rw [if_pos (by simp [hcode]), hrest, List.filterMap_cons]
      have : collectEntry h IS_ARM fuel wildcardOperands maxSignatureLength o = none := by
        unfold collectEntry
        rw [if_neg hcode]
      rw [this]

theorem GenerateSignatureForEA_nonprompting_ne_none (h : Host) (IS_ARM : Bool)
    (fuel ea : Nat) (wildcardOperands : Bool) (maxSignatureLength : Nat)
    (hsize : ∀ a, (h.decode_insn a).size < 65536)
    (hwrap : maxSignatureLength + 65535 < 4294967296)
    (hfuel : maxSignatureLength + 2 ≤ fuel) :
    GenerateSignatureForEA h IS_ARM fuel ea wildcardOperands maxSignatureLength false
      ≠ none := by
  unfold GenerateSignatureForEA
  split
  · simp
  · split
    · simp
    · obtain ⟨r, hr⟩ := GenerateSignatureLoop_nonprompting_returns h IS_ARM wildcardOperands
        maxSignatureLength hsize hwrap fuel [] 0 ea (by omega) (by omega)
      rw [hr]
      simp

theorem FindXRefsComparator_strictWeakOrdering : StrictWeakOrdering FindXRefsComparator := by
  refine ⟨fun a => ?_, fun a b c hab hbc => ?_, fun a b c hab hbc => ?_⟩
  · simp [FindXRefsComparator]
  · simp only [FindXRefsComparator, decide_eq_true_eq] at *
    omega
  · simp only [FindXRefsComparator, decide_eq_false_iff_not] at *
    omega

/-! ### The library sort: libstdc++ keeps the contract of `std::ranges::sort` -/

theorem StrictWeakOrdering_asymm (comp : XrefEntry → XrefEntry → Bool)
    (hswo : StrictWeakOrdering comp) (a b : XrefEntry) (hab : comp a b = true) :
    comp b a = false := by
  cases hba : comp b a with
  | false => rfl
  | true =>
    have := hswo.2.1 a b a hab hba
    rw [hswo.1 a] at this
    exact absurd this (by simp)

theorem StrictWeakOrdering_negtrans (comp : XrefEntry → XrefEntry → Bool)
    (hswo : StrictWeakOrdering comp) (a b c : XrefEntry) (hba : comp b a = false)
    (hcb : comp c b = false) : comp c a = false := by
  cases hca : comp c a with
  | false => rfl
  | true =>
    cases hab : comp a b with
    | true =>
      have := hswo.2.1 c a b hca hab
      rw [hcb] at this
      exact absurd this (by simp)
    | false =>
      cases hbc : comp b c with
      | true =>
        have := hswo.2.1 b c a hbc hca
        rw [hba] at this
        exact absurd this (by simp)
      | false =>
        have := (hswo.2.2 a b c ⟨hab, hba⟩ ⟨hbc, hcb⟩).2
        rw [hca] at this
        exact absurd this (by simp)

theorem StrictWeakOrdering_lt_of_lt_of_le (comp : XrefEntry → XrefEntry → Bool)
    (hswo : StrictWeakOrdering comp) (a b c : XrefEntry) (hab : comp a b = true)
    (hbc : comp c b = false) : comp a c = true := by
  cases hac : comp a c with
  | true => rfl
  | false =>
    have := StrictWeakOrdering_negtrans comp hswo b c a hbc hac
    rw [hab] at this
    exact absurd this (by simp)

theorem StrictWeakOrdering_lt_of_le_of_lt (comp : XrefEntry → XrefEntry → Bool)
    (hswo : StrictWeakOrdering comp) (a b c : XrefEntry) (hab : comp b a = false)
    (hbc : comp b c = true) : comp a c = true := by
  cases hac : comp a c with
  | true => rfl
  | false =>
    have := StrictWeakOrdering_negtrans comp hswo c a b hac hab
    rw [hbc] at this
    exact absurd this (by simp)

theorem vecGet_eq_getElem (v : List XrefEntry) (i : Nat) (h : i < v.length) :
    vecGet v i = v[i] := by
  simp [vecGet, List.getD_eq_getElem?_getD, List.getElem?_eq_getElem h]

theorem vecGet_append_left (A B : List XrefEntry) (i : Nat) (h : i < A.length) :
    vecGet (A ++ B) i = vecGet A i := by
  simp [vecGet, List.getD_eq_getElem?_getD, List.getElem?_append_left h]

theorem vecGet_append_right (A B : List XrefEntry) (i : Nat) (h : A.length ≤ i) :
    vecGet (A ++ B) i = vecGet B (i - A.length) := by
  simp [vecGet, List.getD_eq_getElem?_getD, List.getElem?_append_right h]

theorem vecGet_append_cons (A C : List XrefEntry) (x : XrefEntry) :
    vecGet (A ++ x :: C) A.length = x := by
  rw [vecGet_append_right A _ _ (le_refl _)]
  simp [vecGet]

theorem vecGet_set (v : List XrefEntry) (i k : Nat) (x : XrefEntry) (hi : i < v.length) :
    vecGet (v.set i x) k = if k = i then x else vecGet v k := by
  unfold vecGet
  rw [List.getD_eq_getElem?_getD, List.getD_eq_getElem?_getD, List.getElem?_set]
  by_cases hk : k = i
  · subst hk
    simp [hi]
  · have : ¬ i = k := fun h => hk h.symm
    simp [hk, this]

theorem vecGet_mem (v : List XrefEntry) (i : Nat) (h : i < v.length) : vecGet v i ∈ v := by
  rw [vecGet_eq_getElem v i h]
  exact List.getElem_mem h

theorem unguarded_linear_insert_loop_eq (comp : XrefEntry → XrefEntry → Bool)
    (val a : XrefEntry) (A : List XrefEntry) (ha : comp val a = false) :
    ∀ (A2 C : List XrefEntry) (hole : XrefEntry) (fuel : Nat),
      (∀ x ∈ A2, comp val x = true) → A2.length < fuel →
      unguarded_linear_insert_loop comp val fuel (A ++ a :: (A2 ++ hole :: C))
          (A.length + 1 + A2.length) (A.length + A2.length)
        = A ++ a :: (val :: A2 ++ C) := by
  intro A2
  induction A2 using List.reverseRecOn with
  | nil =>
    intro C hole fuel _ hfuel
    obtain ⟨f, rfl⟩ : ∃ f, fuel = f + 1 := ⟨fuel - 1, by simp at hfuel; omega⟩
    unfold unguarded_linear_insert_loop
    simp only [List.length_nil, Nat.add_zero, List.nil_append]
    rw [vecGet_append_cons, ha]
    simp only [Bool.false_eq_true, if_false]
    simp
  | append_singleton A2 y ih =>
    intro C hole fuel hall hfuel
    obtain ⟨f, rfl⟩ : ∃ f, fuel = f + 1 := ⟨fuel - 1, by omega⟩
    have hy : comp val y = true := hall y (by simp)
    have hget : vecGet (A ++ a :: (A2 ++ [y] ++ hole :: C)) (A.length + (A2 ++ [y]).length)
        = y := by
      have := vecGet_append_cons (A ++ a :: A2) (hole :: C) y
      simpa [Nat.add_assoc, Nat.add_comm 1] using this
    unfold unguarded_linear_insert_loop
    rw [hget, hy]
    simp only [if_true]
    have hset : (A ++ a :: (A2 ++ [y] ++ hole :: C)).set (A.length + 1 + (A2 ++ [y]).length) y
        = A ++ a :: (A2 ++ y :: (y :: C)) := by
      simp [Nat.add_assoc, Nat.add_comm 1]
    rw [hset]
    have h2 : A.length + (A2 ++ [y]).length = A.length + 1 + A2.length := by
      simp
      omega
    have h3 : A.length + 1 + A2.length - 1 = A.length + A2.length := by omega
    rw [h2, h3]
    have := ih (y :: C) y f (fun x hx => hall x (by simp [hx])) (by simp at hfuel; omega)
    rw [this]
    simp

theorem rdropWhile_append_rtakeWhile (p : XrefEntry → Bool) (T : List XrefEntry) :
    T.rdropWhile p ++ T.rtakeWhile p = T := by
  unfold List.rdropWhile List.rtakeWhile
  rw [← List.reverse_append, List.takeWhile_append_dropWhile, List.reverse_reverse]

theorem rdropWhile_split (p : XrefEntry → Bool) (T : List XrefEntry) (y : XrefEntry)
    (hy : y ∈ T) (hpy : p y = false) :
    ∃ A a, T.rdropWhile p = A ++ [a] ∧ p a = false := by
  have hne : T.rdropWhile p ≠ [] := by
    intro h
    have := List.rdropWhile_eq_nil_iff.mp h y hy
    rw [hpy] at this
    exact absurd this (by simp)
  refine ⟨(T.rdropWhile p).dropLast, (T.rdropWhile p).getLast hne,
    (List.dropLast_append_getLast hne).symm, ?_⟩
  have := List.rdropWhile_last_not p T hne
  simpa using this

theorem insertBack_length (comp : XrefEntry → XrefEntry → Bool) (x : XrefEntry)
    (T : List XrefEntry) : (insertBack comp x T).length = T.length + 1 := by
  unfold insertBack
  have := congrArg List.length (rdropWhile_append_rtakeWhile (comp x) T)
  simp only [List.length_append] at this
  simp only [List.length_append, List.length_cons]
  omega

theorem insertBack_perm (comp : XrefEntry → XrefEntry → Bool) (x : XrefEntry)
    (T : List XrefEntry) : List.Perm (insertBack comp x T) (T ++ [x]) := by
  unfold insertBack
  have h := rdropWhile_append_rtakeWhile (comp x) T
  have h1 : List.Perm (T.rdropWhile (comp x) ++ x :: T.rtakeWhile (comp x))
      (x :: (T.rdropWhile (comp x) ++ T.rtakeWhile (comp x))) := List.perm_middle
  rw [h] at h1
  exact h1.trans (List.perm_append_singleton x T).symm

theorem insertBack_sorted (comp : XrefEntry → XrefEntry → Bool)
    (hswo : StrictWeakOrdering comp) (x : XrefEntry) (T : List XrefEntry)
    (hT : List.Pairwise (fun a b => comp b a = false) T) :
    List.Pairwise (fun a b => comp b a = false) (insertBack comp x T) := by
  unfold insertBack
  have h := rdropWhile_append_rtakeWhile (comp x) T
  rw [← h] at hT
  obtain ⟨hD, hK, hDK⟩ := List.pairwise_append.mp hT
  have hKx : ∀ k ∈ T.rtakeWhile (comp x), comp x k = true := fun k hk =>
    List.mem_rtakeWhile_imp hk
  rw [List.pairwise_append]
  refine ⟨hD, List.pairwise_cons.mpr ⟨fun k hk =>
    StrictWeakOrdering_asymm comp hswo x k (hKx k hk), hK⟩, ?_⟩
  intro d hd b hb
  rcases List.mem_cons.mp hb with hbx | hb
  · rw [hbx]
    by_cases hne : T.rdropWhile (comp x) = []
    · rw [hne] at hd
      exact absurd hd (List.not_mem_nil _)
    · have hlast := List.rdropWhile_last_not (comp x) T hne
      have hl : comp x ((T.rdropWhile (comp x)).getLast hne) = false := by simpa using hlast
      by_cases hdl : d = (T.rdropWhile (comp x)).getLast hne
      · rw [hdl]
        exact hl
      · have hmem : d ∈ (T.rdropWhile (comp x)).dropLast := by
          have hsplit := List.dropLast_append_getLast hne
          rw [← hsplit] at hd
          rcases List.mem_append.mp hd with h1 | h1
          · exact h1
          · simp at h1
            exact absurd h1 hdl
        have hpw : List.Pairwise (fun a b => comp b a = false)
            ((T.rdropWhile (comp x)).dropLast ++ [(T.rdropWhile (comp x)).getLast hne]) := by
          rw [List.dropLast_append_getLast hne]
          exact hD
        have hdle := (List.pairwise_append.mp hpw).2.2 d hmem _ (List.mem_singleton.mpr rfl)
        exact StrictWeakOrdering_negtrans comp hswo d _ x hdle hl
  · exact hDK d hd b hb

theorem insertBack_mem (comp : XrefEntry → XrefEntry → Bool) (x y : XrefEntry)
    (T : List XrefEntry) (hy : y ∈ T) : y ∈ insertBack comp x T :=
  (insertBack_perm comp x T).mem_iff.mpr (List.mem_append_left _ hy)

theorem unguarded_linear_insert_eq (comp : XrefEntry → XrefEntry → Bool) (x y : XrefEntry)
    (T C : List XrefEntry) (hy : y ∈ T) (hxy : comp x y = false) :
    unguarded_linear_insert comp (T ++ x :: C) T.length = insertBack comp x T ++ C := by
  obtain ⟨A, a, hD, ha⟩ := rdropWhile_split (comp x) T y hy hxy
  have hT := rdropWhile_append_rtakeWhile (comp x) T
  have hK : ∀ k ∈ T.rtakeWhile (comp x), comp x k = true := fun k hk =>
    List.mem_rtakeWhile_imp hk
  unfold unguarded_linear_insert insertBack
  rw [vecGet_append_cons, hD]
  have hv : T ++ x :: C = A ++ a :: (T.rtakeWhile (comp x) ++ x :: C) := by
    conv_lhs => rw [← hT, hD]
    simp
  have hlen : T.length = A.length + 1 + (T.rtakeWhile (comp x)).length := by
    conv_lhs => rw [← hT, hD]
    simp
    omega
  have hlen2 : T.length - 1 = A.length + (T.rtakeWhile (comp x)).length := by omega
  have hfuel : (T.rtakeWhile (comp x)).length < (T ++ x :: C).length := by
    simp
    omega
  rw [hlen2]
  conv_lhs => rw [hlen]
  have := unguarded_linear_insert_loop_eq comp x a A ha (T.rtakeWhile (comp x)) C x
    (T ++ x :: C).length hK hfuel
  rw [← hv] at this
  rw [this]
  simp

theorem insertBack_of_all (comp : XrefEntry → XrefEntry → Bool) (x : XrefEntry)
    (T : List XrefEntry) (hall : ∀ y ∈ T, comp x y = true) : insertBack comp x T = x :: T := by
  unfold insertBack
  rw [List.rdropWhile_eq_nil_iff.mpr hall, List.rtakeWhile_eq_self_iff.mpr hall]
  rfl

theorem insertion_sort_step_eq (comp : XrefEntry → XrefEntry → Bool)
    (hswo : StrictWeakOrdering comp) (x t : XrefEntry) (T C : List XrefEntry)
    (hT : List.Pairwise (fun a b => comp b a = false) (t :: T)) :
    insertion_sort_step comp 0 ((t :: T) ++ x :: C) (t :: T).length
      = insertBack comp x (t :: T) ++ C := by
  unfold insertion_sort_step
  rw [vecGet_append_cons]
  have h0 : vecGet (t :: T ++ x :: C) 0 = t := rfl
  rw [h0]
  by_cases hxt : comp x t = true
  · rw [if_pos hxt]
    have hall : ∀ y ∈ t :: T, comp x y = true := by
      intro y hy
      rcases List.mem_cons.mp hy with rfl | hy
      · exact hxt
      · exact StrictWeakOrdering_lt_of_lt_of_le comp hswo x t y hxt
          ((List.pairwise_cons.mp hT).1 y hy)
    rw [insertBack_of_all comp x _ hall]
    simp
  · rw [if_neg hxt]
    exact unguarded_linear_insert_eq comp x t (t :: T) C (List.mem_cons_self _ _)
      (by simpa using hxt)

theorem insertion_sort_fold_eq (comp : XrefEntry → XrefEntry → Bool)
    (hswo : StrictWeakOrdering comp) :
    ∀ (R T C : List XrefEntry) (t : XrefEntry),
      List.Pairwise (fun a b => comp b a = false) (t :: T) →
      (List.range' (t :: T).length R.length).foldl (insertion_sort_step comp 0)
          ((t :: T) ++ R ++ C)
        = R.foldl (fun acc x => insertBack comp x acc) (t :: T) ++ C := by
  intro R
  induction R with
  | nil => intro T C t _; simp
  | cons x R ih =>
    intro T C t hT
    have hstep := insertion_sort_step_eq comp hswo x t T (R ++ C) hT
    have hlen := insertBack_length comp x (t :: T)
    have hs := insertBack_sorted comp hswo x (t :: T) hT
    cases hib : insertBack comp x (t :: T) with
    | nil => rw [hib] at hlen; simp at hlen
    | cons t2 T2 =>
      rw [hib] at hstep hlen hs
      simp only [List.length_cons, List.range'_succ, List.foldl_cons]
      have hv : t :: T ++ x :: R ++ C = (t :: T) ++ x :: (R ++ C) := by simp
      rw [hv]
      have hstep2 : insertion_sort_step comp 0 (t :: T ++ x :: (R ++ C)) (T.length + 1)
          = t2 :: T2 ++ (R ++ C) := hstep
      rw [hstep2, hib]
      have := ih T2 C t2 hs
      simp only [List.length_cons] at this hlen
      have hl2 : T.length + 1 + 1 = T2.length + 1 := by omega
      rw [hl2]
      have hv2 : t2 :: T2 ++ (R ++ C) = t2 :: T2 ++ R ++ C := by simp
      rw [hv2]
      exact this

theorem unguarded_insertion_sort_fold_eq (comp : XrefEntry → XrefEntry → Bool)
    (y : XrefEntry) :
    ∀ (R T C : List XrefEntry), y ∈ T → (∀ x ∈ R, comp x y = false) →
      (List.range' T.length R.length).foldl (unguarded_linear_insert comp) (T ++ R ++ C)
        = R.foldl (fun acc x => insertBack comp x acc) T ++ C := by
  intro R
  induction R with
  | nil => intro T C _ _; simp
  | cons x R ih =>
    intro T C hy hR
    have hstep := unguarded_linear_insert_eq comp x y T (R ++ C) hy
      (hR x (List.mem_cons_self _ _))
    simp only [List.length_cons, List.range'_succ, List.foldl_cons]
    have hv : T ++ x :: R ++ C = T ++ x :: (R ++ C) := by simp
    rw [hv, hstep]
    have := ih (insertBack comp x T) C (insertBack_mem comp x y T hy)
      (fun z hz => hR z (List.mem_cons_of_mem _ hz))
    rw [insertBack_length] at this
    have hv2 : insertBack comp x T ++ (R ++ C) = insertBack comp x T ++ R ++ C := by simp
    rw [hv2]
    exact this

theorem foldl_insertBack_perm (comp : XrefEntry → XrefEntry → Bool) :
    ∀ (R T : List XrefEntry),
      List.Perm (R.foldl (fun acc x => insertBack comp x acc) T) (T ++ R) := by
  intro R
  induction R with
  | nil => intro T; simp
  | cons x R ih =>
    intro T
    simp only [List.foldl_cons]
    refine (ih (insertBack comp x T)).trans ?_
    have := (insertBack_perm comp x T).append_right R
    simpa using this

theorem foldl_insertBack_sorted (comp : XrefEntry → XrefEntry → Bool)
    (hswo : StrictWeakOrdering comp) :
    ∀ (R T : List XrefEntry), List.Pairwise (fun a b => comp b a = false) T →
      List.Pairwise (fun a b => comp b a = false)
        (R.foldl (fun acc x => insertBack comp x acc) T) := by
  intro R
  induction R with
  | nil => intro T hT; exact hT
  | cons x R ih =>
    intro T hT
    exact ih _ (insertBack_sorted comp hswo x T hT)

theorem insertion_sort_eq (comp : XrefEntry → XrefEntry → Bool)
    (hswo : StrictWeakOrdering comp) (S C : List XrefEntry) :
    insertion_sort comp (S ++ C) 0 S.length
      = S.foldl (fun acc x => insertBack comp x acc) [] ++ C := by
  cases S with
  | nil => simp [insertion_sort]
  | cons s R =>
    unfold insertion_sort
    rw [if_neg (by simp)]
    have := insertion_sort_fold_eq comp hswo R [] C s (List.pairwise_singleton _ _)
    simp only [List.length_cons, List.length_nil, Nat.zero_add] at this
    simp only [List.length_cons, Nat.zero_add, Nat.add_sub_cancel, List.foldl_cons]
    have hv : s :: R ++ C = [s] ++ R ++ C := by simp
    rw [hv, this]
    rfl

theorem final_insertion_sort_spec (comp : XrefEntry → XrefEntry → Bool)
    (hswo : StrictWeakOrdering comp) (v : List XrefEntry)
    (hsent : ∀ j, 16 ≤ j → j < v.length → comp (vecGet v j) (vecGet v 0) = false) :
    List.Perm (final_insertion_sort comp v 0 v.length) v
    ∧ List.Pairwise (fun a b => comp b a = false) (final_insertion_sort comp v 0 v.length) := by
  unfold final_insertion_sort
  by_cases hlen : 16 < v.length - 0
  · rw [if_pos hlen]
    have hlen2 : 16 < v.length := by omega
    have hsplit : v = v.take 16 ++ v.drop 16 := (List.take_append_drop 16 v).symm
    have htl : (v.take 16).length = 16 := by
      rw [List.length_take]
      omega
    have h1 : insertion_sort comp v 0 (0 + 16)
        = (v.take 16).foldl (fun acc x => insertBack comp x acc) [] ++ v.drop 16 := by
      have := insertion_sort_eq comp hswo (v.take 16) (v.drop 16)
      rw [← hsplit, htl] at this
      simpa using this
    rw [h1]
    have hp16 := foldl_insertBack_perm comp (v.take 16) []
    have hs16 := foldl_insertBack_sorted comp hswo (v.take 16) [] List.Pairwise.nil
    rw [List.nil_append] at hp16
    have hT16 : ((v.take 16).foldl (fun acc x => insertBack comp x acc) []).length = 16 := by
      rw [hp16.length_eq, htl]
    have h0mem : vecGet v 0 ∈ (v.take 16).foldl (fun acc x => insertBack comp x acc) [] := by
      rw [hp16.mem_iff]
      have : vecGet v 0 = vecGet (v.take 16) 0 := by
        conv_lhs => rw [hsplit]
        exact vecGet_append_left _ _ 0 (by omega)
      rw [this]
      exact vecGet_mem _ 0 (by omega)
    have hR : ∀ x ∈ v.drop 16, comp x (vecGet v 0) = false := by
      intro x hx
      obtain ⟨k, hk, rfl⟩ := List.getElem_of_mem hx
      rw [List.length_drop] at hk
      have := hsent (16 + k) (by omega) (by omega)
      rw [vecGet_eq_getElem v (16 + k) (by omega)] at this
      simpa using this
    have h2 := unguarded_insertion_sort_fold_eq comp (vecGet v 0) (v.drop 16)
      ((v.take 16).foldl (fun acc x => insertBack comp x acc) []) [] h0mem hR
    rw [hT16, List.length_drop, List.append_nil, List.append_nil] at h2
    unfold unguarded_insertion_sort
    have hidx : 0 + 16 = 16 := by omega
    rw [hidx, h2]
    refine ⟨?_, foldl_insertBack_sorted comp hswo _ _ hs16⟩
    refine (foldl_insertBack_perm comp (v.drop 16) _).trans ?_
    conv_rhs => rw [hsplit]
    exact hp16.append_right _
  · rw [if_neg hlen]
    have := insertion_sort_eq comp hswo v []
    rw [List.append_nil, List.append_nil] at this
    rw [this]
    have hp := foldl_insertBack_perm comp v []
    rw [List.nil_append] at hp
    exact ⟨hp, foldl_insertBack_sorted comp hswo v [] List.Pairwise.nil⟩

theorem count_set_add_getD {α : Type} [DecidableEq α] (x b d : α) :
    ∀ (v : List α) (i : Nat), i < v.length →
      (v.set i x).count b + (if v.getD i d = b then 1 else 0)
        = v.count b + (if x = b then 1 else 0) := by
  intro v
  induction v with
  | nil => intro i hi; simp at hi
  | cons a v ih =>
    intro i hi
    cases i with
    | zero =>
      simp only [List.set_cons_zero, List.count_cons, List.getD_cons_zero, beq_iff_eq]
      omega
    | succ i =>
      have := ih i (by simpa using hi)
      simp only [List.set_cons_succ, List.count_cons, List.getD_cons_succ, beq_iff_eq]
      omega

theorem count_set_add (x b : XrefEntry) (v : List XrefEntry) (i : Nat) (hi : i < v.length) :
    @List.count XrefEntry instBEqOfDecidableEq b (v.set i x)
        + (if vecGet v i = b then 1 else 0)
      = @List.count XrefEntry instBEqOfDecidableEq b v + (if x = b then 1 else 0) :=
  count_set_add_getD x b (0, []) v i hi

theorem iter_swap_length (v : List XrefEntry) (i j : Nat) :
    (iter_swap v i j).length = v.length := by
  simp [iter_swap]

theorem iter_swap_get (v : List XrefEntry) (i j k : Nat) (hi : i < v.length)
    (hj : j < v.length) :
    vecGet (iter_swap v i j) k
      = if k = j then vecGet v i else if k = i then vecGet v j else vecGet v k := by
  unfold iter_swap
  rw [vecGet_set _ j k _ (by simpa using hj), vecGet_set v i k _ hi]

theorem iter_swap_perm (v : List XrefEntry) (i j : Nat) (hi : i < v.length)
    (hj : j < v.length) : List.Perm (iter_swap v i j) v := by
  rw [List.perm_iff_count]
  intro b
  have h1 := count_set_add (vecGet v j) b v i hi
  have h2 := count_set_add (vecGet v i) b (v.set i (vecGet v j)) j (by simpa using hj)
  rw [vecGet_set v i j _ hi] at h2
  unfold iter_swap
  by_cases hji : j = i
  · subst hji
    simp only [if_true] at h2
    omega
  · rw [if_neg hji] at h2
    omega

theorem Rearranged_refl (v : List XrefEntry) (a b : Nat) : Rearranged v v a b :=
  ⟨rfl, fun _ _ => rfl, List.Perm.refl v⟩

theorem Rearranged_trans (v1 v2 v3 : List XrefEntry) (a b : Nat)
    (h12 : Rearranged v1 v2 a b) (h23 : Rearranged v2 v3 a b) : Rearranged v1 v3 a b :=
  ⟨h23.1.trans h12.1, fun k hk => (h23.2.1 k hk).trans (h12.2.1 k hk),
    h23.2.2.trans h12.2.2⟩

theorem Rearranged_mono (v1 v2 : List XrefEntry) (a b a2 b2 : Nat) (ha : a2 ≤ a)
    (hb : b ≤ b2) (h : Rearranged v1 v2 a b) : Rearranged v1 v2 a2 b2 :=
  ⟨h.1, fun k hk => h.2.1 k (by omega), h.2.2⟩

theorem iter_swap_rearranged (v : List XrefEntry) (a b i j : Nat) (hai : a ≤ i)
    (hib : i < b) (haj : a ≤ j) (hjb : j < b) (hb : b ≤ v.length) :
    Rearranged v (iter_swap v i j) a b := by
  refine ⟨iter_swap_length v i j, fun k hk => ?_, iter_swap_perm v i j (by omega) (by omega)⟩
  rw [iter_swap_get v i j k (by omega) (by omega), if_neg (by omega), if_neg (by omega)]

theorem take_eq_of_get (a : Nat) :
    ∀ (v1 v2 : List XrefEntry), v2.length = v1.length →
      (∀ k, k < a → vecGet v2 k = vecGet v1 k) → v2.take a = v1.take a := by
  intro v1 v2 hlen hget
  apply List.ext_getElem
  · simp [hlen]
  · intro k h1 h2
    have hk : k < a := by
      rw [List.length_take] at h1
      omega
    have hk2 : k < v2.length := by
      rw [List.length_take] at h1
      omega
    have := hget k hk
    rw [vecGet_eq_getElem v2 k hk2, vecGet_eq_getElem v1 k (by omega)] at this
    simpa using this

theorem drop_eq_of_get (b : Nat) :
    ∀ (v1 v2 : List XrefEntry), v2.length = v1.length →
      (∀ k, b ≤ k → vecGet v2 k = vecGet v1 k) → v2.drop b = v1.drop b := by
  intro v1 v2 hlen hget
  apply List.ext_getElem
  · simp [hlen]
  · intro k h1 h2
    have hk2 : b + k < v2.length := by
      rw [List.length_drop] at h1
      omega
    have := hget (b + k) (by omega)
    rw [vecGet_eq_getElem v2 _ hk2, vecGet_eq_getElem v1 _ (by omega)] at this
    simpa using this

theorem Rearranged_slice_perm (v1 v2 : List XrefEntry) (a b : Nat)
    (h : Rearranged v1 v2 a b) :
    List.Perm ((v2.drop a).take (b - a)) ((v1.drop a).take (b - a)) := by
  obtain ⟨hlen, hout, hperm⟩ := h
  have ht := take_eq_of_get a v1 v2 hlen (fun k hk => hout k (Or.inl hk))
  have hd : (v2.drop a).drop (b - a) = (v1.drop a).drop (b - a) := by
    rw [List.drop_drop, List.drop_drop]
    exact drop_eq_of_get _ v1 v2 hlen (fun k hk => hout k (Or.inr (by omega)))
  have e1 : v1 = v1.take a ++ ((v1.drop a).take (b - a) ++ (v1.drop a).drop (b - a)) := by
    rw [List.take_append_drop, List.take_append_drop]
  have e2 : v2 = v2.take a ++ ((v2.drop a).take (b - a) ++ (v2.drop a).drop (b - a)) := by
    rw [List.take_append_drop, List.take_append_drop]
  rw [e1, e2, ht, hd] at hperm
  exact (List.perm_append_right_iff _).mp ((List.perm_append_left_iff _).mp hperm)

theorem vecGet_mem_slice (v : List XrefEntry) (a b k : Nat) (hak : a ≤ k) (hkb : k < b)
    (hb : b ≤ v.length) : vecGet v k ∈ (v.drop a).take (b - a) := by
  rw [vecGet_eq_getElem v k (by omega)]
  have h1 : k - a < ((v.drop a).take (b - a)).length := by
    rw [List.length_take, List.length_drop]
    omega
  have : ((v.drop a).take (b - a))[k - a] = v[k] := by
    rw [List.getElem_take, List.getElem_drop]
    congr 1
    omega
  rw [← this]
  exact List.getElem_mem h1

theorem mem_slice_vecGet (v : List XrefEntry) (a b : Nat) (x : XrefEntry)
    (hx : x ∈ (v.drop a).take (b - a)) :
    ∃ k, a ≤ k ∧ k < b ∧ k < v.length ∧ vecGet v k = x := by
  obtain ⟨k, hk, rfl⟩ := List.getElem_of_mem hx
  rw [List.length_take, List.length_drop] at hk
  refine ⟨a + k, by omega, by omega, by omega, ?_⟩
  rw [vecGet_eq_getElem v (a + k) (by omega), List.getElem_take, List.getElem_drop]

theorem Rearranged_transfer (v1 v2 : List XrefEntry) (a b k : Nat)
    (h : Rearranged v1 v2 a b) (hak : a ≤ k) (hkb : k < b) (hb : b ≤ v1.length) :
    ∃ k2, a ≤ k2 ∧ k2 < b ∧ vecGet v1 k2 = vecGet v2 k := by
  have hmem := vecGet_mem_slice v2 a b k hak hkb (by rw [h.1]; exact hb)
  rw [(Rearranged_slice_perm v1 v2 a b h).mem_iff] at hmem
  obtain ⟨k2, h1, h2, _, h4⟩ := mem_slice_vecGet v1 a b _ hmem
  exact ⟨k2, h1, h2, h4⟩

theorem partition_advance_spec (comp : XrefEntry → XrefEntry → Bool) (v : List XrefEntry)
    (p ks : Nat) (hks : comp (vecGet v ks) (vecGet v p) = false) :
    ∀ (fuel f : Nat), f ≤ ks → ks - f < fuel →
      f ≤ partition_advance comp v p fuel f
      ∧ partition_advance comp v p fuel f ≤ ks
      ∧ comp (vecGet v (partition_advance comp v p fuel f)) (vecGet v p) = false
      ∧ ∀ k, f ≤ k → k < partition_advance comp v p fuel f →
          comp (vecGet v k) (vecGet v p) = true := by
  intro fuel
  induction fuel with
  | zero => intro f _ h; omega
  | succ fuel ih =>
    intro f hf hfuel
    unfold partition_advance
    by_cases hc : comp (vecGet v f) (vecGet v p) = true
    · rw [if_pos hc]
      have hne : f ≠ ks := by
        intro h
        rw [h, hks] at hc
        exact absurd hc (by simp)
      obtain ⟨h1, h2, h3, h4⟩ := ih (f + 1) (by omega) (by omega)
      refine ⟨by omega, h2, h3, fun k hk1 hk2 => ?_⟩
      by_cases hkf : k = f
      · rw [hkf]; exact hc
      · exact h4 k (by omega) hk2
    · rw [if_neg hc]
      exact ⟨le_refl _, hf, by simpa using hc, fun k hk1 hk2 => by omega⟩

theorem partition_retreat_spec (comp : XrefEntry → XrefEntry → Bool)
    (hirr : ∀ a, comp a a = false) (v : List XrefEntry) (p : Nat) :
    ∀ (fuel l : Nat), p ≤ l → l - p < fuel →
      p ≤ partition_retreat comp v p fuel l
      ∧ partition_retreat comp v p fuel l ≤ l
      ∧ comp (vecGet v p) (vecGet v (partition_retreat comp v p fuel l)) = false
      ∧ ∀ k, partition_retreat comp v p fuel l < k → k ≤ l →
          comp (vecGet v p) (vecGet v k) = true := by
  intro fuel
  induction fuel with
  | zero => intro l _ h; omega
  | succ fuel ih =>
    intro l hl hfuel
    unfold partition_retreat
    by_cases hc : comp (vecGet v p) (vecGet v l) = true
    · rw [if_pos hc]
      have hne : l ≠ p := by
        intro h
        rw [h, hirr] at hc
        exact absurd hc (by simp)
      obtain ⟨h1, h2, h3, h4⟩ := ih (l - 1) (by omega) (by omega)
      refine ⟨h1, by omega, h3, fun k hk1 hk2 => ?_⟩
      by_cases hkl : k = l
      · rw [hkl]; exact hc
      · exact h4 k hk1 (by omega)
    · rw [if_neg hc]
      exact ⟨hl, le_refl _, by simpa using hc, fun k hk1 hk2 => by omega⟩

theorem unguarded_partition_spec (comp : XrefEntry → XrefEntry → Bool)
    (hswo : StrictWeakOrdering comp) (p last0 : Nat) :
    ∀ (fuel : Nat) (v : List XrefEntry) (f l : Nat),
      p < f → f ≤ l → l ≤ last0 → last0 ≤ v.length →
      (∀ k, p < k → k < f → comp (vecGet v p) (vecGet v k) = false) →
      (∀ k, l ≤ k → k < last0 → comp (vecGet v k) (vecGet v p) = false) →
      (∃ k, f ≤ k ∧ k < last0 ∧ comp (vecGet v k) (vecGet v p) = false) →
      last0 - f ≤ fuel →
      Rearranged v (unguarded_partition comp p fuel v f l).1 (p + 1) last0
      ∧ p < (unguarded_partition comp p fuel v f l).2
      ∧ (unguarded_partition comp p fuel v f l).2 < last0
      ∧ (∀ k, p < k → k < (unguarded_partition comp p fuel v f l).2 →
          comp (vecGet (unguarded_partition comp p fuel v f l).1 p)
            (vecGet (unguarded_partition comp p fuel v f l).1 k) = false)
      ∧ (∀ k, (unguarded_partition comp p fuel v f l).2 ≤ k → k < last0 →
          comp (vecGet (unguarded_partition comp p fuel v f l).1 k)
            (vecGet (unguarded_partition comp p fuel v f l).1 p) = false) := by
  intro fuel
  induction fuel with
  | zero =>
    intro v f l _ _ _ _ _ _ hs hfuel
    obtain ⟨k, h1, h2, _⟩ := hs
    omega
  | succ fuel ih =>
    intro v f l hpf hfl hl hlast hi hii hs hfuel
    obtain ⟨ks, hks1, hks2, hks3⟩ := hs
    obtain ⟨a1, a2, a3, a4⟩ := partition_advance_spec comp v p ks hks3 v.length f hks1
      (by omega)
    obtain ⟨r1, r2, r3, r4⟩ := partition_retreat_spec comp hswo.1 v p v.length (l - 1)
      (by omega) (by omega)
    unfold unguarded_partition
    simp only []
    generalize partition_advance comp v p v.length f = f1 at a1 a2 a3 a4
    generalize partition_retreat comp v p v.length (l - 1) = l1 at r1 r2 r3 r4
    by_cases hlt : f1 < l1
    · rw [if_pos hlt]
      have hsw := iter_swap_rearranged v (p + 1) last0 f1 l1 (by omega) (by omega) (by omega)
        (by omega) hlast
      have hget := fun k => iter_swap_get v f1 l1 k (by omega) (by omega)
      have hp : vecGet (iter_swap v f1 l1) p = vecGet v p := hsw.2.1 p (Or.inl (by omega))
      have := ih (iter_swap v f1 l1) (f1 + 1) l1 (by omega) (by omega) (by omega)
        (by rw [iter_swap_length]; exact hlast)
        (by
          intro k hk1 hk2
          rw [hp, hget k]
          by_cases h1 : k = l1
          · omega
          · rw [if_neg h1]
            by_cases h2 : k = f1
            · rw [if_pos h2]; exact r3
            · rw [if_neg h2]
              by_cases h3 : k < f
              · exact hi k hk1 h3
              · exact StrictWeakOrdering_asymm comp hswo _ _ (a4 k (by omega) (by omega)))
        (by
          intro k hk1 hk2
          rw [hp, hget k]
          by_cases h1 : k = l1
          · rw [if_pos h1]; exact a3
          · rw [if_neg h1, if_neg (by omega)]
            by_cases h3 : l ≤ k
            · exact hii k h3 hk2
            · exact StrictWeakOrdering_asymm comp hswo _ _ (r4 k (by omega) (by omega)))
        ⟨l1, by omega, by omega, by rw [hp, hget l1, if_pos rfl]; exact a3⟩
        (by omega)
      obtain ⟨q1, q2, q3, q4, q5⟩ := this
      exact ⟨Rearranged_trans _ _ _ _ _ hsw q1, q2, q3, q4, q5⟩
    · rw [if_neg hlt]
      refine ⟨Rearranged_refl _ _ _, by omega, by omega, fun k hk1 hk2 => ?_,
        fun k hk1 hk2 => ?_⟩
      · by_cases h3 : k < f
        · exact hi k hk1 h3
        · exact StrictWeakOrdering_asymm comp hswo _ _ (a4 k (by omega) hk2)
      · by_cases h0 : k = f1
        · rw [h0]; exact a3
        · by_cases h3 : l ≤ k
          · exact hii k h3 hk2
          · exact StrictWeakOrdering_asymm comp hswo _ _ (r4 k (by omega) (by omega))

theorem median_swap_spec (comp : XrefEntry → XrefEntry → Bool) (v : List XrefEntry)
    (first last m k : Nat) (hm1 : first < m) (hm2 : m < last) (hk1 : first < k)
    (hk2 : k < last) (hkm : k ≠ m) (hlast : last ≤ v.length)
    (hle : comp (vecGet v k) (vecGet v m) = false) :
    Rearranged v (iter_swap v first m) first last
    ∧ ∃ k2, first + 1 ≤ k2 ∧ k2 < last
        ∧ comp (vecGet (iter_swap v first m) k2) (vecGet (iter_swap v first m) first)
          = false := by
  refine ⟨iter_swap_rearranged v first last first m (le_refl _) (by omega) (by omega) hm2
    hlast, k, by omega, hk2, ?_⟩
  rw [iter_swap_get v first m k (by omega) (by omega),
    iter_swap_get v first m first (by omega) (by omega), if_neg hkm, if_neg (by omega),
    if_neg (by omega), if_pos rfl]
  exact hle

theorem move_median_to_first_spec (comp : XrefEntry → XrefEntry → Bool)
    (hswo : StrictWeakOrdering comp) (v : List XrefEntry) (first last a b c : Nat)
    (ha1 : first < a) (ha2 : a < last) (hb1 : first < b) (hb2 : b < last)
    (hc1 : first < c) (hc2 : c < last) (hab : a ≠ b) (hac : a ≠ c) (hbc : b ≠ c)
    (hlast : last ≤ v.length) :
    Rearranged v (move_median_to_first comp v first a b c) first last
    ∧ ∃ k2, first + 1 ≤ k2 ∧ k2 < last
        ∧ comp (vecGet (move_median_to_first comp v first a b c) k2)
            (vecGet (move_median_to_first comp v first a b c) first) = false := by
  unfold move_median_to_first
  by_cases h1 : comp (vecGet v a) (vecGet v b) = true
  · rw [if_pos h1]
    by_cases h2 : comp (vecGet v b) (vecGet v c) = true
    · rw [if_pos h2]
      exact median_swap_spec comp v first last b c hb1 hb2 hc1 hc2 (Ne.symm hbc) hlast
        (StrictWeakOrdering_asymm comp hswo _ _ h2)
    · rw [if_neg h2]
      by_cases h3 : comp (vecGet v a) (vecGet v c) = true
      · rw [if_pos h3]
        exact median_swap_spec comp v first last c b hc1 hc2 hb1 hb2 hbc hlast
          (by simpa using h2)
      · rw [if_neg h3]
        exact median_swap_spec comp v first last a b ha1 ha2 hb1 hb2 (Ne.symm hab) hlast
          (StrictWeakOrdering_asymm comp hswo _ _ h1)
  · rw [if_neg h1]
    by_cases h3 : comp (vecGet v a) (vecGet v c) = true
    · rw [if_pos h3]
      exact median_swap_spec comp v first last a c ha1 ha2 hc1 hc2 (Ne.symm hac) hlast
        (StrictWeakOrdering_asymm comp hswo _ _ h3)
    · rw [if_neg h3]
      by_cases h2 : comp (vecGet v b) (vecGet v c) = true
      · rw [if_pos h2]
        exact median_swap_spec comp v first last c a hc1 hc2 ha1 ha2 hac hlast
          (by simpa using h3)
      · rw [if_neg h2]
        exact median_swap_spec comp v first last b a hb1 hb2 ha1 ha2 hab hlast
          (by simpa using h1)

theorem unguarded_partition_pivot_spec (comp : XrefEntry → XrefEntry → Bool)
    (hswo : StrictWeakOrdering comp) (v : List XrefEntry) (first last : Nat)
    (hlen : 16 < last - first) (hlast : last ≤ v.length) :
    Rearranged v (unguarded_partition_pivot comp v first last).1 first last
    ∧ first < (unguarded_partition_pivot comp v first last).2
    ∧ (unguarded_partition_pivot comp v first last).2 < last
    ∧ (∀ i j, first ≤ i → i < (unguarded_partition_pivot comp v first last).2 →
        (unguarded_partition_pivot comp v first last).2 ≤ j → j < last →
        comp (vecGet (unguarded_partition_pivot comp v first last).1 j)
          (vecGet (unguarded_partition_pivot comp v first last).1 i) = false) := by
  unfold unguarded_partition_pivot
  simp only []
  obtain ⟨m1, k2, m2, m3, m4⟩ := move_median_to_first_spec comp hswo v first last (first + 1)
    (first + (last - first) / 2) (last - 1) (by omega) (by omega) (by omega) (by omega)
    (by omega) (by omega) (by omega) (by omega) (by omega) hlast
  generalize move_median_to_first comp v first (first + 1) (first + (last - first) / 2)
    (last - 1) = v1 at m1 m4
  have hlast1 : last ≤ v1.length := by rw [m1.1]; exact hlast
  obtain ⟨q1, q2, q3, q4, q5⟩ := unguarded_partition_spec comp hswo first last v1.length v1
    (first + 1) last (by omega) (by omega) (le_refl _) hlast1
    (fun k hk1 hk2 => by omega) (fun k hk1 hk2 => by omega) ⟨k2, m2, m3, m4⟩ (by omega)
  generalize unguarded_partition comp first v1.length v1 (first + 1) last = r at q1 q2 q3 q4 q5
  refine ⟨Rearranged_trans _ _ _ _ _ m1 (Rearranged_mono _ _ _ _ _ _ (by omega) (le_refl _) q1),
    q2, q3, fun i j hi1 hi2 hj1 hj2 => ?_⟩
  by_cases hif : i = first
  · rw [hif]
    exact q5 j hj1 hj2
  · exact StrictWeakOrdering_negtrans comp hswo _ _ _ (q4 i (by omega) hi2) (q5 j hj1 hj2)

theorem InSubtree_le (t h : Nat) (hs : InSubtree t h) : t ≤ h := by
  induction hs with
  | root => exact le_refl _
  | child h c _ hp hc ih => omega

theorem InSubtree_parent (t h : Nat) (hs : InSubtree t h) (hne : h ≠ t) :
    InSubtree t ((h - 1) / 2) ∧ t ≤ (h - 1) / 2 ∧ 0 < h := by
  cases hs with
  | root => exact absurd rfl hne
  | child h2 c hs2 hp hc =>
    rw [hp]
    exact ⟨hs2, InSubtree_le t h2 hs2, hc⟩

theorem vecGet_set_off (v : List XrefEntry) (first h k : Nat) (x : XrefEntry)
    (hh : first + h < v.length) :
    vecGet (v.set (first + h) x) (first + k) = if k = h then x else vecGet v (first + k) := by
  rw [vecGet_set v (first + h) (first + k) x hh]
  by_cases hk : k = h
  · rw [if_pos hk, if_pos (by omega)]
  · rw [if_neg hk, if_neg (by omega)]

theorem hole_move (v : List XrefEntry) (i j : Nat) (value : XrefEntry) (hi : i < v.length)
    (hij : i ≠ j) :
    (v.set i (vecGet v j)).set j value = iter_swap (v.set i value) i j := by
  unfold iter_swap
  rw [vecGet_set v i j value hi, if_neg (Ne.symm hij), vecGet_set v i i value hi, if_pos rfl,
    List.set_set]

theorem hole_move_rearranged (v : List XrefEntry) (first len h c : Nat) (value : XrefEntry)
    (hh : h < len) (hc : c < len) (hhc : h ≠ c) (hlen : first + len ≤ v.length) :
    Rearranged (v.set (first + h) value)
      ((v.set (first + h) (vecGet v (first + c))).set (first + c) value)
      first (first + len) := by
  rw [hole_move v (first + h) (first + c) value (by omega) (by omega)]
  exact iter_swap_rearranged _ first (first + len) (first + h) (first + c) (by omega) (by omega)
    (by omega) (by omega) (by simpa using hlen)

theorem HoleInv_child (comp : XrefEntry → XrefEntry → Bool) (v : List XrefEntry)
    (first len t h m : Nat) (hinv : HoleInv comp v first len t h) (hm : m < len)
    (hpar : (m - 1) / 2 = h) (hm0 : 0 < m) (hlen : first + len ≤ v.length)
    (hsib : ∀ c, c < len → (c - 1) / 2 = h → 0 < c → c ≠ m →
      comp (vecGet v (first + m)) (vecGet v (first + c)) = false) :
    HoleInv comp (v.set (first + h) (vecGet v (first + m))) first len t m := by
  obtain ⟨hh, hsub, hb, hc⟩ := hinv
  have hth := InSubtree_le t h hsub
  have hget := fun k => vecGet_set_off v first h k (vecGet v (first + m)) (by omega)
  refine ⟨hm, InSubtree.child h m hsub hpar hm0, ?_, ?_⟩
  · intro i hi0 hil hti him hqm
    rw [hget, hget]
    by_cases hq : (i - 1) / 2 = h
    · rw [if_pos hq, if_neg (by omega)]
      exact hsib i hil hq hi0 him
    · rw [if_neg hq]
      by_cases hih : i = h
      · rw [if_pos hih]
        have hne : h ≠ t := by omega
        have := hc hne m hm hpar hm0
        rw [hih]
        exact this
      · rw [if_neg hih]
        exact hb i hi0 hil hti hih hq
  · intro _ c hcl hcp hc0
    rw [hget, hget, hpar, if_pos rfl, if_neg (by omega)]
    have := hb c hc0 hcl (by omega) (by omega) (by omega)
    rw [hcp] at this
    exact this

theorem adjust_heap_down_spec (comp : XrefEntry → XrefEntry → Bool)
    (hswo : StrictWeakOrdering comp) (first len t : Nat) (value : XrefEntry) :
    ∀ (fuel : Nat) (v : List XrefEntry) (h : Nat),
      HoleInv comp v first len t h → first + len ≤ v.length → len - h ≤ fuel →
      ∃ v1 h1, adjust_heap_down comp first len fuel v h h = (v1, h1, h1)
        ∧ HoleInv comp v1 first len t h1 ∧ (len - 1) / 2 ≤ h1 ∧ v1.length = v.length
        ∧ Rearranged (v.set (first + h) value) (v1.set (first + h1) value)
            first (first + len) := by
  intro fuel
  induction fuel with
  | zero =>
    intro v h hinv _ hfuel
    have := hinv.1
    omega
  | succ fuel ih =>
    intro v h hinv hlen hfuel
    have hh := hinv.1
    unfold adjust_heap_down
    by_cases hlt : h < (len - 1) / 2
    · rw [if_pos hlt]
      simp only []
      by_cases hcmp : comp (vecGet v (first + 2 * (h + 1)))
          (vecGet v (first + (2 * (h + 1) - 1))) = true
      · rw [if_pos hcmp]
        have hinv2 := HoleInv_child comp v first len t h (2 * (h + 1) - 1) hinv (by omega)
          (by omega) (by omega) hlen (by
            intro c hcl hcp hc0 hcm
            have : c = 2 * (h + 1) := by omega
            rw [this]
            exact StrictWeakOrdering_asymm comp hswo _ _ hcmp)
        obtain ⟨v1, h1, e1, e2, e3, e4, e5⟩ := ih _ (2 * (h + 1) - 1) hinv2
          (by simpa using hlen) (by omega)
        refine ⟨v1, h1, e1, e2, e3, by simpa using e4, ?_⟩
        exact Rearranged_trans _ _ _ _ _
          (hole_move_rearranged v first len h (2 * (h + 1) - 1) value hh (by omega)
            (by omega) hlen) e5
      · rw [if_neg hcmp]
        have hinv2 := HoleInv_child comp v first len t h (2 * (h + 1)) hinv (by omega)
          (by omega) (by omega) hlen (by
            intro c hcl hcp hc0 hcm
            have : c = 2 * (h + 1) - 1 := by omega
            rw [this]
            simpa using hcmp)
        obtain ⟨v1, h1, e1, e2, e3, e4, e5⟩ := ih _ (2 * (h + 1)) hinv2
          (by simpa using hlen) (by omega)
        refine ⟨v1, h1, e1, e2, e3, by simpa using e4, ?_⟩
        exact Rearranged_trans _ _ _ _ _
          (hole_move_rearranged v first len h (2 * (h + 1)) value hh (by omega)
            (by omega) hlen) e5
    · rw [if_neg hlt]
      exact ⟨v, h, rfl, hinv, by omega, rfl, Rearranged_refl _ _ _⟩

theorem push_heap_spec (comp : XrefEntry → XrefEntry → Bool)
    (hswo : StrictWeakOrdering comp) (first len t : Nat) (value : XrefEntry) :
    ∀ (fuel : Nat) (v : List XrefEntry) (h : Nat),
      HoleInv comp v first len t h →
      (∀ c, c < len → (c - 1) / 2 = h → 0 < c →
        comp value (vecGet v (first + c)) = false) →
      first + len ≤ v.length → h < fuel →
      HeapFrom comp (push_heap comp first t value fuel v h) first len t
      ∧ Rearranged (v.set (first + h) value) (push_heap comp first t value fuel v h)
          first (first + len) := by
  intro fuel
  induction fuel with
  | zero => intro v h _ _ _ hf; omega
  | succ fuel ih =>
    intro v h hinv he hlen hfuel
    obtain ⟨hh, hsub, hb, hc⟩ := hinv
    have hth := InSubtree_le t h hsub
    unfold push_heap
    simp only []
    by_cases hcond : (decide (t < h) && comp (vecGet v (first + (h - 1) / 2)) value) = true
    · rw [if_pos hcond]
      simp only [Bool.and_eq_true, decide_eq_true_eq] at hcond
      obtain ⟨hlt, hpv⟩ := hcond
      have hne : h ≠ t := by omega
      obtain ⟨hsubp, htp, hh0⟩ := InSubtree_parent t h hsub hne
      have hget := fun k => vecGet_set_off v first h k (vecGet v (first + (h - 1) / 2))
        (by omega)
      have hpg : (h - 1) / 2 ≠ t → comp (vecGet v (first + ((h - 1) / 2 - 1) / 2))
          (vecGet v (first + (h - 1) / 2)) = false := by
        intro hpt
        obtain ⟨_, htg, hp0⟩ := InSubtree_parent t _ hsubp hpt
        exact hb ((h - 1) / 2) hp0 (by omega) htg (by omega) (by omega)
      have hinv2 : HoleInv comp (v.set (first + h) (vecGet v (first + (h - 1) / 2)))
          first len t ((h - 1) / 2) := by
        refine ⟨by omega, hsubp, ?_, ?_⟩
        · intro i hi0 hil hti hip hqp
          rw [hget, hget]
          by_cases hq : (i - 1) / 2 = h
          · rw [if_pos hq, if_neg (by omega)]
            exact hc hne i hil hq hi0
          · rw [if_neg hq]
            by_cases hih : i = h
            · rw [hih] at hqp
              exact absurd rfl hqp
            · rw [if_neg hih]
              exact hb i hi0 hil hti hih hq
        · intro hpt c hcl hcp hc0
          rw [hget, hget, if_neg (by omega)]
          by_cases hch : c = h
          · rw [if_pos hch]
            exact hpg hpt
          · rw [if_neg hch]
            have h1 := hb c hc0 hcl (by omega) hch (by omega)
            rw [hcp] at h1
            exact StrictWeakOrdering_negtrans comp hswo _ _ _ h1 (hpg hpt)
      have he2 : ∀ c, c < len → (c - 1) / 2 = (h - 1) / 2 → 0 < c →
          comp value (vecGet (v.set (first + h) (vecGet v (first + (h - 1) / 2)))
            (first + c)) = false := by
        intro c hcl hcp hc0
        rw [hget]
        by_cases hch : c = h
        · rw [if_pos hch]
          exact StrictWeakOrdering_asymm comp hswo _ _ hpv
        · rw [if_neg hch]
          have h1 := hb c hc0 hcl (by omega) hch (by omega)
          rw [hcp] at h1
          exact StrictWeakOrdering_asymm comp hswo _ _
            (StrictWeakOrdering_lt_of_le_of_lt comp hswo _ _ _ h1 hpv)
      obtain ⟨r1, r2⟩ := ih _ ((h - 1) / 2) hinv2 he2 (by simpa using hlen) (by omega)
      exact ⟨r1, Rearranged_trans _ _ _ _ _
        (hole_move_rearranged v first len h ((h - 1) / 2) value hh (by omega) (by omega) hlen)
        r2⟩
    · rw [if_neg hcond]
      simp only [Bool.and_eq_true, decide_eq_true_eq, not_and, Bool.not_eq_true] at hcond
      have hget := fun k => vecGet_set_off v first h k value (by omega)
      refine ⟨?_, Rearranged_refl _ _ _⟩
      intro i hi0 hil hti
      rw [hget, hget]
      by_cases hq : (i - 1) / 2 = h
      · rw [if_pos hq, if_neg (by omega)]
        exact he i hil hq hi0
      · rw [if_neg hq]
        by_cases hih : i = h
        · rw [if_pos hih]
          have := hcond (by omega)
          rw [hih]
          exact this
        · rw [if_neg hih]
          exact hb i hi0 hil hti hih hq

theorem adjust_heap_spec (comp : XrefEntry → XrefEntry → Bool)
    (hswo : StrictWeakOrdering comp) (v : List XrefEntry) (first t len : Nat)
    (value : XrefEntry) (ht : t < len) (hlen : first + len ≤ v.length)
    (hheap : HeapFrom comp v first len (t + 1)) :
    HeapFrom comp (adjust_heap comp v first t len value) first len t
    ∧ Rearranged (v.set (first + t) value) (adjust_heap comp v first t len value)
        first (first + len) := by
  have hinv : HoleInv comp v first len t t :=
    ⟨ht, InSubtree.root, fun i hi0 hil hti _ hq => hheap i hi0 hil (by omega),
      fun h => absurd rfl h⟩
  obtain ⟨v1, h1, e1, e2, e3, e4, e5⟩ := adjust_heap_down_spec comp hswo first len t value
    v.length v t hinv hlen (by omega)
  have hh1 := e2.1
  unfold adjust_heap
  simp only []
  rw [e1]
  simp only []
  by_cases hcond : len % 2 = 0 ∧ h1 = (len - 2) / 2
  · rw [if_pos hcond]
    have hinv2 := HoleInv_child comp v1 first len t h1 (2 * (h1 + 1) - 1) e2 (by omega)
      (by omega) (by omega) (by rw [e4]; exact hlen) (by
        intro c hcl hcp hc0 hcm
        omega)
    obtain ⟨r1, r2⟩ := push_heap_spec comp hswo first len t value v.length _
      (2 * (h1 + 1) - 1) hinv2 (fun c hcl hcp hc0 => by omega)
      (by simpa [e4] using hlen) (by omega)
    refine ⟨r1, Rearranged_trans _ _ _ _ _ e5 (Rearranged_trans _ _ _ _ _ ?_ r2)⟩
    exact hole_move_rearranged v1 first len h1 (2 * (h1 + 1) - 1) value hh1 (by omega)
      (by omega) (by rw [e4]; exact hlen)
  · rw [if_neg hcond]
    obtain ⟨r1, r2⟩ := push_heap_spec comp hswo first len t value v.length v1 h1 e2
      (fun c hcl hcp hc0 => by omega) (by rw [e4]; exact hlen) (by omega)
    exact ⟨r1, Rearranged_trans _ _ _ _ _ e5 r2⟩

theorem set_vecGet_self (v : List XrefEntry) (i : Nat) (hi : i < v.length) :
    v.set i (vecGet v i) = v := by
  apply List.ext_getElem
  · simp
  · intro k h1 h2
    rw [List.getElem_set]
    split
    · rename_i h
      subst h
      rw [vecGet_eq_getElem v i hi]
    · rfl

theorem make_heap_loop_spec (comp : XrefEntry → XrefEntry → Bool)
    (hswo : StrictWeakOrdering comp) (first len : Nat) :
    ∀ (parent : Nat) (v : List XrefEntry), parent < len → first + len ≤ v.length →
      HeapFrom comp v first len (parent + 1) →
      HeapFrom comp (make_heap_loop comp first len parent v) first len 0
      ∧ Rearranged v (make_heap_loop comp first len parent v) first (first + len) := by
  intro parent
  induction parent with
  | zero =>
    intro v hp hlen hheap
    unfold make_heap_loop
    obtain ⟨r1, r2⟩ := adjust_heap_spec comp hswo v first 0 len (vecGet v first) hp hlen hheap
    rw [Nat.add_zero, set_vecGet_self v first (by omega)] at r2
    exact ⟨r1, r2⟩
  | succ parent ih =>
    intro v hp hlen hheap
    unfold make_heap_loop
    obtain ⟨r1, r2⟩ := adjust_heap_spec comp hswo v first (parent + 1) len
      (vecGet v (first + (parent + 1))) hp hlen hheap
    rw [set_vecGet_self v _ (by omega)] at r2
    obtain ⟨q1, q2⟩ := ih _ (by omega) (by rw [r2.1]; exact hlen) r1
    exact ⟨q1, Rearranged_trans _ _ _ _ _ r2 q2⟩

theorem make_heap_spec (comp : XrefEntry → XrefEntry → Bool)
    (hswo : StrictWeakOrdering comp) (v : List XrefEntry) (first last : Nat)
    (hfl : first ≤ last) (hlast : last ≤ v.length) :
    HeapFrom comp (make_heap comp v first last) first (last - first) 0
    ∧ Rearranged v (make_heap comp v first last) first last := by
  unfold make_heap
  by_cases hlt : last - first < 2
  · rw [if_pos hlt]
    exact ⟨fun i hi0 hil _ => by omega, Rearranged_refl _ _ _⟩
  · rw [if_neg hlt]
    obtain ⟨r1, r2⟩ := make_heap_loop_spec comp hswo first (last - first)
      ((last - first - 2) / 2) v (by omega) (by omega) (fun i hi0 hil hlo => by omega)
    have : first + (last - first) = last := by omega
    rw [this] at r2
    exact ⟨r1, r2⟩

theorem heap_root_max (comp : XrefEntry → XrefEntry → Bool)
    (hswo : StrictWeakOrdering comp) (v : List XrefEntry) (first len : Nat)
    (hheap : HeapFrom comp v first len 0) :
    ∀ i, i < len → comp (vecGet v first) (vecGet v (first + i)) = false := by
  intro i
  induction i using Nat.strong_induction_on with
  | _ i ih =>
    intro hi
    by_cases h0 : i = 0
    · rw [h0]
      exact hswo.1 _
    · have h1 := hheap i (by omega) hi (Nat.zero_le _)
      have h2 := ih ((i - 1) / 2) (by omega) (by omega)
      exact StrictWeakOrdering_negtrans comp hswo _ _ _ h1 h2

theorem pop_heap_spec (comp : XrefEntry → XrefEntry → Bool)
    (hswo : StrictWeakOrdering comp) (v : List XrefEntry) (first count : Nat)
    (hc : 0 < count) (hlen : first + count + 1 ≤ v.length)
    (hheap : HeapFrom comp v first (count + 1) 0) :
    HeapFrom comp (pop_heap comp v first (first + count) (first + count)) first count 0
    ∧ Rearranged v (pop_heap comp v first (first + count) (first + count)) first
        (first + count + 1)
    ∧ (∀ k, k < count →
        comp (vecGet (pop_heap comp v first (first + count) (first + count)) (first + count))
          (vecGet (pop_heap comp v first (first + count) (first + count)) (first + k))
          = false) := by
  have hmax := heap_root_max comp hswo v first (count + 1) hheap
  unfold pop_heap
  simp only []
  have hlen1 : (v.set (first + count) (vecGet v first)).length = v.length := by simp
  have hget1 := fun k => vecGet_set_off v first count k (vecGet v first) (by omega)
  have hsub : first + count - first = count := by omega
  rw [hsub]
  have hheap1 : HeapFrom comp (v.set (first + count) (vecGet v first)) first count (0 + 1) := by
    intro i hi0 hil hlo
    rw [hget1, hget1, if_neg (by omega), if_neg (by omega)]
    exact hheap i hi0 (by omega) (Nat.zero_le _)
  obtain ⟨r1, r2⟩ := adjust_heap_spec comp hswo (v.set (first + count) (vecGet v first)) first 0
    count (vecGet v (first + count)) hc (by rw [hlen1]; omega) hheap1
  have hw : (v.set (first + count) (vecGet v first)).set (first + 0) (vecGet v (first + count))
      = iter_swap v (first + count) first := rfl
  rw [hw] at r2
  have hsw := iter_swap_rearranged v first (first + count + 1) (first + count) first (by omega)
    (by omega) (le_refl _) (by omega) hlen
  have hswget := fun k => iter_swap_get v (first + count) first k (by omega) (by omega)
  refine ⟨r1, Rearranged_trans _ _ _ _ _ hsw
    (Rearranged_mono _ _ _ _ _ _ (le_refl _) (by omega) r2), ?_⟩
  intro k hk
  have hlast : vecGet (adjust_heap comp (v.set (first + count) (vecGet v first)) first 0 count
      (vecGet v (first + count))) (first + count) = vecGet v first := by
    rw [r2.2.1 (first + count) (Or.inr (le_refl _)), hswget, if_neg (by omega), if_pos rfl]
  rw [hlast]
  obtain ⟨k2, hk1, hk2, hk3⟩ := Rearranged_transfer _ _ first (first + count) (first + k) r2
    (by omega) (by omega) (by rw [iter_swap_length]; omega)
  rw [← hk3, hswget]
  by_cases hkf : k2 = first
  · rw [if_pos hkf]
    exact hmax count (by omega)
  · rw [if_neg hkf, if_neg (by omega)]
    have := hmax (k2 - first) (by omega)
    have e : first + (k2 - first) = k2 := by omega
    rw [e] at this
    exact this

theorem sort_heap_spec (comp : XrefEntry → XrefEntry → Bool)
    (hswo : StrictWeakOrdering comp) (first n : Nat) :
    ∀ (count : Nat) (v : List XrefEntry), first + n ≤ v.length → count + 1 ≤ n →
      HeapFrom comp v first (count + 1) 0 →
      (∀ i j, i < count + 1 → count + 1 ≤ j → j < n →
        comp (vecGet v (first + j)) (vecGet v (first + i)) = false) →
      Rearranged v (sort_heap comp first (count + 1) v) first (first + n)
      ∧ ∀ j, 0 < j → j < n →
          comp (vecGet (sort_heap comp first (count + 1) v) (first + j))
            (vecGet (sort_heap comp first (count + 1) v) first) = false := by
  intro count
  induction count with
  | zero =>
    intro v hlen hn hheap hinv
    unfold sort_heap
    rw [if_neg (by simp)]
    refine ⟨Rearranged_refl _ _ _, fun j hj0 hjn => ?_⟩
    have := hinv 0 j (Nat.zero_lt_succ _) (Nat.succ_le_of_lt hj0) hjn
    rw [Nat.add_zero] at this
    exact this
  | succ count ih =>
    intro v hlen hn hheap hinv
    unfold sort_heap
    rw [if_pos (by omega)]
    obtain ⟨p1, p2, p3⟩ := pop_heap_spec comp hswo v first (count + 1) (by omega) (by omega)
      hheap
    generalize pop_heap comp v first (first + (count + 1)) (first + (count + 1)) = v1
      at p1 p2 p3
    have hinv1 : ∀ i j, i < count + 1 → count + 1 ≤ j → j < n →
        comp (vecGet v1 (first + j)) (vecGet v1 (first + i)) = false := by
      intro i j hi hj hjn
      obtain ⟨k2, hk1, hk2, hk3⟩ := Rearranged_transfer v v1 first (first + (count + 1) + 1)
        (first + i) p2 (by omega) (by omega) (by omega)
      by_cases hjc : j = count + 1
      · rw [hjc]
        exact p3 i hi
      · rw [p2.2.1 (first + j) (Or.inr (by omega)), ← hk3]
        have := hinv (k2 - first) j (by omega) (by omega) hjn
        have e : first + (k2 - first) = k2 := by omega
        rw [e] at this
        exact this
    obtain ⟨q1, q2⟩ := ih v1 (by rw [p2.1]; exact hlen) (by omega) p1 hinv1
    exact ⟨Rearranged_trans _ _ _ _ _ (Rearranged_mono _ _ _ _ _ _ (le_refl _) (by omega) p2) q1,
      q2⟩

theorem partial_sort_spec (comp : XrefEntry → XrefEntry → Bool)
    (hswo : StrictWeakOrdering comp) (v : List XrefEntry) (first last : Nat)
    (hfl : first < last) (hlast : last ≤ v.length) :
    Rearranged v (partial_sort comp v first last) first last
    ∧ ∀ j, first < j → j < last →
        comp (vecGet (partial_sort comp v first last) j)
          (vecGet (partial_sort comp v first last) first) = false := by
  unfold partial_sort
  obtain ⟨m1, m2⟩ := make_heap_spec comp hswo v first last (by omega) hlast
  generalize make_heap comp v first last = v1 at m1 m2
  obtain ⟨n1, hn⟩ : ∃ n1, last - first = n1 + 1 := ⟨last - first - 1, by omega⟩
  rw [hn] at m1 ⊢
  obtain ⟨q1, q2⟩ := sort_heap_spec comp hswo first (n1 + 1) n1 v1 (by rw [m2.1]; omega)
    (le_refl _) m1 (fun i j hi hj hjn => by omega)
  have e : first + (n1 + 1) = last := by omega
  rw [e] at q1
  refine ⟨Rearranged_trans _ _ _ _ _ m2 q1, fun j hj1 hj2 => ?_⟩
  have := q2 (j - first) (by omega) (by omega)
  have e2 : first + (j - first) = j := by omega
  rw [e2] at this
  exact this

theorem introsort_loop_spec (comp : XrefEntry → XrefEntry → Bool)
    (hswo : StrictWeakOrdering comp) :
    ∀ (fuel : Nat) (v : List XrefEntry) (first last depth : Nat),
      first ≤ last → last ≤ v.length → depth < fuel →
      Rearranged v (introsort_loop comp fuel v first last depth) first last
      ∧ ∀ j, first + 16 ≤ j → j < last →
          comp (vecGet (introsort_loop comp fuel v first last depth) j)
            (vecGet (introsort_loop comp fuel v first last depth) first) = false := by
  intro fuel
  induction fuel with
  | zero => intro v first last depth _ _ h; omega
  | succ fuel ih =>
    intro v first last depth hfl hlast hfuel
    unfold introsort_loop
    by_cases hbig : 16 < last - first
    · rw [if_pos hbig]
      by_cases hd : depth = 0
      · rw [if_pos hd]
        obtain ⟨p1, p2⟩ := partial_sort_spec comp hswo v first last (by omega) hlast
        exact ⟨p1, fun j hj1 hj2 => p2 j (by omega) hj2⟩
      · rw [if_neg hd]
        simp only []
        obtain ⟨c1, c2, c3, c4⟩ := unguarded_partition_pivot_spec comp hswo v first last hbig
          hlast
        generalize unguarded_partition_pivot comp v first last = r at c1 c2 c3 c4
        obtain ⟨v1, cut⟩ := r
        simp only [] at c1 c2 c3 c4 ⊢
        have hl1 : last ≤ v1.length := by rw [c1.1]; exact hlast
        obtain ⟨a1, _⟩ := ih v1 cut last (depth - 1) (by omega) hl1 (by omega)
        generalize introsort_loop comp fuel v1 cut last (depth - 1) = v2 at a1
        have hl2 : last ≤ v2.length := by rw [a1.1]; exact hl1
        obtain ⟨b1, b2⟩ := ih v2 first cut (depth - 1) (by omega) (by omega) (by omega)
        generalize introsort_loop comp fuel v2 first cut (depth - 1) = v3 at b1 b2
        refine ⟨Rearranged_trans _ _ _ _ _ c1 (Rearranged_trans _ _ _ _ _
          (Rearranged_mono _ _ _ _ _ _ (by omega) (le_refl _) a1)
          (Rearranged_mono _ _ _ _ _ _ (le_refl _) (by omega) b1)), fun j hj1 hj2 => ?_⟩
        by_cases hjc : j < cut
        · exact b2 j hj1 hjc
        · obtain ⟨i2, hi1, hi2, hi3⟩ := Rearranged_transfer v2 v3 first cut first b1
            (le_refl _) c2 (by omega)
          obtain ⟨j2, hj3, hj4, hj5⟩ := Rearranged_transfer v1 v2 cut last j a1
            (by omega) hj2 hl1
          rw [b1.2.1 j (Or.inr (by omega)), ← hj5, ← hi3, a1.2.1 i2 (Or.inl hi2)]
          exact c4 i2 j2 hi1 hi2 hj3 hj4
    · rw [if_neg hbig]
      exact ⟨Rearranged_refl _ _ _, fun j hj1 hj2 => by omega⟩

theorem std_lg_bound : ∀ (fuel n : Nat), std_lg fuel n * 2 ≤ n := by
  intro fuel
  induction fuel with
  | zero => intro n; simp [std_lg]
  | succ fuel ih =>
    intro n
    unfold std_lg
    by_cases h : 2 ≤ n
    · rw [if_pos h]
      have := ih (n / 2)
      omega
    · rw [if_neg h]
      omega

theorem libstdcxx_ranges_sort_contract : RangesSortContract libstdcxx_ranges_sort := by
  intro comp hswo v
  unfold libstdcxx_ranges_sort
  by_cases h0 : v.length = 0
  · rw [if_pos h0]
    have : v = [] := List.length_eq_zero.mp h0
    rw [this]
    exact ⟨List.Perm.refl _, List.Pairwise.nil⟩
  · rw [if_neg h0]
    have hb := std_lg_bound v.length v.length
    obtain ⟨r1, r2⟩ := introsort_loop_spec comp hswo (v.length + 1) v 0 v.length
      (std_lg v.length v.length * 2) (Nat.zero_le _) (le_refl _) (by omega)
    generalize introsort_loop comp (v.length + 1) v 0 v.length (std_lg v.length v.length * 2)
      = v1 at r1 r2
    have := final_insertion_sort_spec comp hswo v1 (fun j hj1 hj2 => by
      rw [r1.1] at hj2
      exact r2 j (by omega) hj2)
    rw [r1.1] at this
    exact ⟨this.1.trans r1.2.2, this.2⟩

theorem libstdcxx_ranges_sort_perm (v : List XrefEntry) :
    List.Perm (libstdcxx_ranges_sort FindXRefsComparator v) v :=
  (libstdcxx_ranges_sort_contract FindXRefsComparator FindXRefsComparator_strictWeakOrdering
    v).1

theorem pairwise_length_of_sorted (out : List XrefEntry)
    (hpw : List.Pairwise (fun a b => FindXRefsComparator b a = false) out) :
    List.Pairwise (fun a b : XrefEntry => a.2.length ≤ b.2.length) out := by
  refine hpw.imp ?_
  intro a b hab
  simp only [FindXRefsComparator, decide_eq_false_iff_not] at hab
  omega

/-- C14: `FindXRefs`, started on an empty vector with a sort routine that rearranges its
input, with decoded sizes in the 16-bit field, `maxSignatureLength + 65535 < 2^32`
and fuel `maxSignatureLength + 2` or more for every synthesis, returns a vector that is
a rearrangement of the entries of all origins, in enumeration order, that are code and
whose non-prompting synthesis succeeds: `(o, s)` is in it iff `o` is an enumerated
origin, is code, and `GenerateSignatureForEA` returns `s` there.  Origins that are not
code or whose synthesis returns no result contribute nothing and do not stop the loop. -/
theorem FindXRefs_collects_all_successes (h : Host) (IS_ARM : Bool)
    (ranges_sort : (XrefEntry → XrefEntry → Bool) → List XrefEntry → List XrefEntry)
    (xrefs_to : Nat → List Nat)
    (fuel ea : Nat) (wildcardOperands : Bool) (maxSignatureLength : Nat)
    (hsort : ∀ v, List.Perm (ranges_sort FindXRefsComparator v) v)
    (hsize : ∀ a, (h.decode_insn a).size < 65536)
    (hwrap : maxSignatureLength + 65535 < 4294967296)
    (hfuel : maxSignatureLength + 2 ≤ fuel) :
    ∃ out, FindXRefs h IS_ARM ranges_sort xrefs_to fuel ea wildcardOperands []
        maxSignatureLength = some out
      ∧ FindXRefsLoop h IS_ARM fuel wildcardOperands maxSignatureLength (xrefs_to ea) []
        = some ((xrefs_to ea).filterMap
            (collectEntry h IS_ARM fuel wildcardOperands maxSignatureLength))
      ∧ List.Perm out ((xrefs_to ea).filterMap
          (collectEntry h IS_ARM fuel wildcardOperands maxSignatureLength))
      ∧ (∀ o s, (o, s) ∈ out ↔
          (o ∈ xrefs_to ea ∧ h.is_code o = true
            ∧ GenerateSignatureForEA h IS_ARM fuel o wildcardOperands maxSignatureLength false
              = some (some s)))
      ∧ (∀ o ∈ xrefs_to ea, (h.is_code o = false
          ∨ GenerateSignatureForEA h IS_ARM fuel o wildcardOperands maxSignatureLength false
            = some none) → ∀ s, (o, s) ∉ out) := by
  have hloop := FindXRefsLoop_eq h IS_ARM fuel wildcardOperands maxSignatureLength
    (xrefs_to ea) [] (fun o _ _ => GenerateSignatureForEA_nonprompting_ne_none h IS_ARM fuel o
      wildcardOperands maxSignatureLength hsize hwrap hfuel)
  rw [List.nil_append] at hloop
  have hmem : ∀ o s, (o, s) ∈ ranges_sort FindXRefsComparator ((xrefs_to ea).filterMap
      (collectEntry h IS_ARM fuel wildcardOperands maxSignatureLength)) ↔
      (o ∈ xrefs_to ea ∧ h.is_code o = true
        ∧ GenerateSignatureForEA h IS_ARM fuel o wildcardOperands maxSignatureLength false
          = some (some s)) := by
    intro o s
    rw [(hsort _).mem_iff, List.mem_filterMap]
    constructor
    · rintro ⟨x, hx, hc⟩
      unfold collectEntry at hc
      by_cases hcode : h.is_code x = true
      · rw [if_pos hcode] at hc
        cases hg : GenerateSignatureForEA h IS_ARM fuel x wildcardOperands
            maxSignatureLength false with
        | none => rw [hg] at hc; exact absurd hc (by simp)
        | some r =>
          cases r with
          | none => rw [hg] at hc; exact absurd hc (by simp)
          | some s2 =>
            rw [hg] at hc
            simp only [Option.some.injEq, Prod.mk.injEq] at hc
            obtain ⟨rfl, rfl⟩ := hc
            exact ⟨hx, hcode, hg⟩
      · rw [if_neg hcode] at hc; exact absurd hc (by simp)
    · rintro ⟨hx, hcode, hg⟩
      refine ⟨o, hx, ?_⟩
      unfold collectEntry
      rw [if_pos hcode, hg]
  refine ⟨ranges_sort FindXRefsComparator ((xrefs_to ea).filterMap
    (collectEntry h IS_ARM fuel wildcardOperands maxSignatureLength)), ?_, hloop,
    hsort _, hmem, ?_⟩
  · unfold FindXRefs
    rw [hloop]
    rfl
  · intro o _ hskip s hin
    obtain ⟨_, hcode, hg⟩ := (hmem o s).mp hin
    rcases hskip with h1 | h1
    · rw [h1] at hcode; exact Bool.false_ne_true hcode
    · rw [h1] at hg; exact absurd hg (by simp)

theorem map_range_getD_eq_zipWith {β : Type} (f : Nat → XrefEntry → β) (l : List XrefEntry)
    (d : XrefEntry) (m : Nat) (hm : m ≤ l.length) :
    (List.range m).map (fun i => f i (l.getD i d))
      = List.zipWith f (List.range m) (l.take m) := by
  apply List.ext_getElem
  · simp [hm]
  · intro i h1 h2
    have hi : i < m := by simpa using h1
    have hil : i < l.length := by omega
    simp [List.getD_eq_getElem?_getD, List.getElem?_eq_getElem hil]

theorem take_min_length (l : List XrefEntry) (n : Nat) :
    l.take (min n l.length) = l.take n := by
  by_cases hn : n ≤ l.length
  · rw [Nat.min_eq_left hn]
  · rw [Nat.min_eq_right (by omega), List.take_of_length_le (le_refl _),
      List.take_of_length_le (by omega)]

theorem PrintXRefSignaturesForEA_eq (ea : Nat) (out : List XrefEntry)
    (sigType : SignatureType) (topCount : Nat) (hne : out ≠ []) :
    PrintXRefSignaturesForEA ea out sigType topCount
      = Event.msgTopSignatures (min topCount out.length) out.length ea ::
          (List.zipWith (emitEntry sigType) (List.range (min topCount out.length))
            (out.take topCount)).flatten := by
  unfold PrintXRefSignaturesForEA
  have hemp : out.isEmpty = false := by
    cases out with
    | nil => exact absurd rfl hne
    | cons a t => rfl
  rw [hemp]
  simp only [Bool.false_eq_true, if_false]
  have := map_range_getD_eq_zipWith (emitEntry sigType) out (0, [])
    (min topCount out.length) (Nat.min_le_right _ _)
  rw [take_min_length] at this
  rw [← this]
  rfl

theorem FindXRefs_some (h : Host) (IS_ARM : Bool)
    (ranges_sort : (XrefEntry → XrefEntry → Bool) → List XrefEntry → List XrefEntry)
    (xrefs_to : Nat → List Nat) (fuel ea : Nat) (wildcardOperands : Bool)
    (maxSignatureLength : Nat) (out : List XrefEntry)
    (hfind : FindXRefs h IS_ARM ranges_sort xrefs_to fuel ea wildcardOperands []
      maxSignatureLength = some out) :
    ∃ collected,
      FindXRefsLoop h IS_ARM fuel wildcardOperands maxSignatureLength (xrefs_to ea) []
        = some collected ∧ out = ranges_sort FindXRefsComparator collected := by
  unfold FindXRefs at hfind
  cases hl : FindXRefsLoop h IS_ARM fuel wildcardOperands maxSignatureLength (xrefs_to ea)
      [] with
  | none => rw [hl] at hfind; exact absurd hfind (by simp)
  | some collected =>
    rw [hl] at hfind
    simp only [Option.map_some', Option.some.injEq] at hfind
    exact ⟨collected, rfl, hfind.symm⟩

/-- C12: the comparator that `FindXRefs` passes to `std::ranges::sort` induces a strict
weak ordering, so the call is inside the routine's contract, and with any routine that
meets that contract the vector `FindXRefs` returns is a rearrangement of the collected
entries in non-decreasing order of signature length (what "sorted with respect to the
comparator" means for this comparator).  `PrintXRefSignaturesForEA` with `topCount = n`
emits, after its header line, exactly the first `min(n, count)` entries of that vector in
order (the first one also copied to the clipboard), so no omitted entry is shorter than
an emitted one; on an empty vector it only reports that there are no xrefs. -/
theorem FindXRefs_sorted_and_top_emitted (h : Host) (IS_ARM : Bool)
    (ranges_sort : (XrefEntry → XrefEntry → Bool) → List XrefEntry → List XrefEntry)
    (xrefs_to : Nat → List Nat)
    (fuel ea : Nat) (wildcardOperands : Bool) (maxSignatureLength : Nat)
    (out : List XrefEntry) (sigType : SignatureType) (topCount : Nat)
    (hsort : RangesSortContract ranges_sort)
    (hfind : FindXRefs h IS_ARM ranges_sort xrefs_to fuel ea wildcardOperands []
      maxSignatureLength = some out) :
    StrictWeakOrdering FindXRefsComparator
    ∧ (∃ collected,
      FindXRefsLoop h IS_ARM fuel wildcardOperands maxSignatureLength (xrefs_to ea) []
        = some collected
      ∧ out = ranges_sort (fun a b => decide (a.2.length < b.2.length)) collected
      ∧ List.Perm out collected)
    ∧ List.Pairwise (fun a b : XrefEntry => a.2.length ≤ b.2.length) out
    ∧ (out ≠ [] →
        PrintXRefSignaturesForEA ea out sigType topCount
          = Event.msgTopSignatures (min topCount out.length) out.length ea ::
              (List.zipWith (emitEntry sigType) (List.range (min topCount out.length))
                (out.take topCount)).flatten)
    ∧ (out = [] → PrintXRefSignaturesForEA ea out sigType topCount = [Event.msgNoXrefs])
    ∧ (out.take topCount).length = min topCount out.length
    ∧ (∀ a ∈ out.take topCount, ∀ b ∈ out.drop topCount, a.2.length ≤ b.2.length) := by
  obtain ⟨collected, hl, rfl⟩ := FindXRefs_some h IS_ARM ranges_sort xrefs_to fuel ea
    wildcardOperands maxSignatureLength out hfind
  have hc := hsort FindXRefsComparator FindXRefsComparator_strictWeakOrdering collected
  have hpw := pairwise_length_of_sorted _ hc.2
  refine ⟨FindXRefsComparator_strictWeakOrdering, ⟨collected, hl, rfl, hc.1⟩, hpw,
    PrintXRefSignaturesForEA_eq ea _ sigType topCount, ?_, List.length_take _ _, ?_⟩
  · intro hnil
    rw [hnil]
    rfl
  · intro a ha b hb
    have hsplit := List.take_append_drop topCount (ranges_sort FindXRefsComparator collected)
    rw [← hsplit] at hpw
    exact (List.pairwise_append.mp hpw).2.2 a ha b hb

theorem xrefHost_size_lt (a : Nat) : (xrefHost.decode_insn a).size < 65536 := by
  show (if a = 0 then insn_t.mk 5 []
      else if a = 5 then insn_t.mk 3 []
      else if a = 8 then insn_t.mk 7 []
      else if a = 15 then insn_t.mk 3 []
      else insn_t.mk 0 []).size < 65536
  split
  · decide
  · split
    · decide
    · split
      · decide
      · split <;> decide

set_option maxRecDepth 100000 in
theorem FindXRefs_sorted_and_top_emitted_witness :
    RangesSortContract libstdcxx_ranges_sort
    ∧ FindXRefsLoop xrefHost false 252 false 250 [0, 5, 8] []
      = some [(0, imageBytes xrefHost 0 5 false), (5, imageBytes xrefHost 5 3 false),
          (8, imageBytes xrefHost 8 7 false)]
    ∧ FindXRefs xrefHost false libstdcxx_ranges_sort (fun _ => [0, 5, 8]) 252 100 false [] 250
      = some [(5, imageBytes xrefHost 5 3 false), (0, imageBytes xrefHost 0 5 false),
          (8, imageBytes xrefHost 8 7 false)]
    ∧ PrintXRefSignaturesForEA 100
        [(5, imageBytes xrefHost 5 3 false), (0, imageBytes xrefHost 0 5 false),
          (8, imageBytes xrefHost 8 7 false)] SignatureType.IDA 2
      = [Event.msgTopSignatures 2 3 100,
          Event.msgXrefSignature 1 5 ['0', '6', ' ', '0', '7', ' ', '0', '8'],
          Event.SetClipboard ['0', '6', ' ', '0', '7', ' ', '0', '8'],
          Event.msgXrefSignature 2 0
            ['0', '1', ' ', '0', '2', ' ', '0', '3', ' ', '0', '4', ' ', '0', '5']]
    ∧ List.Pairwise (fun a b : XrefEntry => a.2.length ≤ b.2.length)
        [(5, imageBytes xrefHost 5 3 false), (0, imageBytes xrefHost 0 5 false),
          (8, imageBytes xrefHost 8 7 false)] :=
  ⟨libstdcxx_ranges_sort_contract, by decide, by decide, by decide,
    (FindXRefs_sorted_and_top_emitted xrefHost false libstdcxx_ranges_sort
      (fun _ => [0, 5, 8]) 252 100 false 250 _ SignatureType.IDA 2
      libstdcxx_ranges_sort_contract (by decide)).2.2.1⟩

set_option maxRecDepth 100000 in
theorem FindXRefs_collects_all_successes_witness :
    (∀ v, List.Perm (libstdcxx_ranges_sort FindXRefsComparator v) v)
    ∧ (∀ a, (xrefHost.decode_insn a).size < 65536)
    ∧ 250 + 65535 < 4294967296 ∧ 250 + 2 ≤ 252
    ∧ xrefHost.is_code 16 = false
    ∧ GenerateSignatureForEA xrefHost false 252 1 false 250 false = some none
    ∧ FindXRefs xrefHost false libstdcxx_ranges_sort (fun _ => [0, 16, 5, 1, 8]) 252 100
        false [] 250
      = some [(5, imageBytes xrefHost 5 3 false), (0, imageBytes xrefHost 0 5 false),
          (8, imageBytes xrefHost 8 7 false)]
    ∧ ∃ out, FindXRefs xrefHost false libstdcxx_ranges_sort (fun _ => [0, 16, 5, 1, 8]) 252
          100 false [] 250 = some out
      ∧ FindXRefsLoop xrefHost false 252 false 250 [0, 16, 5, 1, 8] []
        = some ([0, 16, 5, 1, 8].filterMap (collectEntry xrefHost false 252 false 250))
      ∧ List.Perm out ([0, 16, 5, 1, 8].filterMap (collectEntry xrefHost false 252 false 250))
      ∧ (∀ o s, (o, s) ∈ out ↔
          (o ∈ [0, 16, 5, 1, 8] ∧ xrefHost.is_code o = true
            ∧ GenerateSignatureForEA xrefHost false 252 o false 250 false = some (some s)))
      ∧ (∀ o ∈ [0, 16, 5, 1, 8], (xrefHost.is_code o = false
          ∨ GenerateSignatureForEA xrefHost false 252 o false 250 false = some none) →
          ∀ s, (o, s) ∉ out) :=
  ⟨libstdcxx_ranges_sort_perm, xrefHost_size_lt, by decide, by decide, by decide, by decide,
    by decide,
    FindXRefs_collects_all_successes xrefHost false libstdcxx_ranges_sort
      (fun _ => [0, 16, 5, 1, 8]) 252 100 false 250 libstdcxx_ranges_sort_perm
      xrefHost_size_lt (by decide) (by decide)⟩

end SigMaker
